import Mathlib

/-!
# Linear-track reward relocation controller: event-detection and timed-actuation engine

A shallow embedding of `helper.h` (with the constants of `config.h` and the
records of `data.h`).  Every routine is a pure function on explicit state
records.  Hardware reads are arguments, hardware writes and serial output are
returned as a list of `Effect`s in program order.  `unsigned long` values are
natural numbers below `2 ^ 32`; subtraction wraps (`usub`).
-/

namespace LinearTrack

/-! ## Machine arithmetic -/

/-- Number of values of an `unsigned long` on the target board (32 bits). -/
def ULONG_MOD : Nat := 2 ^ 32

/-- Wrapping `unsigned long` subtraction `a - b`. -/
def usub (a b : Nat) : Nat := (a + ULONG_MOD - b % ULONG_MOD) % ULONG_MOD

/-- The value of `-1` stored in an `unsigned long`: the "unset" sentinel. -/
def UNSET : Nat := ULONG_MOD - 1

/-! ## Board constants (Arduino core) -/

def LOW : Bool := false
def HIGH : Bool := true
def INPUT : Nat := 0
def OUTPUT : Nat := 1
def INPUT_PULLUP : Nat := 2

/-! ## config.h -/

def TIME_IN_MICROSECONDS : Bool := false

/-- The factor `(1 + (TIME_IN_MICROSECONDS * (1000 - 1)))` shared by all time parameters. -/
def timeFactor : Nat := 1 + (if TIME_IN_MICROSECONDS then 1 else 0) * (1000 - 1)

def SOLENOID_A_PIN : Nat := 7
def SOLENOID_B_PIN : Nat := 10

def SIDE_A : Nat := 0
def SIDE_B : Nat := 1
def OFF : Nat := 0
def ON : Nat := 1
def IR : Nat := 0
def TOUCH : Nat := 1
def SOLENOID : Nat := 2

def IR_ACTIVE_LOW : Bool := false
def TOUCH_ACTIVE_LOW : Bool := false
def SOLENOID_ACTIVE_LOW : Bool := true

def CLOCK_TOLERANCE : Nat := 20 * timeFactor
def TTL_DURATION : Nat := 50 * timeFactor
def TTL_PULSE_WIDTH : Nat := 20 * timeFactor
def TTL_PULSE_PERIOD : Nat := 50 * timeFactor
def DELAY_START : Nat := 4 * 1000 * timeFactor
def RUN_TIME_DURATION : Nat := 20 * 60 * 1000 * timeFactor
def MIN_IR_BREAK : Nat := 5 * timeFactor
def SOLENOID_DURATION : Nat := 40 * timeFactor
def LED_BLINK_INTERVAL : Nat := 500 * timeFactor

/-! ## Observable effects -/

/-- One hardware write or serial line, in the order the program performs them. -/
inductive Effect where
  /-- A call `pinMode(pin, mode)`. -/
  | pinMode (pin mode : Nat)
  /-- A call `digitalWrite(pin, level)`. -/
  | digitalWrite (pin : Nat) (level : Bool)
  /-- A call `eventLog(side, type, state, t)`: one serial line. -/
  | eventLog (side type state t : Nat)
  /-- The pair `Serial.print(c); Serial.println(t)`. -/
  | serialMark (c : Char) (t : Nat)
deriving DecidableEq, Repr

/-- The line level `digitalWrite` drives for a byte argument: low for `0`, high otherwise. -/
def levelOf (b : Nat) : Bool := b != 0

/-- The function `digitalReadCorrected`, given the level `raw` that `digitalRead(pin)` returns. -/
def digitalReadCorrected (raw : Bool) (sensorLogicLow : Bool) : Bool :=
  if sensorLogicLow then !raw else raw

/-- The function `digitalWriteCorrected`. -/
def digitalWriteCorrected (pin : Nat) (state : Bool) (activeLogicLow : Bool) : List Effect :=
  [Effect.digitalWrite pin (if activeLogicLow then !state else state)]

/-! ## Clock source -/

/-- The acceptance test of `currentTime`: the negation of the loop condition
`tNow - tLast > tolerance || tNow < tLast`. -/
def clockAccepts (tLast tolerance tNow : Nat) : Bool :=
  !(decide (usub tNow tLast > tolerance) || decide (tNow < tLast))

/-- The re-sampling loop of `currentTime`: `tNow` is the sample in hand, `raw` the values the
counter returns on the following reads.  The result is the accepted reading and the unread rest
of the stream, or `none` when the given stream ends with the loop still spinning. -/
def currentTimeLoop (tLast tolerance : Nat) (tNow : Nat) : List Nat → Option (Nat × List Nat)
  | [] => if clockAccepts tLast tolerance tNow then some (tNow, []) else none
  | s :: rest =>
    if clockAccepts tLast tolerance tNow then some (tNow, s :: rest)
    else currentTimeLoop tLast tolerance s rest

/-- The function `currentTime`.  `raw` lists the values returned by successive reads of the
selected counter (`micros()` when `timeInMicroseconds`, else `millis()`). -/
def currentTime (tLast tolerance : Nat) (raw : List Nat) : Option (Nat × List Nat) :=
  match raw with
  | [] => none
  | tNow :: rest =>
    if tLast ≠ UNSET then currentTimeLoop tLast tolerance tNow rest
    else some (tNow, rest)

/-! ## Pulse channel (TTL) -/

/-- Modelled from the spec: the declaration of `TTLState` is missing from `data.h`; the fields
are the ones `initTTL` assigns, the time fields being `unsigned long` like every other time
field of `data.h` (spec section 3, PulseChannel). -/
structure TTLState where
  pin : Nat
  mode : Nat
  state : Bool
  pulseState : Bool
  tTTLon : Nat
  tPulseon : Nat
  duration : Nat
  pulseWidth : Nat
  pulsePeriod : Nat
deriving DecidableEq, Repr

/-- The function `initTTL`. -/
def initTTL (pin mode duration pulsePeriod pulseWidth : Nat) : TTLState × List Effect :=
  ({ pin := pin, mode := mode, state := false, pulseState := false,
     tTTLon := UNSET, tPulseon := UNSET,
     duration := duration, pulseWidth := pulseWidth, pulsePeriod := pulsePeriod },
   Effect.pinMode pin mode :: (if mode = OUTPUT then [Effect.digitalWrite pin LOW] else []))

/-- The function `updateTTL`. -/
def updateTTL (ttlState : TTLState) (tNow : Nat) : TTLState × List Effect :=
  if ttlState.state then
    if usub tNow ttlState.tTTLon ≥ ttlState.duration then
      ({ ttlState with state := false, tTTLon := UNSET, tPulseon := UNSET },
       [Effect.digitalWrite ttlState.pin LOW])
    else if ttlState.pulseState then
      if usub tNow ttlState.tPulseon ≥ ttlState.pulseWidth
          ∧ ttlState.pulseWidth ≤ ttlState.pulsePeriod then
        ({ ttlState with pulseState := false }, [Effect.digitalWrite ttlState.pin LOW])
      else (ttlState, [])
    else
      if usub tNow ttlState.tPulseon ≥ ttlState.pulsePeriod then
        ({ ttlState with pulseState := true, tPulseon := tNow },
         [Effect.digitalWrite ttlState.pin HIGH])
      else (ttlState, [])
  else (ttlState, [])

/-- The function `sendTTL`. -/
def sendTTL (ttlState : TTLState) (tNow pulsePeriod : Nat) : TTLState × List Effect :=
  if !ttlState.state then
    ({ ttlState with state := true, pulseState := true, tTTLon := tNow, tPulseon := tNow,
                     pulsePeriod := pulsePeriod },
     [Effect.digitalWrite ttlState.pin HIGH])
  else (ttlState, [])

/-- The function `detectTTL`, given the level `v` that `digitalRead(ttlState->pin)` returns.
The second component is the returned `bool`. -/
def detectTTL (ttlState : TTLState) (v : Bool) (tNow : Nat) (completeSquarePulse : Bool) :
    TTLState × Bool :=
  if !ttlState.state && v then
    ({ ttlState with state := true, tTTLon := tNow },
     if !completeSquarePulse then true else false)
  else if ttlState.state && !v then
    let duration := usub tNow ttlState.tTTLon
    ({ ttlState with state := false, tTTLon := UNSET },
     if duration ≥ ttlState.pulseWidth then true else false)
  else (ttlState, false)

/-! ## Beam-break detector (IR) -/

/-- The record `IRState`: the fields of `data.h` together with the fields `proxyLEDPin` and
`ttlPulsePeriod` that `initIR` assigns.  The pointer `outputTrigger` is not a field here: the
pulse channel it points to is passed to, and returned by, every routine that follows it. -/
structure IRState where
  pin : Nat
  side : Nat
  proxyLEDPin : Nat
  currentRead : Bool
  lastRead : Bool
  currentPersistant : Bool
  lastPersistant : Bool
  inBreak : Bool
  breakEvent : Bool
  breakEventMutable : Bool
  connectEvent : Bool
  tStart : Nat
  tOff : Nat
  ttlPulsePeriod : Nat
deriving DecidableEq, Repr

/-- The function `initIR`, given the level `raw` that `digitalRead(pin)` returns.  The fields
`tStart` and `tOff` are not assigned by `initIR`; `tStart0` and `tOff0` are whatever the record
held before. -/
def initIR (pin side proxyLEDPin ttlPulsePeriod : Nat) (raw : Bool) (tStart0 tOff0 : Nat) :
    IRState × List Effect :=
  ({ pin := pin, side := side, proxyLEDPin := proxyLEDPin,
     currentRead := digitalReadCorrected raw IR_ACTIVE_LOW,
     lastRead := false, currentPersistant := false, lastPersistant := false,
     inBreak := false, breakEvent := false, breakEventMutable := false, connectEvent := true,
     tStart := tStart0, tOff := tOff0, ttlPulsePeriod := ttlPulsePeriod },
   [Effect.pinMode pin INPUT_PULLUP, Effect.pinMode proxyLEDPin OUTPUT,
    Effect.digitalWrite proxyLEDPin LOW])

/-- First statement of `detectIR`: entering and leaving the in-break state. -/
def detectIR_edge (irDetector : IRState) (v : Bool) (tNow : Nat) : IRState :=
  if (irDetector.currentRead || irDetector.lastRead) && v && !irDetector.inBreak then
    { irDetector with tStart := tNow, inBreak := true }
  else if !(irDetector.currentRead || irDetector.lastRead) && !v && irDetector.inBreak then
    { irDetector with tOff := tNow, inBreak := false }
  else irDetector

/-- Second statement of `detectIR`: the confirmed clear. -/
def detectIR_clear (irDetector : IRState) (tNow : Nat) : IRState × List Effect :=
  if decide (usub tNow irDetector.tOff ≥ MIN_IR_BREAK) && !irDetector.inBreak
      && irDetector.breakEvent then
    ({ irDetector with inBreak := false, breakEvent := false, breakEventMutable := false,
                       connectEvent := true },
     [Effect.eventLog irDetector.side IR OFF tNow,
      Effect.digitalWrite irDetector.proxyLEDPin LOW])
  else (irDetector, [])

/-- Third statement of `detectIR`: the confirmed break, with its pulse on the outbound channel. -/
def detectIR_break (irDetector : IRState) (out : TTLState) (tNow : Nat) :
    IRState × TTLState × List Effect :=
  if decide (usub tNow irDetector.tStart ≥ MIN_IR_BREAK) && irDetector.inBreak
      && irDetector.connectEvent then
    let sent := sendTTL out tNow irDetector.ttlPulsePeriod
    ({ irDetector with breakEvent := true, breakEventMutable := true, connectEvent := false },
     sent.1,
     [Effect.eventLog irDetector.side IR ON tNow,
      Effect.digitalWrite irDetector.proxyLEDPin HIGH] ++ sent.2)
  else (irDetector, out, [])

/-- Fourth statement of `detectIR` and the two closing assignments. -/
def detectIR_store (irDetector : IRState) (v : Bool) : IRState :=
  let s :=
    if irDetector.breakEventMutable then
      { irDetector with lastPersistant := irDetector.currentPersistant,
                        currentPersistant := true, breakEventMutable := false }
    else irDetector
  { s with lastRead := s.currentRead, currentRead := v }

/-- The function `detectIR`, given the level `raw` that `digitalRead(irDetector.pin)` returns
and the state `out` of the channel `irDetector.outputTrigger` points to. -/
def detectIR (irDetector : IRState) (out : TTLState) (raw : Bool) (tNow : Nat) :
    IRState × TTLState × List Effect :=
  let v := digitalReadCorrected raw IR_ACTIVE_LOW
  let s1 := detectIR_edge irDetector v tNow
  let r2 := detectIR_clear s1 tNow
  let r3 := detectIR_break r2.1 out tNow
  (detectIR_store r3.1 v, r3.2.1, r2.2 ++ r3.2.2)

/-- One call of `detectIR` as seen from the scheduler loop: the raw line level, the time passed
as `tNow`, and the state in which the call finds the outbound channel. -/
structure IRCall where
  raw : Bool
  tNow : Nat
  out : TTLState
deriving DecidableEq, Repr

/-- The detector state after a sequence of `detectIR` calls. -/
def irAfter (s : IRState) (calls : List IRCall) : IRState :=
  calls.foldl (fun st c => (detectIR st c.out c.raw c.tNow).1) s

/-- The effects of a sequence of `detectIR` calls, in order. -/
def irEffects (s : IRState) : List IRCall → List Effect
  | [] => []
  | c :: rest =>
    (detectIR s c.out c.raw c.tNow).2.2 ++ irEffects (detectIR s c.out c.raw c.tNow).1 rest

/-- The states (`ON` or `OFF`) of the IR lines of side `side` in an event log, in order. -/
def irLogStates (side : Nat) : List Effect → List Nat
  | [] => []
  | Effect.eventLog sd ty st _ :: rest =>
    if sd = side ∧ ty = IR then st :: irLogStates side rest else irLogStates side rest
  | _ :: rest => irLogStates side rest

/-- A list of states that reads `first`, then the other state, then `first` again, and so on. -/
def alternatesFrom (first other : Nat) : List Nat → Prop
  | [] => True
  | x :: rest => x = first ∧ alternatesFrom other first rest

/-! ## Touch detector -/

/-- The record `TouchState`: the fields of `data.h` together with `ttlPulsePeriod`; the channel
behind `outputTrigger` is passed explicitly. -/
structure TouchState where
  pin : Nat
  side : Nat
  current : Bool
  last : Bool
  inTouch : Bool
  touchEvent : Bool
  clearEvent : Bool
  tStart : Nat
  tOff : Nat
  ttlPulsePeriod : Nat
deriving DecidableEq, Repr

/-- The function `initTouch`, given the level `raw` read from the pin; `tStart0` and `tOff0`
are the values of the two fields it leaves unassigned. -/
def initTouch (pin side ttlPulsePeriod : Nat) (raw : Bool) (tStart0 tOff0 : Nat) :
    TouchState × List Effect :=
  ({ pin := pin, side := side, current := digitalReadCorrected raw TOUCH_ACTIVE_LOW,
     last := false, inTouch := false, touchEvent := false, clearEvent := true,
     tStart := tStart0, tOff := tOff0, ttlPulsePeriod := ttlPulsePeriod },
   [Effect.pinMode pin INPUT_PULLUP])

/-- The function `detectTouch`, given the level `raw` read from the pin and the state `out` of
the outbound channel. -/
def detectTouch (touchSensor : TouchState) (out : TTLState) (raw : Bool) (tNow : Nat) :
    TouchState × TTLState × List Effect :=
  let v := digitalReadCorrected raw TOUCH_ACTIVE_LOW
  let r : TouchState × TTLState × List Effect :=
    if v && !touchSensor.last then
      let sent := sendTTL out tNow touchSensor.ttlPulsePeriod
      ({ touchSensor with tStart := tNow, inTouch := true, touchEvent := true,
                          clearEvent := false },
       sent.1, Effect.eventLog touchSensor.side TOUCH ON tNow :: sent.2)
    else if !v && touchSensor.last then
      ({ touchSensor with inTouch := false, clearEvent := true, touchEvent := false },
       out, [Effect.eventLog touchSensor.side TOUCH OFF tNow])
    else (touchSensor, out, [])
  ({ r.1 with last := v }, r.2.1, r.2.2)

/-- One call of `detectTouch`: the raw line level, `tNow`, and the outbound channel it finds. -/
structure TouchCall where
  raw : Bool
  tNow : Nat
  out : TTLState
deriving DecidableEq, Repr

/-- The touch-sensor state after a sequence of `detectTouch` calls. -/
def touchAfter (s : TouchState) (calls : List TouchCall) : TouchState :=
  calls.foldl (fun st c => (detectTouch st c.out c.raw c.tNow).1) s

/-- The sample of the call before the next one: the raw level of the last call made, or the
value `false` that `initTouch` stores in `last` when no call has been made. -/
def previousSample (calls : List TouchCall) : Bool :=
  match calls.getLast? with
  | some c => c.raw
  | none => false

/-! ## Reward actuator (solenoid) -/

/-- The record `SolenoidState`: the fields of `data.h` together with `ttlPulsePeriod`; the
channel behind `outputTrigger` is passed explicitly. -/
structure SolenoidState where
  pin : Nat
  side : Nat
  isOpen : Bool
  tOpen : Nat
  tClose : Nat
  duration : Nat
  ttlPulsePeriod : Nat
deriving DecidableEq, Repr

/-- The function `activateSolenoid`; `out` is the state of the outbound channel. -/
def activateSolenoid (solenoidValve : SolenoidState) (out : TTLState) (tNow duration : Nat) :
    SolenoidState × TTLState × List Effect :=
  if solenoidValve.isOpen then (solenoidValve, out, [])
  else
    let sent := sendTTL out tNow solenoidValve.ttlPulsePeriod
    ({ solenoidValve with isOpen := true, tOpen := tNow, duration := duration },
     sent.1,
     digitalWriteCorrected solenoidValve.pin (levelOf ON) SOLENOID_ACTIVE_LOW
       ++ [Effect.eventLog solenoidValve.side SOLENOID ON tNow] ++ sent.2)

/-- The function `updateSolenoid`. -/
def updateSolenoid (solenoidValve : SolenoidState) (tNow : Nat) : SolenoidState × List Effect :=
  if solenoidValve.isOpen && decide (usub tNow solenoidValve.tOpen ≥ solenoidValve.duration) then
    ({ solenoidValve with isOpen := false, tClose := tNow },
     digitalWriteCorrected solenoidValve.pin (levelOf OFF) SOLENOID_ACTIVE_LOW
       ++ [Effect.eventLog solenoidValve.side SOLENOID OFF tNow])
  else (solenoidValve, [])

/-- A sequence of `updateSolenoid` ticks: the final state and the effects in order. -/
def updateSolenoidTicks (s : SolenoidState) : List Nat → SolenoidState × List Effect
  | [] => (s, [])
  | t :: rest =>
    ((updateSolenoidTicks (updateSolenoid s t).1 rest).1,
     (updateSolenoid s t).2 ++ (updateSolenoidTicks (updateSolenoid s t).1 rest).2)

/-- The solenoid lines of an event log with state `st`, as their time stamps in order. -/
def solenoidLogTimes (side st : Nat) : List Effect → List Nat
  | [] => []
  | Effect.eventLog sd ty s t :: rest =>
    if sd = side ∧ ty = SOLENOID ∧ s = st then t :: solenoidLogTimes side st rest
    else solenoidLogTimes side st rest
  | _ :: rest => solenoidLogTimes side st rest

/-! ## Sequences of pulse-channel calls -/

/-- One call on a pulse channel. -/
inductive PulseOp where
  /-- A call `sendTTL(channel, tNow, pulsePeriod)`. -/
  | send (tNow pulsePeriod : Nat)
  /-- A call `updateTTL(channel, tNow)`. -/
  | update (tNow : Nat)
  /-- A call `detectTTL(channel, tNow, completeSquarePulse)` that reads the level `v`. -/
  | detect (v : Bool) (tNow : Nat) (completeSquarePulse : Bool)
deriving DecidableEq, Repr

/-- The channel after one call. -/
def pulseApply (ch : TTLState) : PulseOp → TTLState
  | PulseOp.send t p => (sendTTL ch t p).1
  | PulseOp.update t => (updateTTL ch t).1
  | PulseOp.detect v t c => (detectTTL ch v t c).1

/-- The channel after a sequence of calls. -/
def pulseAfter (ch : TTLState) (ops : List PulseOp) : TTLState :=
  ops.foldl pulseApply ch

/-- The channel after a sequence of `detectTTL` calls, each given as the level read and `tNow`,
all with the same `completeSquarePulse`. -/
def detectAfter (ch : TTLState) (completeSquarePulse : Bool) (samples : List (Bool × Nat)) :
    TTLState :=
  samples.foldl (fun st x => (detectTTL st x.1 x.2 completeSquarePulse).1) ch

/-- The level read by the last call of a sequence, low when there has been no call. -/
def lastLevel (samples : List (Bool × Nat)) : Bool :=
  match samples.getLast? with
  | some x => x.1
  | none => false

/-- The plausibility test of the clock source in plain arithmetic: the sample is not before the
previous reading and at most `tolerance` after it. -/
def sampleAccepted (tLast tolerance s : Nat) : Prop := tLast ≤ s ∧ s - tLast ≤ tolerance

instance sampleAcceptedDecidable (tLast tolerance s : Nat) :
    Decidable (sampleAccepted tLast tolerance s) :=
  inferInstanceAs (Decidable (tLast ≤ s ∧ s - tLast ≤ tolerance))

/-! ## Pulse train observed tick by tick -/

/-- The writes to line `pin` among the effects of the call made `k` clock units after the
pulse was started, each as the pair of `k` and the level written. -/
def lineWrites (pin k : Nat) : List Effect → List (Nat × Bool)
  | [] => []
  | Effect.digitalWrite p level :: rest =>
    if p = pin then (k, level) :: lineWrites pin k rest else lineWrites pin k rest
  | _ :: rest => lineWrites pin k rest

/-- The scheduler calling `updateTTL` at every clock unit after a pulse started at `t0`: the
call `k` units after `t0` passes `tNow = t0 + k` (wrapped to an `unsigned long`), and the calls
go on until one finds the channel idle.  The result lists the writes to the line; it is `none`
when the `fuel` calls allowed do not suffice to reach the idle channel. -/
def pulseTrain (t0 : Nat) : Nat → Nat → TTLState → Option (List (Nat × Bool))
  | 0, _, ch => if ch.state then none else some []
  | fuel + 1, k, ch =>
    if ch.state then
      (pulseTrain t0 fuel (k + 1) (updateTTL ch ((t0 + k) % ULONG_MOD)).1).map
        (fun tr => lineWrites ch.pin k (updateTTL ch ((t0 + k) % ULONG_MOD)).2 ++ tr)
    else some []

/-- The high phases of a line, as pairs of the time it went high and the time it went low,
read off the list of writes to it.  The first argument is the time since which the line has been
high, `none` while it is low; writing a level the line already has starts or ends nothing. -/
def highPhases : Option Nat → List (Nat × Bool) → List (Nat × Nat)
  | _, [] => []
  | none, (k, true) :: rest => highPhases (some k) rest
  | none, (_, false) :: rest => highPhases none rest
  | some a, (k, false) :: rest => (a, k) :: highPhases none rest
  | some a, (_, true) :: rest => highPhases (some a) rest

/-- The channel `ch` while a pulse train started at `t0` with period `p` is running: active,
with the sub-pulse level `ps` and the last sub-pulse started `a` clock units after `t0`. -/
def trainState (ch : TTLState) (t0 p a : Nat) (ps : Bool) : TTLState :=
  { ch with state := true, pulseState := ps, tTTLon := t0,
            tPulseon := (t0 + a) % ULONG_MOD, pulsePeriod := p }

/-- The high phases of a pulse train from the one that starts `a` units after the start of the
pulse on: `n` phases a period `p` apart, each `w` long unless the total duration `d` ends it. -/
def phasesFrom (p w d : Nat) : Nat → Nat → List (Nat × Nat)
  | _, 0 => []
  | a, n + 1 => (a, min (a + w) d) :: phasesFrom p w d (a + p) n

/-! ## Runtime supervisor -/

/-- The record `RuntimeState`: the fields of `data.h`, the flag under the name `runtimeFlag` by
which `helper.h` uses it, and the two pointers.  `inputTrigger` is `none` for the null pointer
and otherwise holds the state of the channel pointed to.  `outputShared` says whether
`outputTrigger` points to that same channel; when it points to another one, the state of that
channel is passed to, and returned by, `updateRuntime`. -/
structure RuntimeState where
  led_pin : Nat
  runtimeFlag : Bool
  tNow : Nat
  tLast : Nat
  tStart : Nat
  tRuntimeStart : Nat
  duration : Nat
  delay : Nat
  inputTrigger : Option TTLState
  outputShared : Bool
deriving DecidableEq, Repr

/-- The function `initRuntime`.  `clock` lists the values the counter returns during the call;
`tNow0` and `tRuntimeStart0` are the values of the two fields it leaves unassigned;
`outputShared` says whether the pointer given as `outputTrigger` is the one given as
`inputTrigger`.  The result is `none` when the counter is never read (an empty `clock`). -/
def initRuntime (pin : Nat) (inputTrigger : Option TTLState) (duration delay : Nat)
    (clock : List Nat) (tNow0 tRuntimeStart0 : Nat) (outputShared : Bool) :
    Option (RuntimeState × List Effect) :=
  match currentTime UNSET CLOCK_TOLERANCE clock with
  | none => none
  | some (t, _) =>
    some ({ led_pin := pin, runtimeFlag := false, tNow := tNow0, tLast := UNSET, tStart := t,
            tRuntimeStart := tRuntimeStart0, duration := duration, delay := delay,
            inputTrigger := inputTrigger, outputShared := outputShared },
          [Effect.pinMode pin OUTPUT, Effect.digitalWrite pin (levelOf OFF)])

/-- What a call of `updateRuntime` leaves behind: the record, the outbound channel, the effects
in order, whether the call ends in the terminal `while (true);` instead of returning, and the
value of its local variable `inputTrigger` (what `detectTTL` reported; `false` when no trigger
is wired). -/
structure RuntimeResult where
  state : RuntimeState
  out : TTLState
  effects : List Effect
  spins : Bool
  triggered : Bool
deriving DecidableEq, Repr

/-- The three line writes at the head of both exit blocks of `updateRuntime`. -/
def runtimeHaltWrites (led_pin : Nat) : List Effect :=
  [Effect.digitalWrite led_pin (levelOf OFF)]
    ++ digitalWriteCorrected SOLENOID_A_PIN (levelOf OFF) SOLENOID_ACTIVE_LOW
    ++ digitalWriteCorrected SOLENOID_B_PIN (levelOf OFF) SOLENOID_ACTIVE_LOW

/-- The body of both start blocks of `updateRuntime`. -/
def runtimeStart (s : RuntimeState) : RuntimeState × List Effect :=
  ({ s with runtimeFlag := true, tRuntimeStart := s.tNow },
   [Effect.digitalWrite s.led_pin (levelOf ON), Effect.serialMark 'S' s.tNow])

/-- The branch of `updateRuntime` for `inputTrigger == nullptr`, entered with `tNow` stored. -/
def updateRuntimeUntriggered (s : RuntimeState) (out : TTLState) : RuntimeResult :=
  if s.runtimeFlag && decide (usub s.tNow s.tRuntimeStart ≥ s.duration) then
    { state := { s with runtimeFlag := false }, out := out,
      effects := runtimeHaltWrites s.led_pin ++ [Effect.serialMark 'E' s.tNow],
      spins := true, triggered := false }
  else
    let r :=
      if !s.runtimeFlag && decide (usub s.tNow s.tStart ≥ DELAY_START) then runtimeStart s
      else (s, [])
    { state := { r.1 with tLast := r.1.tNow }, out := out, effects := r.2,
      spins := false, triggered := false }

/-- The branch of `updateRuntime` for a wired input trigger whose channel is in state `trig`,
entered with `tNow` stored; `v` is the level `detectTTL` reads on the trigger line, and `out`
the state of the channel behind `outputTrigger` when that is another channel.  When both
pointers are the same channel, `out` is not looked at: `detectTTL` and `sendTTL` act on the one
channel in turn, and the result holds its state both in `inputTrigger` and in `out`. -/
def updateRuntimeTriggered (s : RuntimeState) (trig out : TTLState) (v : Bool) :
    RuntimeResult :=
  let d := detectTTL trig v s.tNow false
  let o := if s.outputShared then d.1 else out
  let r1 : RuntimeState × TTLState × List Effect :=
    if s.runtimeFlag && decide (usub s.tNow s.tRuntimeStart ≥ s.duration) then
      let sent := sendTTL o s.tNow TTL_PULSE_PERIOD
      ({ s with runtimeFlag := false }, sent.1,
       runtimeHaltWrites s.led_pin ++ sent.2 ++ [Effect.serialMark 'E' s.tNow])
    else (s, o, [])
  let r2 : RuntimeState × List Effect :=
    if d.2 && !r1.1.runtimeFlag then runtimeStart r1.1 else (r1.1, [])
  { state := { r2.1 with inputTrigger := some (if s.outputShared then r1.2.1 else d.1),
                         tLast := r2.1.tNow },
    out := r1.2.1, effects := r1.2.2 ++ r2.2, spins := false, triggered := d.2 }

/-- The function `updateRuntime`.  `clock` lists the values the counter returns during the call,
`v` is the level of the trigger line, `out` the state of the channel behind `outputTrigger`
(not looked at when that is the trigger channel itself).  The result is `none` when
`currentTime` does not return on the given `clock`. -/
def updateRuntime (runtimeState : RuntimeState) (out : TTLState) (v : Bool) (clock : List Nat) :
    Option RuntimeResult :=
  match currentTime runtimeState.tLast CLOCK_TOLERANCE clock with
  | none => none
  | some (tNow, _) =>
    match runtimeState.inputTrigger with
    | none => some (updateRuntimeUntriggered { runtimeState with tNow := tNow } out)
    | some trig => some (updateRuntimeTriggered { runtimeState with tNow := tNow } trig out v)

/-- One call of `updateRuntime` as seen from the scheduler loop: the counter values read during
the call, the level of the trigger line, and the state in which it finds the outbound channel. -/
structure RuntimeCall where
  clock : List Nat
  trigger : Bool
  out : TTLState
deriving DecidableEq, Repr

/-- The scheduler calling `updateRuntime` with the given inputs in turn: each call made, paired
with what it left behind.  The run ends at a call whose clock read does not return, and after a
call that ends in the terminal spin. -/
def runtimeRun (s : RuntimeState) : List RuntimeCall → List (RuntimeCall × RuntimeResult)
  | [] => []
  | c :: rest =>
    match updateRuntime s c.out c.trigger c.clock with
    | none => []
    | some r => if r.spins then [(c, r)] else (c, r) :: runtimeRun r.state rest

/-- The supervisor after a sequence of calls that all returned; `none` when one of them did not
(its clock read never returned, or it ended in the terminal spin). -/
def runtimeAfter (s : RuntimeState) : List RuntimeCall → Option RuntimeState
  | [] => some s
  | c :: rest =>
    match updateRuntime s c.out c.trigger c.clock with
    | none => none
    | some r => if r.spins then none else runtimeAfter r.state rest

/-! ## Blink indicator -/

/-- The record `BlinkLEDState` of `data.h`. -/
structure BlinkLEDState where
  pin : Nat
  side : Nat
  ledBlinkState : Bool
  blinkInterval : Nat
  tLEDon : Nat
  tLEDoff : Nat
deriving DecidableEq, Repr

/-- The function `initBlinkLED`. -/
def initBlinkLED (pin side blinkInterval : Nat) : BlinkLEDState × List Effect :=
  ({ pin := pin, side := side, tLEDon := 0, tLEDoff := 0, ledBlinkState := false,
     blinkInterval := blinkInterval },
   [Effect.pinMode pin OUTPUT])

/-- The function `updateBlinkLED`: its two `if` statements in turn. -/
def updateBlinkLED (ledState : BlinkLEDState) (tNow : Nat) : BlinkLEDState × List Effect :=
  let r1 : BlinkLEDState × List Effect :=
    if ledState.ledBlinkState && decide (usub tNow ledState.tLEDon > ledState.blinkInterval) then
      ({ ledState with tLEDoff := tNow, ledBlinkState := false },
       [Effect.digitalWrite ledState.pin (levelOf OFF)])
    else (ledState, [])
  let r2 : BlinkLEDState × List Effect :=
    if !r1.1.ledBlinkState && decide (usub tNow r1.1.tLEDoff > r1.1.blinkInterval) then
      ({ r1.1 with tLEDon := tNow, ledBlinkState := true },
       [Effect.digitalWrite r1.1.pin (levelOf ON)])
    else (r1.1, [])
  (r2.1, r1.2 ++ r2.2)

/-! ## Relations used by the invariants -/

/-- Two detector records that agree on every field except possibly `tStart` and `tOff`, and
that agree on `tStart` while in break and on `tOff` while out of break with a confirmed break
pending its clear. -/
def irAgree (a b : IRState) : Prop :=
  a.pin = b.pin ∧ a.side = b.side ∧ a.proxyLEDPin = b.proxyLEDPin
  ∧ a.currentRead = b.currentRead ∧ a.lastRead = b.lastRead
  ∧ a.currentPersistant = b.currentPersistant ∧ a.lastPersistant = b.lastPersistant
  ∧ a.inBreak = b.inBreak ∧ a.breakEvent = b.breakEvent
  ∧ a.breakEventMutable = b.breakEventMutable ∧ a.connectEvent = b.connectEvent
  ∧ a.ttlPulsePeriod = b.ttlPulsePeriod
  ∧ (a.inBreak = true → a.tStart = b.tStart)
  ∧ (a.inBreak = false → a.breakEvent = true → a.tOff = b.tOff)

/-! ## Runs of the supervisor without a trigger -/

/-- Calls of `updateRuntime` whose clock reads advance by the given steps from `t`: each call
reads one counter value, the previous one plus the next step. -/
def clockRamp (out : TTLState) : Nat → List Nat → List RuntimeCall
  | _, [] => []
  | t, d :: ds => ⟨[t + d], false, out⟩ :: clockRamp out (t + d) ds

/-- Two supervisor records that agree on everything but the clock fields `tNow` and `tLast`. -/
def rtSame (a b : RuntimeState) : Prop :=
  a.led_pin = b.led_pin ∧ a.runtimeFlag = b.runtimeFlag ∧ a.tStart = b.tStart
  ∧ a.tRuntimeStart = b.tRuntimeStart ∧ a.duration = b.duration
  ∧ a.inputTrigger = b.inputTrigger ∧ a.outputShared = b.outputShared

/-- A supervisor without a trigger, started at clock value `0` with the configured duration,
that is waiting for the start delay: its last clock reading is before `DELAY_START`. -/
def RtIdle (pin : Nat) (s : RuntimeState) : Prop :=
  s.led_pin = pin ∧ s.runtimeFlag = false ∧ s.inputTrigger = none ∧ s.tStart = 0
  ∧ s.duration = RUN_TIME_DURATION ∧ s.tLast < DELAY_START

/-- The same supervisor in its active window: the window started less than `CLOCK_TOLERANCE`
after `DELAY_START`, and at the last clock reading it had not yet run out. -/
def RtActive (pin : Nat) (s : RuntimeState) : Prop :=
  s.led_pin = pin ∧ s.runtimeFlag = true ∧ s.inputTrigger = none ∧ s.tStart = 0
  ∧ s.duration = RUN_TIME_DURATION
  ∧ DELAY_START ≤ s.tRuntimeStart ∧ s.tRuntimeStart < DELAY_START + CLOCK_TOLERANCE
  ∧ s.tRuntimeStart ≤ s.tLast ∧ s.tLast < s.tRuntimeStart + RUN_TIME_DURATION

/-- What the timing claim says of one call of the run: a start is logged only at a reading
less than `CLOCK_TOLERANCE` after `DELAY_START`, and the call that ends in the terminal spin
has the exit effects and reads a value less than `CLOCK_TOLERANCE` after the end of a window
that started less than `CLOCK_TOLERANCE` after `DELAY_START`. -/
def RtTimely (pin : Nat) (x : RuntimeCall × RuntimeResult) : Prop :=
  (∀ t, Effect.serialMark 'S' t ∈ x.2.effects →
    x.2.effects = [Effect.digitalWrite pin HIGH, Effect.serialMark 'S' x.2.state.tNow]
      ∧ DELAY_START ≤ x.2.state.tNow ∧ x.2.state.tNow < DELAY_START + CLOCK_TOLERANCE)
  ∧ (x.2.spins = true →
    x.2.effects = runtimeHaltWrites pin ++ [Effect.serialMark 'E' x.2.state.tNow]
      ∧ x.2.state.runtimeFlag = false
      ∧ DELAY_START ≤ x.2.state.tRuntimeStart
      ∧ x.2.state.tRuntimeStart < DELAY_START + CLOCK_TOLERANCE
      ∧ x.2.state.tRuntimeStart + RUN_TIME_DURATION ≤ x.2.state.tNow
      ∧ x.2.state.tNow < x.2.state.tRuntimeStart + RUN_TIME_DURATION + CLOCK_TOLERANCE)

/-! ## Reward actuator: initialisation and line level -/

/-- The function `initSolenoid`; `tOpen0`, `tClose0` and `duration0` are the values of the three
fields it leaves unassigned.  The parameter `ttlPulsePeriod` is accepted and not used: the
record gets the constant `TTL_PULSE_PERIOD`. -/
def initSolenoid (pin side ttlPulsePeriod : Nat) (tOpen0 tClose0 duration0 : Nat) :
    SolenoidState × List Effect :=
  let _ := ttlPulsePeriod
  ({ pin := pin, side := side, isOpen := false, tOpen := tOpen0, tClose := tClose0,
     duration := duration0, ttlPulsePeriod := TTL_PULSE_PERIOD },
   Effect.pinMode pin OUTPUT :: digitalWriteCorrected pin (levelOf OFF) SOLENOID_ACTIVE_LOW)

/-- One call on a solenoid: `activateSolenoid` with the outbound channel as it finds it, or
`updateSolenoid`. -/
inductive SolenoidOp where
  | activate (out : TTLState) (tNow duration : Nat)
  | update (tNow : Nat)
deriving DecidableEq, Repr

/-- The pin of the outbound channel a call can write, if it has one. -/
def SolenoidOp.outPin : SolenoidOp → Option Nat
  | SolenoidOp.activate out _ _ => some out.pin
  | SolenoidOp.update _ => none

/-- The record and the effects of one call on a solenoid. -/
def solenoidApply (s : SolenoidState) : SolenoidOp → SolenoidState × List Effect
  | SolenoidOp.activate out tNow duration =>
    ((activateSolenoid s out tNow duration).1, (activateSolenoid s out tNow duration).2.2)
  | SolenoidOp.update tNow => updateSolenoid s tNow

/-- A sequence of calls on a solenoid: the final record and all effects in order. -/
def solenoidRun (s : SolenoidState) (ops : List SolenoidOp) : SolenoidState × List Effect :=
  ops.foldl (fun acc op => ((solenoidApply acc.1 op).1, acc.2 ++ (solenoidApply acc.1 op).2))
    (s, [])

/-- The level a line is left at by a trace of effects: the level of the last `digitalWrite` to
`pin`, or `level` when the trace has none. -/
def lineAfter (pin : Nat) (level : Option Bool) (es : List Effect) : Option Bool :=
  es.foldl (fun cur e =>
    match e with
    | Effect.digitalWrite p l => if p = pin then some l else cur
    | _ => cur) level

/-! # Theorems -/

/-! ## Machine arithmetic -/

theorem usub_of_le {a b : Nat} (hab : b ≤ a) (ha : a < ULONG_MOD) : usub a b = a - b := by
  unfold usub
  have hb : b % ULONG_MOD = b := Nat.mod_eq_of_lt (lt_of_le_of_lt hab ha)
  rw [hb]
  have : a + ULONG_MOD - b = (a - b) + ULONG_MOD := by omega
  rw [this, Nat.add_mod_right]
  exact Nat.mod_eq_of_lt (by omega)

theorem usub_self {a : Nat} (ha : a < ULONG_MOD) : usub a a = 0 := by
  rw [usub_of_le (le_refl a) ha]; simp

theorem usub_lt (a b : Nat) : usub a b < ULONG_MOD := by
  unfold usub
  exact Nat.mod_lt _ (by unfold ULONG_MOD; positivity)

theorem MIN_IR_BREAK_pos : 0 < MIN_IR_BREAK := by decide

/-! ## Beam-break detector -/

theorem irAfter_nil (s : IRState) : irAfter s [] = s := rfl

theorem irAfter_concat (s : IRState) (pre : List IRCall) (c : IRCall) :
    irAfter s (pre ++ [c]) = (detectIR (irAfter s pre) c.out c.raw c.tNow).1 := by
  simp [irAfter, List.foldl_append]

theorem detectIR_edge_frame (s : IRState) (v : Bool) (t : Nat) :
    (detectIR_edge s v t).connectEvent = s.connectEvent
    ∧ (detectIR_edge s v t).breakEvent = s.breakEvent
    ∧ (detectIR_edge s v t).side = s.side
    ∧ (detectIR_edge s v t).proxyLEDPin = s.proxyLEDPin
    ∧ (detectIR_edge s v t).ttlPulsePeriod = s.ttlPulsePeriod := by
  unfold detectIR_edge
  split_ifs <;> simp

theorem detectIR_clear_frame (s : IRState) (t : Nat) :
    (detectIR_clear s t).1.inBreak = s.inBreak ∧ (detectIR_clear s t).1.tStart = s.tStart
    ∧ (detectIR_clear s t).1.tOff = s.tOff
    ∧ (detectIR_clear s t).1.side = s.side
    ∧ (detectIR_clear s t).1.proxyLEDPin = s.proxyLEDPin
    ∧ (detectIR_clear s t).1.ttlPulsePeriod = s.ttlPulsePeriod := by
  unfold detectIR_clear
  split_ifs with h
  · simp at h ⊢; exact h.1.2
  · simp

theorem detectIR_clear_of_inBreak (s : IRState) (t : Nat) (h : s.inBreak = true) :
    detectIR_clear s t = (s, []) := by
  unfold detectIR_clear
  simp [h]

theorem detectIR_break_of_not_inBreak (s : IRState) (out : TTLState) (t : Nat)
    (h : s.inBreak = false) : detectIR_break s out t = (s, out, []) := by
  unfold detectIR_break
  simp [h]

theorem detectIR_store_frame (s : IRState) (v : Bool) :
    (detectIR_store s v).inBreak = s.inBreak ∧ (detectIR_store s v).tStart = s.tStart
    ∧ (detectIR_store s v).tOff = s.tOff
    ∧ (detectIR_store s v).breakEvent = s.breakEvent
    ∧ (detectIR_store s v).connectEvent = s.connectEvent
    ∧ (detectIR_store s v).side = s.side
    ∧ (detectIR_store s v).proxyLEDPin = s.proxyLEDPin
    ∧ (detectIR_store s v).ttlPulsePeriod = s.ttlPulsePeriod := by
  unfold detectIR_store
  split_ifs <;> simp

theorem detectIR_break_frame (s : IRState) (out : TTLState) (t : Nat) :
    (detectIR_break s out t).1.inBreak = s.inBreak ∧ (detectIR_break s out t).1.tStart = s.tStart
    ∧ (detectIR_break s out t).1.tOff = s.tOff
    ∧ (detectIR_break s out t).1.side = s.side
    ∧ (detectIR_break s out t).1.proxyLEDPin = s.proxyLEDPin
    ∧ (detectIR_break s out t).1.ttlPulsePeriod = s.ttlPulsePeriod := by
  unfold detectIR_break
  split_ifs <;> simp

/-- The in-break flag and the two time stamps after a call are those left by its first
statement. -/
theorem detectIR_inBreak_eq (s : IRState) (out : TTLState) (raw : Bool) (t : Nat) :
    (detectIR s out raw t).1.inBreak
        = (detectIR_edge s (digitalReadCorrected raw IR_ACTIVE_LOW) t).inBreak
    ∧ (detectIR s out raw t).1.tStart
        = (detectIR_edge s (digitalReadCorrected raw IR_ACTIVE_LOW) t).tStart
    ∧ (detectIR s out raw t).1.tOff
        = (detectIR_edge s (digitalReadCorrected raw IR_ACTIVE_LOW) t).tOff := by
  simp only [detectIR]
  refine ⟨?_, ?_, ?_⟩
  · rw [(detectIR_store_frame _ _).1, (detectIR_break_frame _ _ _).1, (detectIR_clear_frame _ _).1]
  · rw [(detectIR_store_frame _ _).2.1, (detectIR_break_frame _ _ _).2.1,
      (detectIR_clear_frame _ _).2.1]
  · rw [(detectIR_store_frame _ _).2.2.1, (detectIR_break_frame _ _ _).2.2.1,
      (detectIR_clear_frame _ _).2.2.1]

theorem detectIR_static (s : IRState) (out : TTLState) (raw : Bool) (t : Nat) :
    (detectIR s out raw t).1.side = s.side
    ∧ (detectIR s out raw t).1.proxyLEDPin = s.proxyLEDPin
    ∧ (detectIR s out raw t).1.ttlPulsePeriod = s.ttlPulsePeriod := by
  simp only [detectIR]
  refine ⟨?_, ?_, ?_⟩
  · rw [(detectIR_store_frame _ _).2.2.2.2.2.1, (detectIR_break_frame _ _ _).2.2.2.1,
      (detectIR_clear_frame _ _).2.2.2.1, (detectIR_edge_frame _ _ _).2.2.1]
  · rw [(detectIR_store_frame _ _).2.2.2.2.2.2.1, (detectIR_break_frame _ _ _).2.2.2.2.1,
      (detectIR_clear_frame _ _).2.2.2.2.1, (detectIR_edge_frame _ _ _).2.2.2.1]
  · rw [(detectIR_store_frame _ _).2.2.2.2.2.2.2, (detectIR_break_frame _ _ _).2.2.2.2.2,
      (detectIR_clear_frame _ _).2.2.2.2.2, (detectIR_edge_frame _ _ _).2.2.2.2]

/-- One call of `detectIR` from any state: when the ON line is logged, and what comes with it. -/
theorem detectIR_step_break (s : IRState) (out : TTLState) (raw : Bool) (t : Nat) :
    (Effect.eventLog s.side IR ON t ∈ (detectIR s out raw t).2.2 ↔
      s.connectEvent = true ∧ (detectIR s out raw t).1.inBreak = true
        ∧ usub t (detectIR s out raw t).1.tStart ≥ MIN_IR_BREAK)
    ∧ (Effect.eventLog s.side IR ON t ∈ (detectIR s out raw t).2.2 →
        (detectIR s out raw t).2.2
            = [Effect.eventLog s.side IR ON t, Effect.digitalWrite s.proxyLEDPin HIGH]
              ++ (sendTTL out t s.ttlPulsePeriod).2
          ∧ (detectIR s out raw t).2.1 = (sendTTL out t s.ttlPulsePeriod).1)
    ∧ (Effect.eventLog s.side IR ON t ∉ (detectIR s out raw t).2.2 →
        (detectIR s out raw t).2.1 = out
          ∧ ∀ sd t1, Effect.eventLog sd IR ON t1 ∉ (detectIR s out raw t).2.2) := by
  obtain ⟨hib, hts, -⟩ := detectIR_inBreak_eq s out raw t
  rw [hib, hts]
  obtain ⟨hce, -, hsd, hled, hper⟩ :=
    detectIR_edge_frame s (digitalReadCorrected raw IR_ACTIVE_LOW) t
  simp only [detectIR]
  generalize detectIR_edge s (digitalReadCorrected raw IR_ACTIVE_LOW) t = s1 at *
  rw [← hce, ← hsd, ← hled, ← hper]
  cases h : s1.inBreak
  · have hc := (detectIR_clear_frame s1 t).1
    rw [h] at hc
    rw [detectIR_break_of_not_inBreak _ _ _ hc]
    have hON : ∀ sd t1, Effect.eventLog sd IR ON t1 ∉ (detectIR_clear s1 t).2 := by
      intro sd t1
      unfold detectIR_clear
      split_ifs <;> simp [ON, OFF]
    simp [hON]
  · rw [detectIR_clear_of_inBreak _ _ h]
    unfold detectIR_break
    by_cases hc : s1.connectEvent = true <;> by_cases ht : MIN_IR_BREAK ≤ usub t s1.tStart <;>
      simp [h, hc, ht, ON, OFF]

theorem detectIR_edge_enter (s : IRState) (v : Bool) (t : Nat) (h : s.inBreak = false)
    (h1 : (detectIR_edge s v t).inBreak = true) : (detectIR_edge s v t).tStart = t := by
  unfold detectIR_edge at h1 ⊢
  split_ifs at h1 ⊢ <;> simp_all

theorem detectIR_edge_stay (s : IRState) (v : Bool) (t : Nat) (h : s.inBreak = true)
    (h1 : (detectIR_edge s v t).inBreak = true) : (detectIR_edge s v t).tStart = s.tStart := by
  unfold detectIR_edge at h1 ⊢
  split_ifs at h1 ⊢ <;> simp_all

/-- While the detector is in break, `tStart` is the time of the call at which it entered the
break, and it has been in break after every call since. -/
theorem irAfter_entry (s0 : IRState) (h0 : s0.inBreak = false) (calls : List IRCall) :
    (irAfter s0 calls).inBreak = true →
      ∃ A b B, calls = A ++ b :: B ∧ (irAfter s0 A).inBreak = false
        ∧ (∀ B1, B1 <+: B → (irAfter s0 (A ++ b :: B1)).inBreak = true)
        ∧ (irAfter s0 calls).tStart = b.tNow := by
  induction calls using List.reverseRecOn with
  | nil => intro h; rw [irAfter_nil, h0] at h; cases h
  | append_singleton pre c ih =>
    intro h
    rw [irAfter_concat] at h ⊢
    obtain ⟨hib, hts, -⟩ := detectIR_inBreak_eq (irAfter s0 pre) c.out c.raw c.tNow
    cases hpre : (irAfter s0 pre).inBreak
    · refine ⟨pre, c, [], rfl, hpre, ?_, ?_⟩
      · intro B1 hB1
        rw [List.prefix_nil] at hB1
        subst hB1
        rw [irAfter_concat]; exact h
      · rw [hts]
        exact detectIR_edge_enter _ _ _ hpre (hib ▸ h)
    · obtain ⟨A, b, B, hsplit, hA, hB, hT⟩ := ih hpre
      refine ⟨A, b, B ++ [c], by rw [hsplit]; simp, hA, ?_, ?_⟩
      · intro B1 hB1
        rcases List.prefix_concat_iff.mp hB1 with heq | hpr
        · subst heq
          have : A ++ b :: (B ++ [c]) = pre ++ [c] := by rw [hsplit]; simp
          rw [this, irAfter_concat]; exact h
        · exact hB B1 hpr
      · rw [hts, detectIR_edge_stay _ _ _ hpre (hib ▸ h)]
        exact hT

theorem irAfter_static (s0 : IRState) (calls : List IRCall) :
    (irAfter s0 calls).side = s0.side ∧ (irAfter s0 calls).proxyLEDPin = s0.proxyLEDPin
    ∧ (irAfter s0 calls).ttlPulsePeriod = s0.ttlPulsePeriod := by
  induction calls using List.reverseRecOn with
  | nil => simp [irAfter_nil]
  | append_singleton pre c ih =>
    rw [irAfter_concat]
    obtain ⟨h1, h2, h3⟩ := detectIR_static (irAfter s0 pre) c.out c.raw c.tNow
    rw [h1, h2, h3]
    exact ih

/-- The call at which the current break was entered is determined by the history. -/
theorem irAfter_entry_unique (s0 : IRState) (A A1 B B1 : List IRCall) (b b1 : IRCall)
    (h : A ++ b :: B = A1 ++ b1 :: B1)
    (hA : (irAfter s0 A).inBreak = false)
    (hB : ∀ X, X <+: B → (irAfter s0 (A ++ b :: X)).inBreak = true)
    (hA1 : (irAfter s0 A1).inBreak = false)
    (hB1 : ∀ X, X <+: B1 → (irAfter s0 (A1 ++ b1 :: X)).inBreak = true) : b = b1 := by
  rcases List.append_eq_append_iff.mp h with ⟨a, hA1eq, hrest⟩ | ⟨a, hAeq, hrest⟩
  · cases a with
    | nil => simp at hrest; exact hrest.1
    | cons x xs =>
      simp at hrest
      obtain ⟨hx, hBeq⟩ := hrest
      subst hx
      have := hB xs ⟨b1 :: B1, hBeq.symm⟩
      rw [← hA1eq, hA1] at this
      cases this
  · cases a with
    | nil => simp at hrest; exact hrest.1.symm
    | cons x xs =>
      simp at hrest
      obtain ⟨hx, hBeq⟩ := hrest
      subst hx
      have := hB1 xs ⟨b :: B, hBeq.symm⟩
      rw [← hAeq, hA] at this
      cases this

theorem pairwise_split_le (A B : List IRCall) (b c : IRCall) (pre : List IRCall)
    (hsplit : pre ++ [c] = A ++ b :: B)
    (hmono : (pre ++ [c]).Pairwise (fun x y => x.tNow ≤ y.tNow)) : b.tNow ≤ c.tNow := by
  rw [hsplit] at hmono
  rcases List.eq_nil_or_concat B with hB | ⟨B0, z, hB⟩
  · subst hB
    have : pre ++ [c] = A ++ [b] := hsplit
    have hbc := (List.append_inj' this rfl).2
    simp at hbc
    rw [hbc]
  · subst hB
    have h2 : pre ++ [c] = (A ++ b :: B0) ++ [z] := by rw [hsplit]; simp
    have hzc := (List.append_inj' h2 rfl).2
    simp at hzc
    subst hzc
    rw [List.pairwise_append] at hmono
    have := (List.pairwise_cons.mp hmono.2.1).1
    exact this c (by simp)

/-- C1: over every sequence of `detectIR` calls from the `initIR` state with non-decreasing
`tNow`, the IR ON line is logged at a call exactly when the detector is armed
(`connectEvent`) before the call and the in-break flag, entered at some call at time `b.tNow`,
has been set after every call since, with `b.tNow + MIN_IR_BREAK ≤ tNow`; in terms of the
fields, exactly when it is armed, in break after the call and `tNow - tStart ≥ MIN_IR_BREAK`.
On that call the effects are the log line, the indicator driven high and those of `sendTTL`
on the outbound channel with the detector's period; on every other call the channel is left
as found and no ON line is logged. -/
theorem detectIR_break_reported_iff (pin side led period : Nat) (raw0 : Bool) (tS tO : Nat)
    (pre : List IRCall) (c : IRCall)
    (hmono : (pre ++ [c]).Pairwise (fun x y => x.tNow ≤ y.tNow))
    (hlt : ∀ x ∈ pre ++ [c], x.tNow < ULONG_MOD) :
    let s0 := (initIR pin side led period raw0 tS tO).1
    let r := detectIR (irAfter s0 pre) c.out c.raw c.tNow
    let onLine := Effect.eventLog side IR ON c.tNow
    (onLine ∈ r.2.2 ↔
      (irAfter s0 pre).connectEvent = true
        ∧ ∃ A b B, pre ++ [c] = A ++ b :: B ∧ (irAfter s0 A).inBreak = false
            ∧ (∀ X, X <+: B → (irAfter s0 (A ++ b :: X)).inBreak = true)
            ∧ b.tNow + MIN_IR_BREAK ≤ c.tNow)
    ∧ (onLine ∈ r.2.2 ↔
        (irAfter s0 pre).connectEvent = true ∧ r.1.inBreak = true
          ∧ usub c.tNow r.1.tStart ≥ MIN_IR_BREAK)
    ∧ (onLine ∈ r.2.2 →
        r.2.2 = [onLine, Effect.digitalWrite led HIGH] ++ (sendTTL c.out c.tNow period).2
          ∧ r.2.1 = (sendTTL c.out c.tNow period).1)
    ∧ (onLine ∉ r.2.2 → r.2.1 = c.out ∧ ∀ sd t1, Effect.eventLog sd IR ON t1 ∉ r.2.2) := by
  intro s0 r onLine
  have h0 : s0.inBreak = false := rfl
  obtain ⟨hsd, hled, hper⟩ := irAfter_static s0 pre
  have hsd1 : (irAfter s0 pre).side = side := hsd
  have hled1 : (irAfter s0 pre).proxyLEDPin = led := hled
  have hper1 : (irAfter s0 pre).ttlPulsePeriod = period := hper
  obtain ⟨hiff, hon, hoff⟩ := detectIR_step_break (irAfter s0 pre) c.out c.raw c.tNow
  rw [hsd1, hled1, hper1] at hon
  rw [hsd1] at hiff hoff
  have hc : c.tNow < ULONG_MOD := hlt c (by simp)
  have hr : r.1 = irAfter s0 (pre ++ [c]) := (irAfter_concat s0 pre c).symm
  refine ⟨?_, hiff, hon, hoff⟩
  rw [hiff]
  constructor
  · rintro ⟨harm, hin, hge⟩
    refine ⟨harm, ?_⟩
    have hin1 : (irAfter s0 (pre ++ [c])).inBreak = true := hr ▸ hin
    obtain ⟨A, b, B, hsplit, hA, hB, hT⟩ := irAfter_entry s0 h0 (pre ++ [c]) hin1
    refine ⟨A, b, B, hsplit, hA, hB, ?_⟩
    have hle : b.tNow ≤ c.tNow := pairwise_split_le A B b c pre hsplit hmono
    have hT1 : r.1.tStart = b.tNow := by rw [hr]; exact hT
    have hge1 : usub c.tNow b.tNow ≥ MIN_IR_BREAK := hT1 ▸ hge
    rw [usub_of_le hle hc] at hge1
    omega
  · rintro ⟨harm, A, b, B, hsplit, hA, hB, hge⟩
    have hin1 : (irAfter s0 (pre ++ [c])).inBreak = true := by
      rw [hsplit]; exact hB B List.prefix_rfl
    obtain ⟨A1, b1, B1, hsplit1, hA1, hB1, hT⟩ := irAfter_entry s0 h0 (pre ++ [c]) hin1
    have hbb : b = b1 :=
      irAfter_entry_unique s0 A A1 B B1 b b1 (hsplit.symm.trans hsplit1) hA hB hA1 hB1
    refine ⟨harm, hr ▸ hin1, ?_⟩
    have hT1 : r.1.tStart = b.tNow := by rw [hr, hbb]; exact hT
    rw [hT1, usub_of_le (by omega) hc]
    omega

theorem detectIR_break_reported_iff_witness :
    Effect.eventLog 0 IR ON 6
        ∈ (detectIR (irAfter (initIR 5 0 16 50 true 0 0).1
              [⟨true, 0, (initTTL 2 OUTPUT 50 50 20).1⟩, ⟨true, 3, (initTTL 2 OUTPUT 50 50 20).1⟩])
            (initTTL 2 OUTPUT 50 50 20).1 true 6).2.2
      ∧ (detectIR (irAfter (initIR 5 0 16 50 true 0 0).1
              [⟨true, 0, (initTTL 2 OUTPUT 50 50 20).1⟩, ⟨true, 3, (initTTL 2 OUTPUT 50 50 20).1⟩])
            (initTTL 2 OUTPUT 50 50 20).1 true 6).2.1
          = (sendTTL (initTTL 2 OUTPUT 50 50 20).1 6 50).1 := by
  have h := detectIR_break_reported_iff 5 0 16 50 true 0 0
    [⟨true, 0, (initTTL 2 OUTPUT 50 50 20).1⟩, ⟨true, 3, (initTTL 2 OUTPUT 50 50 20).1⟩]
    ⟨true, 6, (initTTL 2 OUTPUT 50 50 20).1⟩ (by decide) (by decide)
  have hin := h.2.1.mpr ⟨by decide, by decide, by decide⟩
  exact ⟨hin, (h.2.2.1 hin).2⟩

theorem irLogStates_append (side : Nat) (a b : List Effect) :
    irLogStates side (a ++ b) = irLogStates side a ++ irLogStates side b := by
  induction a with
  | nil => rfl
  | cons e rest ih =>
    cases e with
    | eventLog sd ty st t =>
      by_cases h : sd = side ∧ ty = IR <;> simp [irLogStates, h, ih]
    | pinMode p m => simpa [irLogStates] using ih
    | digitalWrite p l => simpa [irLogStates] using ih
    | serialMark ch t => simpa [irLogStates] using ih

theorem irLogStates_sendTTL (side : Nat) (out : TTLState) (t period : Nat) :
    irLogStates side (sendTTL out t period).2 = [] := by
  unfold sendTTL
  split_ifs <;> simp [irLogStates]

/-- The three ways a call of `detectIR` can go from a state whose gates are exclusive: no line,
a confirmed break, or a confirmed clear. -/
theorem detectIR_step_cases (s : IRState) (out : TTLState) (raw : Bool) (t : Nat)
    (hinv : s.breakEvent = !s.connectEvent) :
    ((detectIR s out raw t).2.2 = []
        ∧ (detectIR s out raw t).1.connectEvent = s.connectEvent
        ∧ (detectIR s out raw t).1.breakEvent = s.breakEvent)
    ∨ (s.connectEvent = true
        ∧ (detectIR s out raw t).2.2
            = [Effect.eventLog s.side IR ON t, Effect.digitalWrite s.proxyLEDPin HIGH]
              ++ (sendTTL out t s.ttlPulsePeriod).2
        ∧ (detectIR s out raw t).1.connectEvent = false
        ∧ (detectIR s out raw t).1.breakEvent = true)
    ∨ (s.connectEvent = false
        ∧ (detectIR s out raw t).2.2
            = [Effect.eventLog s.side IR OFF t, Effect.digitalWrite s.proxyLEDPin LOW]
        ∧ (detectIR s out raw t).1.connectEvent = true
        ∧ (detectIR s out raw t).1.breakEvent = false
        ∧ (detectIR s out raw t).1.inBreak = false
        ∧ usub t (detectIR s out raw t).1.tOff ≥ MIN_IR_BREAK) := by
  obtain ⟨hib, -, hto⟩ := detectIR_inBreak_eq s out raw t
  rw [hib, hto]
  obtain ⟨hce, hbe, hsd, hled, hper⟩ :=
    detectIR_edge_frame s (digitalReadCorrected raw IR_ACTIVE_LOW) t
  simp only [detectIR]
  generalize detectIR_edge s (digitalReadCorrected raw IR_ACTIVE_LOW) t = s1 at *
  rw [← hce, ← hsd, ← hled, ← hper, ← hbe]
  rw [← hce, ← hbe] at hinv
  rw [(detectIR_store_frame _ _).2.2.2.2.1, (detectIR_store_frame _ _).2.2.2.1]
  cases h : s1.inBreak
  · have hc := (detectIR_clear_frame s1 t).1
    rw [h] at hc
    rw [detectIR_break_of_not_inBreak _ _ _ hc]
    unfold detectIR_clear
    by_cases hcE : s1.connectEvent = true <;> by_cases ht : MIN_IR_BREAK ≤ usub t s1.tOff <;>
      simp [h, hcE, ht, hinv]
  · rw [detectIR_clear_of_inBreak _ _ h]
    unfold detectIR_break
    by_cases hcE : s1.connectEvent = true <;> by_cases ht : MIN_IR_BREAK ≤ usub t s1.tStart <;>
      simp [h, hcE, ht, hinv]

/-- From a state whose gates are exclusive, the logged IR states alternate, starting with ON
when the detector is armed and with OFF when it is not. -/
theorem irEffects_alternate (calls : List IRCall) (s : IRState)
    (hinv : s.breakEvent = !s.connectEvent) :
    alternatesFrom (if s.connectEvent then ON else OFF) (if s.connectEvent then OFF else ON)
      (irLogStates s.side (irEffects s calls)) := by
  induction calls generalizing s with
  | nil => simp [irEffects, irLogStates, alternatesFrom]
  | cons c rest ih =>
    simp only [irEffects, irLogStates_append]
    have hside := (detectIR_static s c.out c.raw c.tNow).1
    rcases detectIR_step_cases s c.out c.raw c.tNow hinv with
      ⟨he, hc, hb⟩ | ⟨harm, he, hc, hb⟩ | ⟨harm, he, hc, hb, -, -⟩
    · have := ih (detectIR s c.out c.raw c.tNow).1 (by rw [hc, hb]; exact hinv)
      rw [hside, hc] at this
      rw [he]
      simpa [irLogStates] using this
    · have := ih (detectIR s c.out c.raw c.tNow).1 (by rw [hc, hb]; rfl)
      rw [hside, hc] at this
      rw [he, irLogStates_append, irLogStates_sendTTL]
      simp [irLogStates, alternatesFrom, harm]
      simpa using this
    · have := ih (detectIR s c.out c.raw c.tNow).1 (by rw [hc, hb]; rfl)
      rw [hside, hc] at this
      rw [he]
      simp [irLogStates, alternatesFrom, harm]
      simpa using this

/-- In every state reached from a state whose gates are exclusive, they are exclusive. -/
theorem irAfter_gates (s0 : IRState) (h0 : s0.breakEvent = !s0.connectEvent)
    (calls : List IRCall) :
    (irAfter s0 calls).breakEvent = !(irAfter s0 calls).connectEvent := by
  induction calls using List.reverseRecOn with
  | nil => exact h0
  | append_singleton pre c ih =>
    rw [irAfter_concat]
    rcases detectIR_step_cases (irAfter s0 pre) c.out c.raw c.tNow ih with
      ⟨-, hc, hb⟩ | ⟨-, -, hc, hb⟩ | ⟨-, -, hc, hb, -, -⟩
    · rw [hc, hb]; exact ih
    · rw [hc, hb]; rfl
    · rw [hc, hb]; rfl

/-- C2: over every sequence of `detectIR` calls from the `initIR` state the logged IR states
alternate ON, OFF, ON, ... beginning with ON (so one break line per break-clear cycle); a call
that finds the detector disarmed and leaves it armed logs the OFF line (re-arming happens only
by a confirmed clear); and an OFF line is logged only by a call after which the detector is out
of break with `tNow - tOff ≥ MIN_IR_BREAK`. -/
theorem detectIR_one_break_per_cycle (pin side led period : Nat) (raw0 : Bool) (tS tO : Nat)
    (calls pre : List IRCall) (c : IRCall) :
    let s0 := (initIR pin side led period raw0 tS tO).1
    let r := detectIR (irAfter s0 pre) c.out c.raw c.tNow
    alternatesFrom ON OFF (irLogStates side (irEffects s0 calls))
    ∧ ((irAfter s0 pre).connectEvent = false → r.1.connectEvent = true →
        Effect.eventLog side IR OFF c.tNow ∈ r.2.2)
    ∧ (∀ sd t1, Effect.eventLog sd IR OFF t1 ∈ r.2.2 →
        sd = side ∧ t1 = c.tNow ∧ r.1.inBreak = false ∧ usub c.tNow r.1.tOff ≥ MIN_IR_BREAK) := by
  intro s0 r
  have h0 : s0.breakEvent = !s0.connectEvent := rfl
  have hside : (irAfter s0 pre).side = side := (irAfter_static s0 pre).1
  refine ⟨irEffects_alternate calls s0 h0, ?_, ?_⟩
  · intro hdis harmed
    rcases detectIR_step_cases (irAfter s0 pre) c.out c.raw c.tNow (irAfter_gates s0 h0 pre) with
      ⟨-, hc, -⟩ | ⟨harm, -, -, -⟩ | ⟨-, he, -, -, -, -⟩
    · have h1 : r.1.connectEvent = (irAfter s0 pre).connectEvent := hc
      rw [h1, hdis] at harmed; cases harmed
    · rw [harm] at hdis; cases hdis
    · have h1 : r.2.2 = _ := he
      rw [h1, hside]; simp
  · intro sd t1 hmem
    rcases detectIR_step_cases (irAfter s0 pre) c.out c.raw c.tNow (irAfter_gates s0 h0 pre) with
      ⟨he, -, -⟩ | ⟨-, he, -, -⟩ | ⟨-, he, -, -, hib, hge⟩
    · have h1 : r.2.2 = _ := he
      rw [h1] at hmem; simp at hmem
    · have h1 : r.2.2 = _ := he
      rw [h1] at hmem
      have hs : Effect.eventLog sd IR OFF t1 ∉ (sendTTL c.out c.tNow (irAfter s0 pre).ttlPulsePeriod).2 := by
        unfold sendTTL; split_ifs <;> simp
      rw [List.mem_append] at hmem
      rcases hmem with hmem | hmem
      · simp [ON, OFF] at hmem
      · exact absurd hmem hs
    · have h1 : r.2.2 = _ := he
      rw [h1, hside] at hmem
      simp at hmem
      exact ⟨hmem.1, hmem.2, hib, hge⟩

/-! ## Touch detector -/

theorem touchAfter_concat (s : TouchState) (pre : List TouchCall) (c : TouchCall) :
    touchAfter s (pre ++ [c]) = (detectTouch (touchAfter s pre) c.out c.raw c.tNow).1 := by
  simp [touchAfter, List.foldl_append]

theorem digitalReadCorrected_touch (raw : Bool) :
    digitalReadCorrected raw TOUCH_ACTIVE_LOW = raw := rfl

theorem detectTouch_static (s : TouchState) (out : TTLState) (raw : Bool) (t : Nat) :
    (detectTouch s out raw t).1.side = s.side
    ∧ (detectTouch s out raw t).1.ttlPulsePeriod = s.ttlPulsePeriod
    ∧ (detectTouch s out raw t).1.last = raw := by
  unfold detectTouch
  rw [digitalReadCorrected_touch]
  simp only []
  split_ifs <;> simp

/-- After any calls the field `last` holds the sample of the last call, and the side and the
pulse period are the ones given to `initTouch`. -/
theorem touchAfter_last (s0 : TouchState) (h0 : s0.last = false) (pre : List TouchCall) :
    (touchAfter s0 pre).last = previousSample pre ∧ (touchAfter s0 pre).side = s0.side
    ∧ (touchAfter s0 pre).ttlPulsePeriod = s0.ttlPulsePeriod := by
  induction pre using List.reverseRecOn with
  | nil => exact ⟨h0, rfl, rfl⟩
  | append_singleton pre c ih =>
    rw [touchAfter_concat]
    obtain ⟨h1, h2, h3⟩ := detectTouch_static (touchAfter s0 pre) c.out c.raw c.tNow
    rw [h1, h2, h3]
    exact ⟨by simp [previousSample], ih.2.1, ih.2.2⟩

/-- One call of `detectTouch` from any state, by the sample and the stored previous sample. -/
theorem detectTouch_step (s : TouchState) (out : TTLState) (raw : Bool) (t : Nat) :
    (raw = true ∧ s.last = false →
      (detectTouch s out raw t).2.2
          = Effect.eventLog s.side TOUCH ON t :: (sendTTL out t s.ttlPulsePeriod).2
        ∧ (detectTouch s out raw t).2.1 = (sendTTL out t s.ttlPulsePeriod).1
        ∧ (detectTouch s out raw t).1
          = { s with tStart := t, inTouch := true, touchEvent := true, clearEvent := false,
                     last := true })
    ∧ (raw = false ∧ s.last = true →
      (detectTouch s out raw t).2.2 = [Effect.eventLog s.side TOUCH OFF t]
        ∧ (detectTouch s out raw t).2.1 = out
        ∧ (detectTouch s out raw t).1
          = { s with inTouch := false, clearEvent := true, touchEvent := false, last := false })
    ∧ (raw = s.last →
      (detectTouch s out raw t).2.2 = [] ∧ (detectTouch s out raw t).2.1 = out
        ∧ (detectTouch s out raw t).1 = s) := by
  unfold detectTouch
  rw [digitalReadCorrected_touch]
  cases raw <;> cases h : s.last <;> simp [h]
  · rw [← h]
  · rw [← h]

/-- C3: over every sequence of `detectTouch` calls from the `initTouch` state, with the previous
sample of a call being the raw level of the call before it (low before the first call, as
`initTouch` stores it): a call that sees the line high after a low previous sample logs exactly
the touch line with its own `tNow` and runs `sendTTL` on the outbound channel; a call that sees
the line low after a high previous sample logs exactly the clear line with its own `tNow` and
leaves the channel alone; a call with no edge has no effect and leaves the record as it was. -/
theorem detectTouch_edges (pin side period : Nat) (raw0 : Bool) (tS tO : Nat)
    (pre : List TouchCall) (c : TouchCall) :
    let s := touchAfter (initTouch pin side period raw0 tS tO).1 pre
    let r := detectTouch s c.out c.raw c.tNow
    (c.raw = true ∧ previousSample pre = false →
      r.2.2 = Effect.eventLog side TOUCH ON c.tNow :: (sendTTL c.out c.tNow period).2
        ∧ r.2.1 = (sendTTL c.out c.tNow period).1
        ∧ r.1.inTouch = true ∧ r.1.touchEvent = true ∧ r.1.clearEvent = false
        ∧ r.1.tStart = c.tNow)
    ∧ (c.raw = false ∧ previousSample pre = true →
      r.2.2 = [Effect.eventLog side TOUCH OFF c.tNow] ∧ r.2.1 = c.out
        ∧ r.1.inTouch = false ∧ r.1.touchEvent = false ∧ r.1.clearEvent = true)
    ∧ (c.raw = previousSample pre → r.2.2 = [] ∧ r.2.1 = c.out ∧ r.1 = s) := by
  intro s r
  obtain ⟨hlast, hside, hper⟩ :=
    touchAfter_last (initTouch pin side period raw0 tS tO).1 rfl pre
  have hlast1 : s.last = previousSample pre := hlast
  have hside1 : s.side = side := hside
  have hper1 : s.ttlPulsePeriod = period := hper
  obtain ⟨hrise, hfall, hnone⟩ := detectTouch_step s c.out c.raw c.tNow
  rw [hlast1, hside1, hper1] at hrise
  rw [hlast1, hside1] at hfall
  rw [hlast1] at hnone
  refine ⟨?_, ?_, hnone⟩
  · intro h
    obtain ⟨he, hc, hs⟩ := hrise h
    have hs1 : r.1 = _ := hs
    exact ⟨he, hc, by rw [hs1], by rw [hs1], by rw [hs1], by rw [hs1]⟩
  · intro h
    obtain ⟨he, hc, hs⟩ := hfall h
    have hs1 : r.1 = _ := hs
    exact ⟨he, hc, by rw [hs1], by rw [hs1], by rw [hs1]⟩

/-! ## Reward actuator -/

theorem solenoidLogTimes_append (side st : Nat) (a b : List Effect) :
    solenoidLogTimes side st (a ++ b)
      = solenoidLogTimes side st a ++ solenoidLogTimes side st b := by
  induction a with
  | nil => rfl
  | cons e rest ih =>
    cases e with
    | eventLog sd ty s0 t =>
      by_cases h : sd = side ∧ ty = SOLENOID ∧ s0 = st <;> simp [solenoidLogTimes, h, ih]
    | pinMode p m => simpa [solenoidLogTimes] using ih
    | digitalWrite p l => simpa [solenoidLogTimes] using ih
    | serialMark ch t => simpa [solenoidLogTimes] using ih

theorem solenoidLogTimes_sendTTL (side st : Nat) (out : TTLState) (t period : Nat) :
    solenoidLogTimes side st (sendTTL out t period).2 = [] := by
  unfold sendTTL
  split_ifs <;> simp [solenoidLogTimes]

/-- On a closed solenoid, and on an open one before its duration has elapsed, `updateSolenoid`
does nothing. -/
theorem updateSolenoid_idle (s : SolenoidState) (t : Nat)
    (h : s.isOpen = false ∨ usub t s.tOpen < s.duration) : updateSolenoid s t = (s, []) := by
  unfold updateSolenoid
  rcases h with h | h
  · simp [h]
  · simp [Nat.not_le.mpr h]

theorem updateSolenoid_close (s : SolenoidState) (t : Nat) (ho : s.isOpen = true)
    (h : usub t s.tOpen ≥ s.duration) :
    updateSolenoid s t
      = ({ s with isOpen := false, tClose := t },
         digitalWriteCorrected s.pin (levelOf OFF) SOLENOID_ACTIVE_LOW
           ++ [Effect.eventLog s.side SOLENOID OFF t]) := by
  unfold updateSolenoid
  simp [ho, h]

theorem updateSolenoidTicks_closed (ticks : List Nat) (s : SolenoidState)
    (h : s.isOpen = false) : updateSolenoidTicks s ticks = (s, []) := by
  induction ticks with
  | nil => rfl
  | cons t rest ih =>
    simp only [updateSolenoidTicks, updateSolenoid_idle s t (Or.inl h), ih, List.nil_append]

/-- A run of ticks on an open solenoid closes it at the first tick at which the duration has
elapsed, and does nothing at any other tick. -/
theorem updateSolenoidTicks_open (ticks : List Nat) (s : SolenoidState) (ho : s.isOpen = true) :
    (ticks.find? (fun x => decide (usub x s.tOpen ≥ s.duration)) = none →
      updateSolenoidTicks s ticks = (s, []))
    ∧ (∀ t, ticks.find? (fun x => decide (usub x s.tOpen ≥ s.duration)) = some t →
      updateSolenoidTicks s ticks
        = ({ s with isOpen := false, tClose := t },
           digitalWriteCorrected s.pin (levelOf OFF) SOLENOID_ACTIVE_LOW
             ++ [Effect.eventLog s.side SOLENOID OFF t])) := by
  induction ticks with
  | nil => simp [updateSolenoidTicks]
  | cons x rest ih =>
    by_cases hx : usub x s.tOpen ≥ s.duration
    · simp only [List.find?_cons, hx, decide_True]
      refine ⟨by simp, ?_⟩
      intro t ht
      simp only [Option.some.injEq] at ht
      subst ht
      simp only [updateSolenoidTicks, updateSolenoid_close s x ho hx]
      rw [updateSolenoidTicks_closed rest _ rfl]
      simp
    · simp only [List.find?_cons, hx, decide_False]
      simp only [updateSolenoidTicks,
        updateSolenoid_idle s x (Or.inr (Nat.not_le.mp hx)), List.nil_append]
      exact ih

/-- Among non-decreasing ticks that do not precede `t0`, the first one at which `d` has elapsed
since `t0` is the tick at `t0 + d`, when there is one. -/
theorem first_elapsed_tick (t0 d : Nat) (ticks : List Nat)
    (hsorted : ticks.Pairwise (fun x y => x ≤ y))
    (hrange : ∀ x ∈ ticks, t0 ≤ x ∧ x < ULONG_MOD) (hmem : t0 + d ∈ ticks) :
    ticks.find? (fun x => decide (usub x t0 ≥ d)) = some (t0 + d) := by
  induction ticks with
  | nil => simp at hmem
  | cons x rest ih =>
    obtain ⟨hx0, hxlt⟩ := hrange x (by simp)
    have hsub : usub x t0 = x - t0 := usub_of_le hx0 hxlt
    rw [List.pairwise_cons] at hsorted
    by_cases hx : usub x t0 ≥ d
    · simp only [List.find?_cons, hx, decide_True]
      rcases List.mem_cons.mp hmem with h | h
      · rw [h]
      · have := hsorted.1 _ h
        rw [hsub] at hx
        congr 1
        omega
    · simp only [List.find?_cons, hx, decide_False]
      have hne : t0 + d ≠ x := by
        rw [hsub] at hx
        omega
      rcases List.mem_cons.mp hmem with h | h
      · exact absurd h hne
      · exact ih hsorted.2 (fun y hy => hrange y (List.mem_cons_of_mem _ hy)) h

/-- C4: activating a closed solenoid at `t0` for `d` opens it (open, `tOpen = t0`,
`duration = d`), and a second activation at any `t1` with any duration is a no-op: same state,
no log line, no line write, channel untouched.  Over any following ticks of `updateSolenoid`
the log holds exactly one open line (at `t0`); the solenoid closes at the first tick at which
`tNow - t0 ≥ d`, logging exactly one close line with that tick's time, and nothing happens at
any other tick (no such tick: no close line, state unchanged).  When the ticks are
non-decreasing clock readings from `t0` on and one of them is `t0 + d`, the close line carries
`t0 + d`.  `updateSolenoid` has no effect on a closed solenoid or before `d` has elapsed. -/
theorem activateSolenoid_idempotent (s : SolenoidState) (out out1 : TTLState)
    (t0 d t1 d1 : Nat) (ticks : List Nat) (hclosed : s.isOpen = false) :
    let a := activateSolenoid s out t0 d
    let a2 := activateSolenoid a.1 out1 t1 d1
    let u := updateSolenoidTicks a2.1 ticks
    let log := a.2.2 ++ a2.2.2 ++ u.2
    let firstTick := ticks.find? (fun x => decide (usub x t0 ≥ d))
    a.1 = { s with isOpen := true, tOpen := t0, duration := d }
    ∧ a2 = (a.1, out1, [])
    ∧ solenoidLogTimes s.side ON log = [t0]
    ∧ (firstTick = none → u = (a.1, []) ∧ solenoidLogTimes s.side OFF log = [])
    ∧ (∀ t, firstTick = some t →
        u = ({ a.1 with isOpen := false, tClose := t },
             digitalWriteCorrected s.pin (levelOf OFF) SOLENOID_ACTIVE_LOW
               ++ [Effect.eventLog s.side SOLENOID OFF t])
        ∧ solenoidLogTimes s.side OFF log = [t])
    ∧ (ticks.Pairwise (fun x y => x ≤ y) → (∀ x ∈ ticks, t0 ≤ x ∧ x < ULONG_MOD) →
        t0 + d ∈ ticks → solenoidLogTimes s.side OFF log = [t0 + d])
    ∧ (∀ (c : SolenoidState) (t : Nat), c.isOpen = false ∨ usub t c.tOpen < c.duration →
        updateSolenoid c t = (c, [])) := by
  intro a a2 u log firstTick
  have ha : a = ({ s with isOpen := true, tOpen := t0, duration := d },
      (sendTTL out t0 s.ttlPulsePeriod).1,
      digitalWriteCorrected s.pin (levelOf ON) SOLENOID_ACTIVE_LOW
        ++ [Effect.eventLog s.side SOLENOID ON t0] ++ (sendTTL out t0 s.ttlPulsePeriod).2) := by
    show activateSolenoid s out t0 d = _
    unfold activateSolenoid
    simp [hclosed]
  have ha1 : a.1 = { s with isOpen := true, tOpen := t0, duration := d } := by rw [ha]
  have ha2 : a2 = (a.1, out1, []) := by
    show activateSolenoid a.1 out1 t1 d1 = _
    unfold activateSolenoid
    simp [ha1]
  have hu : u = updateSolenoidTicks a.1 ticks := by
    show updateSolenoidTicks a2.1 ticks = _
    rw [ha2]
  have hopen : solenoidLogTimes s.side ON a.2.2 = [t0]
      ∧ solenoidLogTimes s.side OFF a.2.2 = [] := by
    rw [ha]
    simp [solenoidLogTimes_append, solenoidLogTimes_sendTTL, solenoidLogTimes,
      digitalWriteCorrected, ON, OFF]
  have hlogON : ∀ e, solenoidLogTimes s.side ON e = [] →
      u.2 = e → solenoidLogTimes s.side ON log = [t0] := by
    intro e he hue
    show solenoidLogTimes s.side ON (a.2.2 ++ a2.2.2 ++ u.2) = [t0]
    rw [solenoidLogTimes_append, solenoidLogTimes_append, hopen.1, ha2, hue, he]
    simp [solenoidLogTimes]
  have hlogOFF : ∀ e, u.2 = e →
      solenoidLogTimes s.side OFF log = solenoidLogTimes s.side OFF e := by
    intro e hue
    show solenoidLogTimes s.side OFF (a.2.2 ++ a2.2.2 ++ u.2) = _
    rw [solenoidLogTimes_append, solenoidLogTimes_append, hopen.2, ha2, hue]
    simp [solenoidLogTimes]
  obtain ⟨hnone, hsome⟩ := updateSolenoidTicks_open ticks a.1 (by rw [ha1])
  have hfirst : ticks.find? (fun x => decide (usub x a.1.tOpen ≥ a.1.duration)) = firstTick := by
    rw [ha1]
  rw [hfirst, ← hu] at hnone hsome
  have hside : a.1.side = s.side := by rw [ha1]
  have hpin : a.1.pin = s.pin := by rw [ha1]
  have hclose : ∀ t, firstTick = some t → solenoidLogTimes s.side OFF log = [t] := by
    intro t ht
    rw [hlogOFF _ (by rw [hsome t ht]), hside]
    simp [solenoidLogTimes, digitalWriteCorrected]
  refine ⟨ha1, ha2, ?_, ?_, ?_, ?_, ?_⟩
  · cases hf : firstTick with
    | none => exact hlogON [] rfl (by rw [hnone hf])
    | some t =>
      refine hlogON _ ?_ (by rw [hsome t hf])
      simp [solenoidLogTimes, digitalWriteCorrected, ON, OFF]
  · intro hf
    refine ⟨hnone hf, ?_⟩
    rw [hlogOFF [] (by rw [hnone hf])]
    rfl
  · intro t ht
    refine ⟨?_, hclose t ht⟩
    rw [hsome t ht]
    simp [hside, hpin]
  · intro hsorted hrange hmem
    exact hclose _ (first_elapsed_tick t0 d ticks hsorted hrange hmem)
  · intro c t h
    exact updateSolenoid_idle c t h

theorem activateSolenoid_idempotent_witness :
    solenoidLogTimes 0 ON
        ((activateSolenoid ⟨7, 0, false, 0, 0, 0, 50⟩ (initTTL 4 OUTPUT 50 50 20).1 100 40).2.2
          ++ (activateSolenoid
                (activateSolenoid ⟨7, 0, false, 0, 0, 0, 50⟩ (initTTL 4 OUTPUT 50 50 20).1 100 40).1
                (initTTL 4 OUTPUT 50 50 20).1 110 40).2.2
          ++ (updateSolenoidTicks
                (activateSolenoid
                  (activateSolenoid ⟨7, 0, false, 0, 0, 0, 50⟩
                    (initTTL 4 OUTPUT 50 50 20).1 100 40).1
                  (initTTL 4 OUTPUT 50 50 20).1 110 40).1
                [120, 139, 140, 141, 200]).2) = [100]
    ∧ solenoidLogTimes 0 OFF
        ((activateSolenoid ⟨7, 0, false, 0, 0, 0, 50⟩ (initTTL 4 OUTPUT 50 50 20).1 100 40).2.2
          ++ (activateSolenoid
                (activateSolenoid ⟨7, 0, false, 0, 0, 0, 50⟩ (initTTL 4 OUTPUT 50 50 20).1 100 40).1
                (initTTL 4 OUTPUT 50 50 20).1 110 40).2.2
          ++ (updateSolenoidTicks
                (activateSolenoid
                  (activateSolenoid ⟨7, 0, false, 0, 0, 0, 50⟩
                    (initTTL 4 OUTPUT 50 50 20).1 100 40).1
                  (initTTL 4 OUTPUT 50 50 20).1 110 40).1
                [120, 139, 140, 141, 200]).2) = [100 + 40] := by
  have h := activateSolenoid_idempotent ⟨7, 0, false, 0, 0, 0, 50⟩ (initTTL 4 OUTPUT 50 50 20).1
    (initTTL 4 OUTPUT 50 50 20).1 100 40 110 40 [120, 139, 140, 141, 200] rfl
  exact ⟨h.2.2.1, h.2.2.2.2.2.1 (by decide) (by decide) (by decide)⟩

/-! ## Pulse generator -/

/-- While the total duration has not elapsed, a channel whose pulse width exceeds its period
and whose sub-pulse is high is left untouched by `updateTTL`. -/
theorem updateTTL_wide_pulse (ch : TTLState) (t : Nat) (hw : ch.pulseWidth > ch.pulsePeriod)
    (hp : ch.pulseState = true) (hd : usub t ch.tTTLon < ch.duration) :
    updateTTL ch t = (ch, []) := by
  unfold updateTTL
  have h1 : ¬ usub t ch.tTTLon ≥ ch.duration := Nat.not_le.mpr hd
  have h2 : ¬ ch.pulseWidth ≤ ch.pulsePeriod := Nat.not_le.mpr hw
  simp [h1, h2, hp]

/-- C5, the code at the failing input: a channel with `pulseWidth = pulsePeriod = 20` and
`duration = 50`, started by `sendTTL` at `0`, is written low by `updateTTL` at `tNow = 20`,
before the total duration has elapsed. -/
theorem updateTTL_equal_width_period_writes_low :
    (sendTTL (initTTL 2 OUTPUT 50 20 20).1 0 20).1.pulseWidth
        ≥ (sendTTL (initTTL 2 OUTPUT 50 20 20).1 0 20).1.pulsePeriod
    ∧ usub 20 0 < (sendTTL (initTTL 2 OUTPUT 50 20 20).1 0 20).1.duration
    ∧ (updateTTL (sendTTL (initTTL 2 OUTPUT 50 20 20).1 0 20).1 20).2
        = [Effect.digitalWrite 2 LOW] := by
  decide

theorem pulseAfter_concat (ch : TTLState) (ops : List PulseOp) (op : PulseOp) :
    pulseAfter ch (ops ++ [op]) = pulseApply (pulseAfter ch ops) op := by
  simp [pulseAfter, List.foldl_append]

/-- A call that finds a channel active and leaves it active keeps its start time and period. -/
theorem pulseApply_keeps_start (ch : TTLState) (op : PulseOp) (h : ch.state = true)
    (h1 : (pulseApply ch op).state = true) :
    (pulseApply ch op).tTTLon = ch.tTTLon ∧ (pulseApply ch op).pulsePeriod = ch.pulsePeriod := by
  cases op with
  | send t p => simp [pulseApply, sendTTL, h]
  | update t =>
    simp only [pulseApply, updateTTL] at h1 ⊢
    split_ifs at h1 ⊢ <;> simp_all
  | detect v t c =>
    simp only [pulseApply, detectTTL] at h1 ⊢
    split_ifs at h1 ⊢ <;> simp_all

/-- C7: on an active channel `sendTTL` returns the channel as it was and writes nothing; on an
idle channel it sets the channel active with the sub-pulse high, writes the line high, sets
both start times to `tNow` and adopts the given period.  Hence after a first `sendTTL` on an
idle channel, through any further calls on the channel (`sendTTL` by other detectors,
`updateTTL`, `detectTTL`) after each of which the channel is still active, the start time and
the period stay those of the first call. -/
theorem sendTTL_first_wins (ch : TTLState) (t p : Nat) (ops : List PulseOp) :
    (ch.state = true → sendTTL ch t p = (ch, []))
    ∧ (ch.state = false →
        sendTTL ch t p
          = ({ ch with state := true, pulseState := true, tTTLon := t, tPulseon := t,
                       pulsePeriod := p },
             [Effect.digitalWrite ch.pin HIGH]))
    ∧ (ch.state = false →
        (∀ X, X <+: ops → (pulseAfter (sendTTL ch t p).1 X).state = true) →
        (pulseAfter (sendTTL ch t p).1 ops).tTTLon = t
          ∧ (pulseAfter (sendTTL ch t p).1 ops).pulsePeriod = p) := by
  refine ⟨fun h => by simp [sendTTL, h], fun h => by simp [sendTTL, h], ?_⟩
  intro h
  induction ops using List.reverseRecOn with
  | nil => intro _; simp [pulseAfter, sendTTL, h]
  | append_singleton pre op ih =>
    intro hact
    have hpre := ih (fun X hX => hact X (hX.trans (List.prefix_append pre [op])))
    have h1 : (pulseAfter (sendTTL ch t p).1 pre).state = true := hact pre (List.prefix_append pre [op])
    have h2 := hact (pre ++ [op]) List.prefix_rfl
    rw [pulseAfter_concat] at h2 ⊢
    obtain ⟨h3, h4⟩ := pulseApply_keeps_start _ op h1 h2
    rw [h3, h4]
    exact hpre

/-! ## Pulse detector -/

theorem detectAfter_concat (ch : TTLState) (c : Bool) (pre : List (Bool × Nat)) (x : Bool × Nat) :
    detectAfter ch c (pre ++ [x]) = (detectTTL (detectAfter ch c pre) x.1 x.2 c).1 := by
  simp [detectAfter, List.foldl_append]

theorem detectTTL_frame (ch : TTLState) (v : Bool) (t : Nat) (c : Bool) :
    (detectTTL ch v t c).1.state = v ∧ (detectTTL ch v t c).1.pulseWidth = ch.pulseWidth := by
  unfold detectTTL
  cases v <;> cases h : ch.state <;> simp [h]

/-- After any `detectTTL` calls the channel is active exactly when the last level read was
high, and its pulse width is unchanged. -/
theorem detectAfter_state (ch : TTLState) (h0 : ch.state = false) (c : Bool)
    (pre : List (Bool × Nat)) :
    (detectAfter ch c pre).state = lastLevel pre
    ∧ (detectAfter ch c pre).pulseWidth = ch.pulseWidth := by
  induction pre using List.reverseRecOn with
  | nil => exact ⟨h0, rfl⟩
  | append_singleton pre x ih =>
    rw [detectAfter_concat]
    obtain ⟨h1, h2⟩ := detectTTL_frame (detectAfter ch c pre) x.1 x.2 c
    rw [h1, h2]
    exact ⟨by simp [lastLevel], ih.2⟩

/-- C8, the code at the failing input: in immediate mode (`completeSquarePulse = false`), on a
channel with `pulseWidth = 20`, after the rising edge seen at `tNow = 0` the call that sees the
falling edge at `tNow = 30` returns `true`. -/
theorem detectTTL_immediate_falling_edge_true :
    (detectTTL (initTTL 14 INPUT 50 50 20).1 true 0 false).2 = true
    ∧ (detectTTL (detectTTL (initTTL 14 INPUT 50 50 20).1 true 0 false).1 false 30 false).2
        = true := by
  decide

/-- C9: over every sequence of `detectTTL` calls with `completeSquarePulse = true` from the
`initTTL` state, the channel is active before a call exactly when the previous call read the
line high; the call that sees the rising edge returns `false`, marks the channel active and
records `tTTLon = tNow`; a call that sees the line still high returns `false` and changes
nothing (as does a call that sees an idle line low); the call that sees the falling edge
returns `true` exactly when `tNow - tTTLon ≥ pulseWidth`, and always leaves the channel idle
with `tTTLon` at the unset sentinel. -/
theorem detectTTL_full_width (pin mode duration period width : Nat)
    (pre : List (Bool × Nat)) (v : Bool) (t : Nat) :
    (detectAfter (initTTL pin mode duration period width).1 true pre).state = lastLevel pre
    ∧ (let s := detectAfter (initTTL pin mode duration period width).1 true pre
       let r := detectTTL s v t true
       (lastLevel pre = false ∧ v = true →
          r.2 = false ∧ r.1.state = true ∧ r.1.tTTLon = t)
       ∧ (lastLevel pre = true ∧ v = true → r.2 = false ∧ r.1 = s)
       ∧ (lastLevel pre = true ∧ v = false →
          (r.2 = true ↔ usub t s.tTTLon ≥ width) ∧ r.1.state = false ∧ r.1.tTTLon = UNSET)
       ∧ (lastLevel pre = false ∧ v = false → r.2 = false ∧ r.1 = s)) := by
  obtain ⟨hst, hw⟩ := detectAfter_state (initTTL pin mode duration period width).1 rfl true pre
  refine ⟨hst, ?_⟩
  intro s r
  have hst1 : s.state = lastLevel pre := hst
  have hw1 : s.pulseWidth = width := hw
  refine ⟨?_, ?_, ?_, ?_⟩ <;> rintro ⟨hl, hv⟩ <;> rw [hl] at hst1 <;>
    simp [r, detectTTL, hst1, hv, hw1]

/-! ## Clock source -/

/-- On `unsigned long` values the loop test of `currentTime` is the plausibility test. -/
theorem clockAccepts_iff (T tol x : Nat) (hx : x < ULONG_MOD) :
    clockAccepts T tol x = true ↔ sampleAccepted T tol x := by
  unfold clockAccepts sampleAccepted
  by_cases hle : T ≤ x
  · rw [usub_of_le hle hx]
    simp only [Bool.not_eq_true', Bool.or_eq_false_iff, decide_eq_false_iff_not]
    omega
  · have : x < T := Nat.not_le.mp hle
    simp [this, hle]

theorem currentTimeLoop_unfold (T tol tNow : Nat) (rest : List Nat) :
    currentTimeLoop T tol tNow rest
      = if clockAccepts T tol tNow then some (tNow, rest)
        else match rest with
          | [] => none
          | s :: r => currentTimeLoop T tol s r := by
  cases rest <;> simp [currentTimeLoop]

/-- The loop returns the first plausible sample and leaves the samples after it unread. -/
theorem currentTimeLoop_first (T tol : Nat) (A : List Nat) :
    ∀ (tNow : Nat) (rest : List Nat) (s : Nat) (B : List Nat),
      (∀ x ∈ tNow :: rest, x < ULONG_MOD) → tNow :: rest = A ++ s :: B →
      (∀ x ∈ A, ¬ sampleAccepted T tol x) → sampleAccepted T tol s →
      currentTimeLoop T tol tNow rest = some (s, B) := by
  induction A with
  | nil =>
    intro tNow rest s B hlt hsplit _ hs
    simp only [List.nil_append, List.cons.injEq] at hsplit
    obtain ⟨h1, h2⟩ := hsplit
    subst h1 h2
    rw [currentTimeLoop_unfold, (clockAccepts_iff T tol tNow (hlt tNow (by simp))).mpr hs]
    rfl
  | cons a A1 ih =>
    intro tNow rest s B hlt hsplit hA hs
    simp only [List.cons_append, List.cons.injEq] at hsplit
    obtain ⟨h1, h2⟩ := hsplit
    subst h1
    have hrej : clockAccepts T tol tNow = false := by
      rw [Bool.eq_false_iff]
      intro h
      exact hA tNow (by simp) ((clockAccepts_iff T tol tNow (hlt tNow (by simp))).mp h)
    rw [currentTimeLoop_unfold, hrej]
    cases hr : rest with
    | nil => rw [hr] at h2; cases A1 <;> simp at h2
    | cons y rest1 =>
      simp only [Bool.false_eq_true, if_false]
      apply ih y rest1 s B
      · intro x hx; exact hlt x (by rw [hr]; exact List.mem_cons_of_mem _ hx)
      · rw [← hr, h2]
      · intro x hx; exact hA x (List.mem_cons_of_mem _ hx)
      · exact hs

/-- Whatever the loop returns is plausible, and every sample read before it was not. -/
theorem currentTimeLoop_sound (T tol : Nat) (rest : List Nat) :
    ∀ (tNow : Nat) (r : Nat × List Nat), (∀ x ∈ tNow :: rest, x < ULONG_MOD) →
      currentTimeLoop T tol tNow rest = some r →
      sampleAccepted T tol r.1
        ∧ ∃ A, tNow :: rest = A ++ r.1 :: r.2 ∧ ∀ x ∈ A, ¬ sampleAccepted T tol x := by
  induction rest with
  | nil =>
    intro tNow r hlt h
    rw [currentTimeLoop_unfold] at h
    by_cases hacc : clockAccepts T tol tNow = true
    · rw [if_pos hacc] at h
      simp only [Option.some.injEq] at h
      subst h
      exact ⟨(clockAccepts_iff T tol tNow (hlt tNow (by simp))).mp hacc, [], rfl, by simp⟩
    · rw [if_neg hacc] at h
      cases h
  | cons y rest1 ih =>
    intro tNow r hlt h
    rw [currentTimeLoop_unfold] at h
    by_cases hacc : clockAccepts T tol tNow = true
    · rw [if_pos hacc] at h
      simp only [Option.some.injEq] at h
      subst h
      exact ⟨(clockAccepts_iff T tol tNow (hlt tNow (by simp))).mp hacc, [], rfl, by simp⟩
    · rw [if_neg hacc] at h
      obtain ⟨h1, A, hsplit, hA⟩ :=
        ih y r (fun x hx => hlt x (List.mem_cons_of_mem _ hx)) h
      refine ⟨h1, tNow :: A, by rw [hsplit]; rfl, ?_⟩
      intro x hx
      rcases List.mem_cons.mp hx with hx | hx
      · subst hx
        intro hp
        exact hacc ((clockAccepts_iff T tol x (hlt x (by simp))).mpr hp)
      · exact hA x hx

/-- With no plausible sample in the stream the loop does not return. -/
theorem currentTimeLoop_none (T tol : Nat) (rest : List Nat) :
    ∀ (tNow : Nat), (∀ x ∈ tNow :: rest, x < ULONG_MOD) →
      (∀ x ∈ tNow :: rest, ¬ sampleAccepted T tol x) →
      currentTimeLoop T tol tNow rest = none := by
  induction rest with
  | nil =>
    intro tNow hlt hrej
    have : ¬ clockAccepts T tol tNow = true := fun h =>
      hrej tNow (by simp) ((clockAccepts_iff T tol tNow (hlt tNow (by simp))).mp h)
    rw [currentTimeLoop_unfold, if_neg this]
  | cons y rest1 ih =>
    intro tNow hlt hrej
    have : ¬ clockAccepts T tol tNow = true := fun h =>
      hrej tNow (by simp) ((clockAccepts_iff T tol tNow (hlt tNow (by simp))).mp h)
    rw [currentTimeLoop_unfold, if_neg this]
    exact ih y (fun x hx => hlt x (List.mem_cons_of_mem _ hx))
      (fun x hx => hrej x (List.mem_cons_of_mem _ hx))

/-- C10: for a previous reading `T` other than the sentinel and a stream `raw` of counter
samples, `currentTime` returns the first sample `s` with `T ≤ s` and `s - T ≤ tolerance`
(reading no further), whatever it returns is such a sample and every sample before it was
not, and it does not return while the stream offers no such sample; with the sentinel as
previous reading it returns the first sample unconditionally. -/
theorem currentTime_first_plausible (T tol : Nat) (raw : List Nat)
    (hne : T ≠ UNSET) (hraw : ∀ x ∈ raw, x < ULONG_MOD) :
    (∀ A s B, raw = A ++ s :: B → (∀ x ∈ A, ¬ sampleAccepted T tol x) →
        sampleAccepted T tol s → currentTime T tol raw = some (s, B))
    ∧ (∀ r, currentTime T tol raw = some r →
        (T ≤ r.1 ∧ r.1 - T ≤ tol)
          ∧ ∃ A, raw = A ++ r.1 :: r.2 ∧ ∀ x ∈ A, ¬ sampleAccepted T tol x)
    ∧ ((∀ x ∈ raw, ¬ sampleAccepted T tol x) → currentTime T tol raw = none)
    ∧ (∀ s rest tol1, currentTime UNSET tol1 (s :: rest) = some (s, rest)) := by
  refine ⟨?_, ?_, ?_, ?_⟩
  · intro A s B hsplit hA hs
    cases raw with
    | nil => cases A <;> simp at hsplit
    | cons tNow rest =>
      simp only [currentTime, hne, ne_eq, not_false_eq_true, if_true]
      exact currentTimeLoop_first T tol A tNow rest s B hraw hsplit hA hs
  · intro r h
    cases raw with
    | nil => simp [currentTime] at h
    | cons tNow rest =>
      simp only [currentTime, hne, ne_eq, not_false_eq_true, if_true] at h
      exact currentTimeLoop_sound T tol rest tNow r hraw h
  · intro hrej
    cases raw with
    | nil => rfl
    | cons tNow rest =>
      simp only [currentTime, hne, ne_eq, not_false_eq_true, if_true]
      exact currentTimeLoop_none T tol rest tNow hraw hrej
  · intro s rest tol1
    simp [currentTime]

theorem currentTime_first_plausible_witness :
    currentTime 1000 20 [5000, 990, 1015, 1016] = some (1015, [1016]) := by
  have h := currentTime_first_plausible 1000 20 [5000, 990, 1015, 1016]
    (by decide) (by decide)
  exact h.1 [5000, 990] 1015 [1016] rfl (by decide) (by decide)

/-! ## Pulse train -/

theorem ULONG_MOD_eq : ULONG_MOD = 4294967296 := by decide

theorem usub_tick (t0 a k : Nat) (hak : a ≤ k) (hk : k - a < ULONG_MOD) :
    usub ((t0 + k) % ULONG_MOD) ((t0 + a) % ULONG_MOD) = k - a := by
  unfold usub
  rw [ULONG_MOD_eq] at *
  omega

theorem usub_tick_start (t0 k : Nat) (hk : k < ULONG_MOD) :
    usub ((t0 + k) % ULONG_MOD) t0 = k := by
  unfold usub
  rw [ULONG_MOD_eq] at *
  omega

/-- During a pulse train, before the total duration has elapsed, `updateTTL` leaves a high
sub-pulse alone until its width has elapsed. -/
theorem updateTTL_train_high_quiet (ch : TTLState) (t0 p a k : Nat) (hak : a ≤ k)
    (hkd : k < ch.duration) (hd : ch.duration < ULONG_MOD) (hw : k - a < ch.pulseWidth) :
    updateTTL (trainState ch t0 p a true) ((t0 + k) % ULONG_MOD)
      = (trainState ch t0 p a true, []) := by
  have h1 : usub ((t0 + k) % ULONG_MOD) t0 = k := usub_tick_start t0 k (by omega)
  have h2 : usub ((t0 + k) % ULONG_MOD) ((t0 + a) % ULONG_MOD) = k - a :=
    usub_tick t0 a k hak (by omega)
  simp only [updateTTL, trainState, h1, h2]
  simp [Nat.not_le.mpr hkd, Nat.not_le.mpr hw]

/-- It ends the high sub-pulse once its width has elapsed. -/
theorem updateTTL_train_fall (ch : TTLState) (t0 p a k : Nat) (hak : a ≤ k)
    (hkd : k < ch.duration) (hd : ch.duration < ULONG_MOD) (hw : ch.pulseWidth ≤ k - a)
    (hwp : ch.pulseWidth ≤ p) :
    updateTTL (trainState ch t0 p a true) ((t0 + k) % ULONG_MOD)
      = (trainState ch t0 p a false, [Effect.digitalWrite ch.pin LOW]) := by
  have h1 : usub ((t0 + k) % ULONG_MOD) t0 = k := usub_tick_start t0 k (by omega)
  have h2 : usub ((t0 + k) % ULONG_MOD) ((t0 + a) % ULONG_MOD) = k - a :=
    usub_tick t0 a k hak (by omega)
  simp only [updateTTL, trainState, h1, h2]
  simp [Nat.not_le.mpr hkd, hw, hwp]

/-- It leaves a low sub-pulse alone until the period has elapsed since the sub-pulse began. -/
theorem updateTTL_train_low_quiet (ch : TTLState) (t0 p a k : Nat) (hak : a ≤ k)
    (hkd : k < ch.duration) (hd : ch.duration < ULONG_MOD) (hp : k - a < p) :
    updateTTL (trainState ch t0 p a false) ((t0 + k) % ULONG_MOD)
      = (trainState ch t0 p a false, []) := by
  have h1 : usub ((t0 + k) % ULONG_MOD) t0 = k := usub_tick_start t0 k (by omega)
  have h2 : usub ((t0 + k) % ULONG_MOD) ((t0 + a) % ULONG_MOD) = k - a :=
    usub_tick t0 a k hak (by omega)
  simp only [updateTTL, trainState, h1, h2]
  simp [Nat.not_le.mpr hkd, Nat.not_le.mpr hp]

/-- It starts the next sub-pulse once the period has elapsed. -/
theorem updateTTL_train_rise (ch : TTLState) (t0 p a k : Nat) (hak : a ≤ k)
    (hkd : k < ch.duration) (hd : ch.duration < ULONG_MOD) (hp : p ≤ k - a) :
    updateTTL (trainState ch t0 p a false) ((t0 + k) % ULONG_MOD)
      = (trainState ch t0 p k true, [Effect.digitalWrite ch.pin HIGH]) := by
  have h1 : usub ((t0 + k) % ULONG_MOD) t0 = k := usub_tick_start t0 k (by omega)
  have h2 : usub ((t0 + k) % ULONG_MOD) ((t0 + a) % ULONG_MOD) = k - a :=
    usub_tick t0 a k hak (by omega)
  simp only [updateTTL, trainState, h1, h2]
  simp [Nat.not_le.mpr hkd, hp]

/-- Once the total duration has elapsed it writes the line low and the channel is idle. -/
theorem updateTTL_train_end (ch : TTLState) (t0 p a : Nat) (ps : Bool)
    (hd : ch.duration < ULONG_MOD) :
    (updateTTL (trainState ch t0 p a ps) ((t0 + ch.duration) % ULONG_MOD)).2
        = [Effect.digitalWrite ch.pin LOW]
      ∧ (updateTTL (trainState ch t0 p a ps) ((t0 + ch.duration) % ULONG_MOD)).1.state
        = false := by
  have h1 : usub ((t0 + ch.duration) % ULONG_MOD) t0 = ch.duration :=
    usub_tick_start t0 ch.duration hd
  simp only [updateTTL, trainState, h1]
  simp

theorem pulseTrain_idle (t0 fuel k : Nat) (ch : TTLState) (h : ch.state = false) :
    pulseTrain t0 fuel k ch = some [] := by
  cases fuel <;> simp [pulseTrain, h]

theorem pulseTrain_step (t0 fuel k : Nat) (ch : TTLState) (h : ch.state = true) :
    pulseTrain t0 (fuel + 1) k ch
      = (pulseTrain t0 fuel (k + 1) (updateTTL ch ((t0 + k) % ULONG_MOD)).1).map
          (fun tr => lineWrites ch.pin k (updateTTL ch ((t0 + k) % ULONG_MOD)).2 ++ tr) := by
  simp [pulseTrain, h]

/-- Calls that change nothing can be skipped. -/
theorem pulseTrain_skip (t0 : Nat) (ch : TTLState) (hact : ch.state = true) (m : Nat) :
    ∀ (fuel k : Nat),
      (∀ i, i < m → updateTTL ch ((t0 + (k + i)) % ULONG_MOD) = (ch, [])) →
      pulseTrain t0 (fuel + m) k ch = pulseTrain t0 fuel (k + m) ch := by
  induction m with
  | zero => intro fuel k _; rfl
  | succ m ih =>
    intro fuel k hq
    have h0 := hq 0 (Nat.succ_pos m)
    rw [Nat.add_zero] at h0
    rw [← Nat.add_assoc, pulseTrain_step t0 (fuel + m) k ch hact, h0]
    simp only [lineWrites, List.nil_append, Option.map_id_fun, id_eq]
    rw [ih fuel (k + 1) (fun i hi => by
      have := hq (i + 1) (Nat.succ_lt_succ hi)
      rw [show k + (i + 1) = k + 1 + i by omega] at this
      exact this)]
    rw [show k + 1 + m = k + (m + 1) by omega]
    cases pulseTrain t0 fuel (k + (m + 1)) ch <;> rfl

theorem trainState_state (ch : TTLState) (t0 p a : Nat) (ps : Bool) :
    (trainState ch t0 p a ps).state = true ∧ (trainState ch t0 p a ps).pin = ch.pin := ⟨rfl, rfl⟩

/-- The call made when the total duration has elapsed ends the train. -/
theorem pulseTrain_last (ch : TTLState) (t0 p a f : Nat) (ps : Bool)
    (hd : ch.duration < ULONG_MOD) :
    pulseTrain t0 (f + 1) ch.duration (trainState ch t0 p a ps)
      = some [(ch.duration, false)] := by
  obtain ⟨h1, h2⟩ := updateTTL_train_end ch t0 p a ps hd
  rw [pulseTrain_step _ _ _ _ rfl, pulseTrain_idle _ _ _ _ h2, h1]
  simp [lineWrites, trainState, LOW]

/-- A high sub-pulse that fits before the end of the train lasts its full width. -/
theorem pulseTrain_high_stretch (ch : TTLState) (t0 p a f : Nat)
    (hd : ch.duration < ULONG_MOD) (hw0 : 0 < ch.pulseWidth) (hwp : ch.pulseWidth ≤ p)
    (hfit : a + ch.pulseWidth < ch.duration) :
    pulseTrain t0 (f + ch.pulseWidth) (a + 1) (trainState ch t0 p a true)
      = (pulseTrain t0 f (a + ch.pulseWidth + 1) (trainState ch t0 p a false)).map
          (fun tr => (a + ch.pulseWidth, false) :: tr) := by
  have hsplit : f + ch.pulseWidth = (f + 1) + (ch.pulseWidth - 1) := by omega
  rw [hsplit, pulseTrain_skip t0 _ rfl (ch.pulseWidth - 1) (f + 1) (a + 1)
    (fun i hi => updateTTL_train_high_quiet ch t0 p a (a + 1 + i) (by omega) (by omega) hd
      (by omega))]
  rw [show a + 1 + (ch.pulseWidth - 1) = a + ch.pulseWidth by omega,
    pulseTrain_step _ _ _ _ rfl,
    updateTTL_train_fall ch t0 p a (a + ch.pulseWidth) (by omega) hfit hd (by omega) hwp]
  simp [lineWrites, trainState, LOW]

/-- The low part of a period that ends before the train does is followed by a new sub-pulse. -/
theorem pulseTrain_low_stretch (ch : TTLState) (t0 p a f : Nat)
    (hd : ch.duration < ULONG_MOD) (hwp : ch.pulseWidth < p) (hfit : a + p < ch.duration) :
    pulseTrain t0 (f + (p - ch.pulseWidth)) (a + ch.pulseWidth + 1) (trainState ch t0 p a false)
      = (pulseTrain t0 f (a + p + 1) (trainState ch t0 p (a + p) true)).map
          (fun tr => (a + p, true) :: tr) := by
  have hsplit : f + (p - ch.pulseWidth) = (f + 1) + (p - ch.pulseWidth - 1) := by omega
  rw [hsplit, pulseTrain_skip t0 _ rfl (p - ch.pulseWidth - 1) (f + 1) (a + ch.pulseWidth + 1)
    (fun i hi => updateTTL_train_low_quiet ch t0 p a (a + ch.pulseWidth + 1 + i) (by omega)
      (by omega) hd (by omega))]
  rw [show a + ch.pulseWidth + 1 + (p - ch.pulseWidth - 1) = a + p by omega,
    pulseTrain_step _ _ _ _ rfl,
    updateTTL_train_rise ch t0 p a (a + p) (by omega) hfit hd (by omega)]
  simp [lineWrites, trainState, HIGH]

/-- A high sub-pulse that does not fit is cut by the end of the train. -/
theorem pulseTrain_high_end (ch : TTLState) (t0 p a f : Nat)
    (hd : ch.duration < ULONG_MOD) (ha : a < ch.duration)
    (hcut : ch.duration ≤ a + ch.pulseWidth) :
    pulseTrain t0 (f + (ch.duration - a)) (a + 1) (trainState ch t0 p a true)
      = some [(ch.duration, false)] := by
  have hsplit : f + (ch.duration - a) = (f + 1) + (ch.duration - a - 1) := by omega
  rw [hsplit, pulseTrain_skip t0 _ rfl (ch.duration - a - 1) (f + 1) (a + 1)
    (fun i hi => updateTTL_train_high_quiet ch t0 p a (a + 1 + i) (by omega) (by omega) hd
      (by omega))]
  rw [show a + 1 + (ch.duration - a - 1) = ch.duration by omega]
  exact pulseTrain_last ch t0 p a f true hd

/-- The low part of the last period ends with the train. -/
theorem pulseTrain_low_end (ch : TTLState) (t0 p a f : Nat)
    (hd : ch.duration < ULONG_MOD) (ha : a + ch.pulseWidth < ch.duration)
    (hcut : ch.duration ≤ a + p) :
    pulseTrain t0 (f + (ch.duration - a - ch.pulseWidth)) (a + ch.pulseWidth + 1)
        (trainState ch t0 p a false)
      = some [(ch.duration, false)] := by
  have hsplit : f + (ch.duration - a - ch.pulseWidth)
      = (f + 1) + (ch.duration - a - ch.pulseWidth - 1) := by omega
  rw [hsplit, pulseTrain_skip t0 _ rfl (ch.duration - a - ch.pulseWidth - 1) (f + 1)
    (a + ch.pulseWidth + 1)
    (fun i hi => updateTTL_train_low_quiet ch t0 p a (a + ch.pulseWidth + 1 + i) (by omega)
      (by omega) hd (by omega))]
  rw [show a + ch.pulseWidth + 1 + (ch.duration - a - ch.pulseWidth - 1) = ch.duration by omega]
  exact pulseTrain_last ch t0 p a f false hd

/-- From the start of a sub-pulse `a` units into the train, with `r` more full periods and one
last period to go, the calls reach the idle channel and the line shows `r + 1` high phases. -/
theorem pulseTrain_phasesFrom (ch : TTLState) (t0 p : Nat) (hd : ch.duration < ULONG_MOD)
    (hw0 : 0 < ch.pulseWidth) (hwp : ch.pulseWidth < p) (r : Nat) :
    ∀ (a f : Nat), a + r * p < ch.duration → ch.duration ≤ a + (r + 1) * p →
      ch.duration - a ≤ f →
      ∃ tr, pulseTrain t0 f (a + 1) (trainState ch t0 p a true) = some tr
        ∧ highPhases (some a) tr = phasesFrom p ch.pulseWidth ch.duration a (r + 1) := by
  induction r with
  | zero =>
    intro a f h1 h2 hf
    simp only [Nat.zero_mul, Nat.add_zero, Nat.zero_add, Nat.one_mul] at h1 h2
    by_cases hcut : ch.duration ≤ a + ch.pulseWidth
    · obtain ⟨f1, rfl⟩ : ∃ f1, f = f1 + (ch.duration - a) := ⟨f - (ch.duration - a), by omega⟩
      refine ⟨_, pulseTrain_high_end ch t0 p a f1 hd h1 hcut, ?_⟩
      simp [highPhases, phasesFrom, Nat.min_eq_right hcut]
    · have hfit : a + ch.pulseWidth < ch.duration := Nat.not_le.mp hcut
      obtain ⟨f1, rfl⟩ : ∃ f1, f = f1 + (ch.duration - a - ch.pulseWidth) + ch.pulseWidth :=
        ⟨f - (ch.duration - a), by omega⟩
      refine ⟨[(a + ch.pulseWidth, false), (ch.duration, false)], ?_, ?_⟩
      · rw [pulseTrain_high_stretch ch t0 p a _ hd hw0 (Nat.le_of_lt hwp) hfit,
          pulseTrain_low_end ch t0 p a f1 hd hfit h2]
        rfl
      · simp [highPhases, phasesFrom, Nat.min_eq_left (Nat.le_of_lt hfit)]
  | succ r ih =>
    intro a f h1 h2 hf
    have hrp : (r + 1) * p = r * p + p := Nat.succ_mul r p
    have hrp2 : (r + 1 + 1) * p = r * p + p + p := by rw [Nat.succ_mul, hrp]
    rw [hrp] at h1
    rw [hrp2] at h2
    have hfit : a + ch.pulseWidth < ch.duration := by omega
    have hfitp : a + p < ch.duration := by omega
    obtain ⟨f1, rfl⟩ : ∃ f1, f = f1 + (p - ch.pulseWidth) + ch.pulseWidth :=
      ⟨f - p, by omega⟩
    obtain ⟨tr, htr, hph⟩ := ih (a + p) f1 (by omega) (by rw [hrp]; omega) (by omega)
    refine ⟨(a + ch.pulseWidth, false) :: (a + p, true) :: tr, ?_, ?_⟩
    · rw [pulseTrain_high_stretch ch t0 p a _ hd hw0 (Nat.le_of_lt hwp) hfit,
        pulseTrain_low_stretch ch t0 p a f1 hd hwp hfitp, htr]
      rfl
    · simp only [highPhases, hph]
      conv_rhs => rw [phasesFrom, Nat.min_eq_left (Nat.le_of_lt hfit)]

theorem phasesFrom_eq_map (p w d : Nat) (n : Nat) :
    ∀ a, phasesFrom p w d a n
      = (List.range n).map (fun j => (a + j * p, min (a + j * p + w) d)) := by
  induction n with
  | zero => intro a; rfl
  | succ n ih =>
    intro a
    rw [phasesFrom, ih (a + p), List.range_succ_eq_map, List.map_cons, List.map_map]
    simp only [Nat.zero_mul, Nat.add_zero, List.cons.injEq, true_and]
    apply List.map_congr_left
    intro j _
    simp only [Function.comp, Nat.succ_eq_add_one, Nat.succ_mul]
    rw [show a + p + j * p = a + (j * p + p) by omega]

theorem sendTTL_idle_trainState (ch : TTLState) (t0 p : Nat) (hidle : ch.state = false)
    (ht0 : t0 < ULONG_MOD) :
    sendTTL ch t0 p = (trainState ch t0 p 0 true, [Effect.digitalWrite ch.pin HIGH]) := by
  simp [sendTTL, trainState, hidle, Nat.mod_eq_of_lt ht0]

theorem ceil_div_eq (d p : Nat) (hd0 : 0 < d) (hp : 0 < p) :
    (d + p - 1) / p = (d - 1) / p + 1 ∧ (d - 1) / p * p < d ∧ d ≤ (d - 1) / p * p + p := by
  have h1 : d + p - 1 = (d - 1) + p := by omega
  have h2 := Nat.div_add_mod (d - 1) p
  have h3 := Nat.mod_lt (d - 1) hp
  rw [Nat.mul_comm] at h2
  refine ⟨by rw [h1, Nat.add_div_right _ hp], ?_, ?_⟩ <;> omega

/-- C6, the claim as stated fails: with `duration = 11`, `pulsePeriod = 5` and
`pulseWidth = 2`, a pulse started at `0` and ticked at every clock unit shows the high phases
`[0, 2)`, `[5, 7)` and `[10, 11)`: three of them, not `floor(11 / 5) = 2`, and the last one
lasts `1`, not `2`. -/
theorem pulseTrain_floor_counterexample :
    ¬ ∃ phases,
        (pulseTrain 0 11 1 (sendTTL (initTTL 2 OUTPUT 11 5 2).1 0 5).1).map
            (fun tr => highPhases none
              (lineWrites 2 0 (sendTTL (initTTL 2 OUTPUT 11 5 2).1 0 5).2 ++ tr))
          = some phases
        ∧ phases.length = 11 / 5 ∧ ∀ ph ∈ phases, ph.2 - ph.1 = 2 := by
  have h : (pulseTrain 0 11 1 (sendTTL (initTTL 2 OUTPUT 11 5 2).1 0 5).1).map
      (fun tr => highPhases none
        (lineWrites 2 0 (sendTTL (initTTL 2 OUTPUT 11 5 2).1 0 5).2 ++ tr))
      = some [(0, 2), (5, 7), (10, 11)] := by decide
  rintro ⟨phases, hph, hlen, -⟩
  rw [h] at hph
  simp only [Option.some.injEq] at hph
  subst hph
  simp at hlen

/-- C6 (amended): on an idle channel with `0 < pulseWidth < pulsePeriod` and `duration > 0`,
when `sendTTL` fires at `t0` and `updateTTL` is then called at every clock unit until the
channel is idle (which `duration` calls reach), the line shows exactly
`ceil(duration / pulsePeriod)` high phases; phase `j` starts `j * pulsePeriod` after `t0` and
lasts `pulseWidth`, unless the end of the total duration comes first and cuts it.  When
`pulsePeriod` divides `duration` these are `duration / pulsePeriod` phases, each lasting exactly
`pulseWidth`. -/
theorem pulseTrain_high_phases (ch : TTLState) (t0 p fuel : Nat)
    (hidle : ch.state = false) (hw0 : 0 < ch.pulseWidth) (hwp : ch.pulseWidth < p)
    (hd0 : 0 < ch.duration) (hd : ch.duration < ULONG_MOD) (ht0 : t0 < ULONG_MOD)
    (hfuel : ch.duration ≤ fuel) :
    (pulseTrain t0 fuel 1 (sendTTL ch t0 p).1).map
        (fun tr => highPhases none (lineWrites ch.pin 0 (sendTTL ch t0 p).2 ++ tr))
      = some ((List.range ((ch.duration + p - 1) / p)).map
          (fun j => (j * p, min (j * p + ch.pulseWidth) ch.duration)))
    ∧ (p ∣ ch.duration →
        (pulseTrain t0 fuel 1 (sendTTL ch t0 p).1).map
            (fun tr => highPhases none (lineWrites ch.pin 0 (sendTTL ch t0 p).2 ++ tr))
          = some ((List.range (ch.duration / p)).map
              (fun j => (j * p, j * p + ch.pulseWidth)))) := by
  have hp : 0 < p := by omega
  obtain ⟨hceil, hlo, hhi⟩ := ceil_div_eq ch.duration p hd0 hp
  have hmain : (pulseTrain t0 fuel 1 (sendTTL ch t0 p).1).map
      (fun tr => highPhases none (lineWrites ch.pin 0 (sendTTL ch t0 p).2 ++ tr))
      = some ((List.range ((ch.duration + p - 1) / p)).map
          (fun j => (j * p, min (j * p + ch.pulseWidth) ch.duration))) := by
    obtain ⟨tr, htr, hph⟩ := pulseTrain_phasesFrom ch t0 p hd hw0 hwp ((ch.duration - 1) / p)
      0 fuel (by omega) (by rw [Nat.succ_mul]; omega) (by omega)
    rw [sendTTL_idle_trainState ch t0 p hidle ht0, htr]
    simp only [Option.map_some', lineWrites, if_true, List.cons_append, List.nil_append, HIGH,
      highPhases, hph, phasesFrom_eq_map, hceil, Nat.zero_add]
  refine ⟨hmain, ?_⟩
  rintro ⟨q, hq⟩
  rw [hmain]
  have hq0 : 0 < q := by
    rcases Nat.eq_zero_or_pos q with h | h
    · rw [h, Nat.mul_zero] at hq; omega
    · exact h
  have hdiv : ch.duration / p = q := by rw [hq, Nat.mul_div_cancel_left q hp]
  have hceilq : (ch.duration + p - 1) / p = q := by
    rw [hceil, hq]
    have : p * q - 1 = p * (q - 1) + (p - 1) := by
      obtain ⟨q1, rfl⟩ : ∃ q1, q = q1 + 1 := ⟨q - 1, by omega⟩
      rw [Nat.mul_succ]
      simp only [Nat.add_sub_cancel]
      omega
    rw [this, Nat.mul_add_div hp, Nat.div_eq_of_lt (by omega)]
    omega
  rw [hceilq, hdiv]
  congr 1
  apply List.map_congr_left
  intro j hj
  have hjq : j < q := List.mem_range.mp hj
  have hle : j * p + p ≤ ch.duration := by
    rw [hq, Nat.mul_comm p q]
    have : (j + 1) * p ≤ q * p := Nat.mul_le_mul_right p hjq
    rw [Nat.succ_mul] at this
    exact this
  rw [Nat.min_eq_left (by omega)]

theorem pulseTrain_high_phases_witness :
    (pulseTrain 3 11 1 (sendTTL (initTTL 2 OUTPUT 11 5 2).1 3 5).1).map
        (fun tr => highPhases none
          (lineWrites 2 0 (sendTTL (initTTL 2 OUTPUT 11 5 2).1 3 5).2 ++ tr))
      = some [(0, 2), (5, 7), (10, 11)] :=
  (pulseTrain_high_phases (initTTL 2 OUTPUT 11 5 2).1 3 5 11 rfl (by decide) (by decide)
    (by decide) (by decide) (by decide) (by decide)).1

/-! ## Beam-break detector: invariants -/

theorem detectIR_reads (s : IRState) (out : TTLState) (raw : Bool) (t : Nat) :
    (detectIR s out raw t).1.lastRead = s.currentRead
    ∧ (detectIR s out raw t).1.currentRead = raw := by
  have he : (detectIR_edge s (digitalReadCorrected raw IR_ACTIVE_LOW) t).currentRead
      = s.currentRead := by
    unfold detectIR_edge; split_ifs <;> rfl
  have hc : ∀ x : IRState, (detectIR_clear x t).1.currentRead = x.currentRead := by
    intro x; unfold detectIR_clear; split_ifs <;> rfl
  have hb : ∀ x : IRState, (detectIR_break x out t).1.currentRead = x.currentRead := by
    intro x; unfold detectIR_break; split_ifs <;> rfl
  have hs : ∀ (x : IRState) (v : Bool),
      (detectIR_store x v).lastRead = x.currentRead ∧ (detectIR_store x v).currentRead = v := by
    intro x v; unfold detectIR_store; split_ifs <;> exact ⟨rfl, rfl⟩
  simp only [detectIR]
  rw [(hs _ _).1, (hs _ _).2, hb, hc, he]
  exact ⟨rfl, rfl⟩

/-- The in-break flag after a call, from the flag and the stored reads before it. -/
theorem detectIR_inBreak_step (s : IRState) (out : TTLState) (raw : Bool) (t : Nat) :
    (detectIR s out raw t).1.inBreak
      = if s.inBreak then (raw || s.currentRead || s.lastRead)
        else (raw && (s.currentRead || s.lastRead)) := by
  rw [(detectIR_inBreak_eq s out raw t).1]
  unfold detectIR_edge
  rw [show digitalReadCorrected raw IR_ACTIVE_LOW = raw from rfl]
  cases raw <;> cases h1 : s.currentRead <;> cases h2 : s.lastRead <;> cases h3 : s.inBreak <;>
    simp [h3]

/-- C17: in every state reached from `initIR` by `detectIR` calls exactly one of `breakEvent`
and `connectEvent` is set, and a call that finds `breakEvent` clear and leaves it set leaves the
detector in break and found it armed (`connectEvent` set). -/
theorem detectIR_gates_exclusive (pin side led period : Nat) (raw0 : Bool) (tS tO : Nat)
    (pre : List IRCall) (c : IRCall) :
    let s := irAfter (initIR pin side led period raw0 tS tO).1 pre
    let r := detectIR s c.out c.raw c.tNow
    ((s.breakEvent = true ∧ s.connectEvent = false)
        ∨ (s.breakEvent = false ∧ s.connectEvent = true))
    ∧ (s.breakEvent = false → r.1.breakEvent = true →
        r.1.inBreak = true ∧ s.connectEvent = true) := by
  intro s r
  have hg : s.breakEvent = !s.connectEvent :=
    irAfter_gates (initIR pin side led period raw0 tS tO).1 rfl pre
  refine ⟨?_, ?_⟩
  · cases hc : s.connectEvent <;> simp [hg, hc]
  · intro hb0 hb1
    rcases detectIR_step_cases s c.out c.raw c.tNow hg with
      ⟨-, -, hb⟩ | ⟨harm, he, -, -⟩ | ⟨-, -, -, hb, -, -⟩
    · have hb2 : r.1.breakEvent = s.breakEvent := hb
      rw [hb2, hb0] at hb1; cases hb1
    · have hmem : Effect.eventLog s.side IR ON c.tNow ∈ (detectIR s c.out c.raw c.tNow).2.2 := by
        rw [he]; simp
      exact ⟨((detectIR_step_break s c.out c.raw c.tNow).1.mp hmem).2.1, harm⟩
    · have hb2 : r.1.breakEvent = false := hb
      rw [hb2] at hb1; cases hb1

/-- C19: a call of `detectIR` from any state sets the in-break flag (recording
`tStart = tNow`) exactly when the sample is high and one of the two stored reads is high, clears
it (recording `tOff = tNow`) exactly when the sample is low and both stored reads are low, and
leaves it otherwise; afterwards `lastRead` is the old `currentRead` and `currentRead` the
sample.  So with both stored reads low, a high sample followed by two low samples enters no
break and leaves both stored reads low; and in a break, after a high sample, a low sample
followed by a high one and then any sample does not leave the break. -/
theorem detectIR_or_debounce (s : IRState) (c c2 c3 : IRCall) :
    let r := (detectIR s c.out c.raw c.tNow).1
    (s.inBreak = false ∧ r.inBreak = true ↔
        s.inBreak = false ∧ c.raw = true ∧ (s.currentRead = true ∨ s.lastRead = true))
    ∧ (s.inBreak = false → r.inBreak = true → r.tStart = c.tNow)
    ∧ (s.inBreak = true ∧ r.inBreak = false ↔
        s.inBreak = true ∧ c.raw = false ∧ s.currentRead = false ∧ s.lastRead = false)
    ∧ (s.inBreak = true → r.inBreak = false → r.tOff = c.tNow)
    ∧ (r.lastRead = s.currentRead ∧ r.currentRead = c.raw)
    ∧ (s.inBreak = false → s.currentRead = false → s.lastRead = false →
        c.raw = true → c2.raw = false → c3.raw = false →
        (irAfter s [c]).inBreak = false ∧ (irAfter s [c, c2]).inBreak = false
          ∧ (irAfter s [c, c2, c3]).inBreak = false
          ∧ (irAfter s [c, c2, c3]).currentRead = false
          ∧ (irAfter s [c, c2, c3]).lastRead = false)
    ∧ (s.inBreak = true → s.currentRead = true → c.raw = false → c2.raw = true →
        (irAfter s [c]).inBreak = true ∧ (irAfter s [c, c2]).inBreak = true
          ∧ (irAfter s [c, c2, c3]).inBreak = true) := by
  intro r
  have hstep := detectIR_inBreak_step s c.out c.raw c.tNow
  obtain ⟨hlr, hcr⟩ := detectIR_reads s c.out c.raw c.tNow
  obtain ⟨hib, hts, hto⟩ := detectIR_inBreak_eq s c.out c.raw c.tNow
  have hr : r = (detectIR s c.out c.raw c.tNow).1 := rfl
  refine ⟨?_, ?_, ?_, ?_, ⟨hlr, hcr⟩, ?_, ?_⟩
  · rw [hr, hstep]
    cases s.inBreak <;> cases c.raw <;> cases s.currentRead <;> cases s.lastRead <;> simp
  · intro h0 h1
    rw [hr, hts]
    exact detectIR_edge_enter s _ c.tNow h0 (hib ▸ (hr ▸ h1))
  · rw [hr, hstep]
    cases s.inBreak <;> cases c.raw <;> cases s.currentRead <;> cases s.lastRead <;> simp
  · intro h0 h1
    rw [hr, hto]
    have h2 : (detectIR_edge s (digitalReadCorrected c.raw IR_ACTIVE_LOW) c.tNow).inBreak
        = false := hib ▸ (hr ▸ h1)
    unfold detectIR_edge at h2 ⊢
    split_ifs at h2 ⊢ <;> simp_all
  · intro h0 h1 h2 hv1 hv2 hv3
    have e1 : irAfter s [c] = (detectIR s c.out c.raw c.tNow).1 := rfl
    have e2 : irAfter s [c, c2] = (detectIR (irAfter s [c]) c2.out c2.raw c2.tNow).1 := rfl
    have e3 : irAfter s [c, c2, c3]
        = (detectIR (irAfter s [c, c2]) c3.out c3.raw c3.tNow).1 := rfl
    have a1 : (irAfter s [c]).inBreak = false := by rw [e1, hstep]; simp [h0, h1, h2]
    have b1 := detectIR_reads s c.out c.raw c.tNow
    rw [← e1] at b1
    have a2 : (irAfter s [c, c2]).inBreak = false := by
      rw [e2, detectIR_inBreak_step]; simp [a1, hv2]
    have b2 := detectIR_reads (irAfter s [c]) c2.out c2.raw c2.tNow
    rw [← e2] at b2
    have a3 : (irAfter s [c, c2, c3]).inBreak = false := by
      rw [e3, detectIR_inBreak_step]; simp [a2, hv3]
    have b3 := detectIR_reads (irAfter s [c, c2]) c3.out c3.raw c3.tNow
    rw [← e3] at b3
    exact ⟨a1, a2, a3, by rw [b3.2, hv3], by rw [b3.1, b2.2, hv2]⟩
  · intro h0 h1 hv1 hv2
    have e1 : irAfter s [c] = (detectIR s c.out c.raw c.tNow).1 := rfl
    have e2 : irAfter s [c, c2] = (detectIR (irAfter s [c]) c2.out c2.raw c2.tNow).1 := rfl
    have e3 : irAfter s [c, c2, c3]
        = (detectIR (irAfter s [c, c2]) c3.out c3.raw c3.tNow).1 := rfl
    have a1 : (irAfter s [c]).inBreak = true := by rw [e1, hstep]; simp [h0, h1]
    have a2 : (irAfter s [c, c2]).inBreak = true := by
      rw [e2, detectIR_inBreak_step]; simp [a1, hv2]
    have b2 := detectIR_reads (irAfter s [c]) c2.out c2.raw c2.tNow
    rw [← e2] at b2
    have a3 : (irAfter s [c, c2, c3]).inBreak = true := by
      rw [e3, detectIR_inBreak_step]; simp [a2, b2.2, hv2]
    exact ⟨a1, a2, a3⟩

theorem irAgree_edge (a b : IRState) (v : Bool) (t : Nat) (h : irAgree a b) :
    irAgree (detectIR_edge a v t) (detectIR_edge b v t) := by
  obtain ⟨h1, h2, h3, h4, h5, h6, h7, h8, h9, h10, h11, h12, h13, h14⟩ := h
  have hc1 : ((b.currentRead || b.lastRead) && v && !b.inBreak)
      = ((a.currentRead || a.lastRead) && v && !a.inBreak) := by rw [h4, h5, h8]
  have hc2 : (!(b.currentRead || b.lastRead) && !v && b.inBreak)
      = (!(a.currentRead || a.lastRead) && !v && a.inBreak) := by rw [h4, h5, h8]
  unfold detectIR_edge
  rw [hc1, hc2]
  split_ifs with c1 c2
  · exact ⟨h1, h2, h3, h4, h5, h6, h7, rfl, h9, h10, h11, h12, fun _ => rfl,
      (fun hf => by cases hf)⟩
  · exact ⟨h1, h2, h3, h4, h5, h6, h7, rfl, h9, h10, h11, h12, (fun hf => by cases hf),
      fun _ _ => rfl⟩
  · exact ⟨h1, h2, h3, h4, h5, h6, h7, h8, h9, h10, h11, h12, h13, h14⟩

theorem irAgree_clear (a b : IRState) (t : Nat) (h : irAgree a b) :
    irAgree (detectIR_clear a t).1 (detectIR_clear b t).1
      ∧ (detectIR_clear a t).2 = (detectIR_clear b t).2 := by
  obtain ⟨h1, h2, h3, h4, h5, h6, h7, h8, h9, h10, h11, h12, h13, h14⟩ := h
  have hc : (decide (usub t b.tOff ≥ MIN_IR_BREAK) && !b.inBreak && b.breakEvent)
      = (decide (usub t a.tOff ≥ MIN_IR_BREAK) && !a.inBreak && a.breakEvent) := by
    rw [← h8, ← h9]
    cases hi : a.inBreak <;> cases hb : a.breakEvent <;> simp
    rw [h14 hi hb]
  unfold detectIR_clear
  rw [hc]
  split_ifs with c1
  · refine ⟨⟨h1, h2, h3, h4, h5, h6, h7, rfl, rfl, rfl, rfl, h12, (fun hf => by cases hf),
      (fun _ hf => by cases hf)⟩, ?_⟩
    show [Effect.eventLog a.side IR OFF t, Effect.digitalWrite a.proxyLEDPin LOW]
      = [Effect.eventLog b.side IR OFF t, Effect.digitalWrite b.proxyLEDPin LOW]
    rw [h2, h3]
  · exact ⟨⟨h1, h2, h3, h4, h5, h6, h7, h8, h9, h10, h11, h12, h13, h14⟩, rfl⟩

theorem irAgree_break (a b : IRState) (out : TTLState) (t : Nat) (h : irAgree a b) :
    irAgree (detectIR_break a out t).1 (detectIR_break b out t).1
      ∧ (detectIR_break a out t).2 = (detectIR_break b out t).2 := by
  obtain ⟨h1, h2, h3, h4, h5, h6, h7, h8, h9, h10, h11, h12, h13, h14⟩ := h
  have hc : (decide (usub t b.tStart ≥ MIN_IR_BREAK) && b.inBreak && b.connectEvent)
      = (decide (usub t a.tStart ≥ MIN_IR_BREAK) && a.inBreak && a.connectEvent) := by
    rw [← h8, ← h11]
    cases hi : a.inBreak <;> simp
    rw [h13 hi]
  unfold detectIR_break
  rw [hc]
  split_ifs with c1
  · have hi : a.inBreak = true := by
      cases hi : a.inBreak
      · rw [hi] at c1; simp at c1
      · rfl
    refine ⟨⟨h1, h2, h3, h4, h5, h6, h7, h8, rfl, rfl, rfl, h12, h13,
      (fun hf => by rw [hi] at hf; cases hf)⟩, ?_⟩
    show ((sendTTL out t a.ttlPulsePeriod).1,
        [Effect.eventLog a.side IR ON t, Effect.digitalWrite a.proxyLEDPin HIGH]
          ++ (sendTTL out t a.ttlPulsePeriod).2)
      = ((sendTTL out t b.ttlPulsePeriod).1,
        [Effect.eventLog b.side IR ON t, Effect.digitalWrite b.proxyLEDPin HIGH]
          ++ (sendTTL out t b.ttlPulsePeriod).2)
    rw [h2, h3, h12]
  · exact ⟨⟨h1, h2, h3, h4, h5, h6, h7, h8, h9, h10, h11, h12, h13, h14⟩, rfl⟩

theorem irAgree_store (a b : IRState) (v : Bool) (h : irAgree a b) :
    irAgree (detectIR_store a v) (detectIR_store b v) := by
  obtain ⟨h1, h2, h3, h4, h5, h6, h7, h8, h9, h10, h11, h12, h13, h14⟩ := h
  unfold detectIR_store
  rw [← h10]
  split_ifs
  · exact ⟨h1, h2, h3, rfl, h4, rfl, h6, h8, h9, rfl, h11, h12, h13, h14⟩
  · exact ⟨h1, h2, h3, rfl, h4, h6, h7, h8, h9, h10, h11, h12, h13, h14⟩

/-- Agreeing records stay in agreement through a call, and the call has the same effects and
leaves the same outbound channel. -/
theorem irAgree_detectIR (a b : IRState) (out : TTLState) (raw : Bool) (t : Nat)
    (h : irAgree a b) :
    irAgree (detectIR a out raw t).1 (detectIR b out raw t).1
      ∧ (detectIR a out raw t).2 = (detectIR b out raw t).2 := by
  simp only [detectIR]
  have he := irAgree_edge a b (digitalReadCorrected raw IR_ACTIVE_LOW) t h
  obtain ⟨hc, hce⟩ := irAgree_clear _ _ t he
  obtain ⟨hb, hbe⟩ := irAgree_break _ _ out t hc
  refine ⟨irAgree_store _ _ _ hb, ?_⟩
  rw [hce, hbe]

theorem irAgree_irAfter (a b : IRState) (h : irAgree a b) (calls : List IRCall) :
    irAgree (irAfter a calls) (irAfter b calls) := by
  induction calls using List.reverseRecOn with
  | nil => exact h
  | append_singleton pre c ih =>
    rw [irAfter_concat, irAfter_concat]
    exact (irAgree_detectIR _ _ c.out c.raw c.tNow ih).1

/-- C20: two runs of `detectIR` over the same calls that start from `initIR` states differing
only in the values `tStart` and `tOff` happened to hold have, at every call, the same effects
and the same outbound channel, and after every call the same `inBreak`, `breakEvent` and
`connectEvent`. -/
theorem detectIR_ignores_unset_times (pin side led period : Nat) (raw0 : Bool)
    (tS tO tS1 tO1 : Nat) (pre : List IRCall) (c : IRCall) :
    let a := irAfter (initIR pin side led period raw0 tS tO).1 pre
    let b := irAfter (initIR pin side led period raw0 tS1 tO1).1 pre
    (detectIR a c.out c.raw c.tNow).2 = (detectIR b c.out c.raw c.tNow).2
    ∧ (detectIR a c.out c.raw c.tNow).1.inBreak = (detectIR b c.out c.raw c.tNow).1.inBreak
    ∧ (detectIR a c.out c.raw c.tNow).1.breakEvent
        = (detectIR b c.out c.raw c.tNow).1.breakEvent
    ∧ (detectIR a c.out c.raw c.tNow).1.connectEvent
        = (detectIR b c.out c.raw c.tNow).1.connectEvent
    ∧ a.inBreak = b.inBreak ∧ a.breakEvent = b.breakEvent ∧ a.connectEvent = b.connectEvent
    ∧ irEffects (initIR pin side led period raw0 tS tO).1 (pre ++ [c])
        = irEffects (initIR pin side led period raw0 tS1 tO1).1 (pre ++ [c]) := by
  intro a b
  have h0 : irAgree (initIR pin side led period raw0 tS tO).1
      (initIR pin side led period raw0 tS1 tO1).1 :=
    ⟨rfl, rfl, rfl, rfl, rfl, rfl, rfl, rfl, rfl, rfl, rfl, rfl, (fun hf => by cases hf),
      (fun _ hf => by cases hf)⟩
  have hab : irAgree a b := irAgree_irAfter _ _ h0 pre
  obtain ⟨hr, he⟩ := irAgree_detectIR a b c.out c.raw c.tNow hab
  refine ⟨he, hr.2.2.2.2.2.2.2.1, hr.2.2.2.2.2.2.2.2.1, hr.2.2.2.2.2.2.2.2.2.2.1,
    hab.2.2.2.2.2.2.2.1, hab.2.2.2.2.2.2.2.2.1, hab.2.2.2.2.2.2.2.2.2.2.1, ?_⟩
  have hgen : ∀ (calls : List IRCall) (x y : IRState), irAgree x y →
      irEffects x calls = irEffects y calls := by
    intro calls
    induction calls with
    | nil => intro x y _; rfl
    | cons d rest ih =>
      intro x y hxy
      obtain ⟨h1, h2⟩ := irAgree_detectIR x y d.out d.raw d.tNow hxy
      simp only [irEffects]
      rw [ih _ _ h1, show (detectIR x d.out d.raw d.tNow).2.2 = (detectIR y d.out d.raw d.tNow).2.2
        from by rw [h2]]
  exact hgen _ _ _ h0

/-! ## Pulse channel: invariant -/

theorem usub_same (a : Nat) : usub a a = 0 := by
  unfold usub
  rw [ULONG_MOD_eq]
  omega

/-- C18, the claim as stated fails: a light that is on since `0` with interval `500` is left
on by the call at `tNow = 500`, although `tNow - tLEDon ≥ blinkInterval`. -/
theorem updateBlinkLED_equal_interval_counterexample :
    usub 500 (BlinkLEDState.mk 12 0 true 500 0 0).tLEDon
        ≥ (BlinkLEDState.mk 12 0 true 500 0 0).blinkInterval
    ∧ updateBlinkLED (BlinkLEDState.mk 12 0 true 500 0 0) 500
        = (BlinkLEDState.mk 12 0 true 500 0 0, []) := by
  decide

/-- C18 (amended): `updateBlinkLED` switches the light from on to off exactly when it is on and
more than the interval has passed since it was turned on (`tNow - tLEDon > blinkInterval`),
recording `tLEDoff = tNow`, and from off to on exactly when it is off and more than the interval
has passed since it was turned off (`tNow - tLEDoff > blinkInterval`), recording
`tLEDon = tNow`; a call makes one line write in these two cases and otherwise leaves the record
and the line as they were. -/
theorem updateBlinkLED_transitions (s : BlinkLEDState) (t : Nat) :
    ((s.ledBlinkState = true ∧ (updateBlinkLED s t).1.ledBlinkState = false)
        ↔ (s.ledBlinkState = true ∧ usub t s.tLEDon > s.blinkInterval))
    ∧ ((s.ledBlinkState = false ∧ (updateBlinkLED s t).1.ledBlinkState = true)
        ↔ (s.ledBlinkState = false ∧ usub t s.tLEDoff > s.blinkInterval))
    ∧ (s.ledBlinkState = true ∧ usub t s.tLEDon > s.blinkInterval →
        updateBlinkLED s t
          = ({ s with tLEDoff := t, ledBlinkState := false }, [Effect.digitalWrite s.pin LOW]))
    ∧ (s.ledBlinkState = false ∧ usub t s.tLEDoff > s.blinkInterval →
        updateBlinkLED s t
          = ({ s with tLEDon := t, ledBlinkState := true }, [Effect.digitalWrite s.pin HIGH]))
    ∧ (¬ (s.ledBlinkState = true ∧ usub t s.tLEDon > s.blinkInterval) →
       ¬ (s.ledBlinkState = false ∧ usub t s.tLEDoff > s.blinkInterval) →
        updateBlinkLED s t = (s, [])) := by
  have h0 : ¬ (usub t t > s.blinkInterval) := by rw [usub_same]; omega
  cases hs : s.ledBlinkState
  · by_cases hoff : usub t s.tLEDoff > s.blinkInterval
    · simp [updateBlinkLED, hs, hoff, levelOf, ON, HIGH]
    · simp [updateBlinkLED, hs, hoff]
  · by_cases hon : usub t s.tLEDon > s.blinkInterval
    · simp [updateBlinkLED, hs, hon, h0, levelOf, OFF, LOW, Nat.not_lt.mp h0]
    · simp [updateBlinkLED, hs, hon]

/-! ## Runtime supervisor -/

/-- C11, the code at the failing input: a supervisor initialised with no input trigger and
`delay = 1000` at clock reading `0` is updated at clock reading `1000`; then
`tNow - tStart = 1000 ≥ delay`, yet the call leaves `runtimeFlag` clear and has no effect,
because it compares with `DELAY_START` instead of the stored delay. -/
theorem updateRuntime_ignores_delay_field :
    ((initRuntime 13 none 1200000 1000 [0] 0 0 false).map (fun r => (r.1.delay, r.1.tStart)))
        = some (1000, 0)
    ∧ ((initRuntime 13 none 1200000 1000 [0] 0 0 false).bind
          (fun r => updateRuntime r.1 (initTTL 15 OUTPUT 50 50 20).1 false [1000])).map
        (fun r => (r.state.tNow, r.state.runtimeFlag, r.effects, r.spins))
        = some (1000, false, [], false) := by
  decide

theorem runtimeHaltWrites_eq (led : Nat) :
    runtimeHaltWrites led
      = [Effect.digitalWrite led LOW, Effect.digitalWrite SOLENOID_A_PIN HIGH,
         Effect.digitalWrite SOLENOID_B_PIN HIGH] := rfl

/-- A call of `updateRuntime` that returns has read an accepted clock value and run the branch
for its variant with that value stored in `tNow`. -/
theorem updateRuntime_some (rs : RuntimeState) (out : TTLState) (v : Bool) (clock : List Nat)
    (r : RuntimeResult) (h : updateRuntime rs out v clock = some r) :
    ∃ t rest, currentTime rs.tLast CLOCK_TOLERANCE clock = some (t, rest)
      ∧ (rs.inputTrigger = none → r = updateRuntimeUntriggered { rs with tNow := t } out)
      ∧ (∀ trig, rs.inputTrigger = some trig →
          r = updateRuntimeTriggered { rs with tNow := t } trig out v) := by
  unfold updateRuntime at h
  cases hc : currentTime rs.tLast CLOCK_TOLERANCE clock with
  | none => rw [hc] at h; cases h
  | some x =>
    obtain ⟨t, rest⟩ := x
    rw [hc] at h
    refine ⟨t, rest, rfl, ?_, ?_⟩
    · intro hn
      simp only [hn, Option.some.injEq] at h
      rw [← h, hn]
    · intro trig ht
      simp only [ht, Option.some.injEq] at h
      rw [← h, ht]

theorem updateRuntimeUntriggered_halt (s : RuntimeState) (out : TTLState)
    (hf : s.runtimeFlag = true) (he : usub s.tNow s.tRuntimeStart ≥ s.duration) :
    updateRuntimeUntriggered s out
      = { state := { s with runtimeFlag := false }, out := out,
          effects := runtimeHaltWrites s.led_pin ++ [Effect.serialMark 'E' s.tNow],
          spins := true, triggered := false } := by
  simp [updateRuntimeUntriggered, hf, he]

theorem updateRuntimeUntriggered_active (s : RuntimeState) (out : TTLState)
    (hf : s.runtimeFlag = true) (he : usub s.tNow s.tRuntimeStart < s.duration) :
    updateRuntimeUntriggered s out
      = { state := { s with tLast := s.tNow }, out := out, effects := [],
          spins := false, triggered := false } := by
  simp [updateRuntimeUntriggered, hf, Nat.not_le.mpr he]

theorem updateRuntimeUntriggered_idle (s : RuntimeState) (out : TTLState)
    (hf : s.runtimeFlag = false) (he : usub s.tNow s.tStart < DELAY_START) :
    updateRuntimeUntriggered s out
      = { state := { s with tLast := s.tNow }, out := out, effects := [],
          spins := false, triggered := false } := by
  simp [updateRuntimeUntriggered, hf, Nat.not_le.mpr he]

theorem updateRuntimeUntriggered_start (s : RuntimeState) (out : TTLState)
    (hf : s.runtimeFlag = false) (he : usub s.tNow s.tStart ≥ DELAY_START) :
    updateRuntimeUntriggered s out
      = { state := { s with runtimeFlag := true, tRuntimeStart := s.tNow, tLast := s.tNow },
          out := out,
          effects := [Effect.digitalWrite s.led_pin HIGH, Effect.serialMark 'S' s.tNow],
          spins := false, triggered := false } := by
  simp [updateRuntimeUntriggered, runtimeStart, hf, he, levelOf, ON, HIGH]

/-- A returning call of `updateRuntime`, seen as the record `s1` with the accepted clock value
stored in `tNow`, followed by the branch for its variant. -/
theorem updateRuntime_view (rs : RuntimeState) (out : TTLState) (v : Bool) (clock : List Nat)
    (r : RuntimeResult) (h : updateRuntime rs out v clock = some r) :
    ∃ s1 : RuntimeState,
      s1.runtimeFlag = rs.runtimeFlag ∧ s1.tRuntimeStart = rs.tRuntimeStart
      ∧ s1.duration = rs.duration ∧ s1.led_pin = rs.led_pin ∧ s1.tStart = rs.tStart
      ∧ s1.inputTrigger = rs.inputTrigger
      ∧ (∃ rest, currentTime rs.tLast CLOCK_TOLERANCE clock = some (s1.tNow, rest))
      ∧ r.state.tNow = s1.tNow
      ∧ (rs.inputTrigger = none → r = updateRuntimeUntriggered s1 out)
      ∧ (∀ trig, rs.inputTrigger = some trig → r = updateRuntimeTriggered s1 trig out v) := by
  obtain ⟨t, rest, hc, hnone, hsome⟩ := updateRuntime_some rs out v clock r h
  refine ⟨{ rs with tNow := t }, rfl, rfl, rfl, rfl, rfl, rfl, ⟨rest, hc⟩, ?_, hnone, hsome⟩
  cases htr : rs.inputTrigger with
  | none =>
    rw [hnone htr]; unfold updateRuntimeUntriggered; split_ifs <;> simp [runtimeStart]
  | some trig =>
    rw [hsome trig htr]; unfold updateRuntimeTriggered; simp only []
    split_ifs <;> simp [runtimeStart]

theorem runtime_constants :
    DELAY_START = 4000 ∧ RUN_TIME_DURATION = 1200000 ∧ CLOCK_TOLERANCE = 20
      ∧ UNSET = 4294967295 ∧ ULONG_MOD = 4294967296 := by
  decide

/-- A clock value that `currentTime` returns for a previous reading other than the sentinel is
not before that reading and at most the tolerance after it. -/
theorem currentTime_accepted (T tol : Nat) (raw : List Nat) (r : Nat × List Nat)
    (hne : T ≠ UNSET) (hraw : ∀ x ∈ raw, x < ULONG_MOD) (h : currentTime T tol raw = some r) :
    T ≤ r.1 ∧ r.1 ≤ T + tol ∧ r.1 < ULONG_MOD := by
  cases raw with
  | nil => simp [currentTime] at h
  | cons tNow rest =>
    simp only [currentTime, hne, ne_eq, not_false_eq_true, if_true] at h
    obtain ⟨hacc, A, hsplit, -⟩ := currentTimeLoop_sound T tol rest tNow r hraw h
    have hmem : r.1 ∈ tNow :: rest := by rw [hsplit]; simp
    have := hraw r.1 hmem
    unfold sampleAccepted at hacc
    omega

/-- A returning call on a supervisor without a trigger whose last reading is `tLast`: the value
read is within the tolerance after `tLast`, and the call is the untriggered branch on it. -/
theorem updateRuntime_untriggered_step (s : RuntimeState) (c : RuntimeCall) (r : RuntimeResult)
    (hn : s.inputTrigger = none) (hl : s.tLast ≠ UNSET)
    (hraw : ∀ x ∈ c.clock, x < ULONG_MOD)
    (h : updateRuntime s c.out c.trigger c.clock = some r) :
    ∃ s1 : RuntimeState,
      s1.runtimeFlag = s.runtimeFlag ∧ s1.tRuntimeStart = s.tRuntimeStart
      ∧ s1.duration = s.duration ∧ s1.led_pin = s.led_pin ∧ s1.tStart = s.tStart
      ∧ s1.inputTrigger = none
      ∧ s.tLast ≤ s1.tNow ∧ s1.tNow ≤ s.tLast + CLOCK_TOLERANCE ∧ s1.tNow < ULONG_MOD
      ∧ r.state.tNow = s1.tNow ∧ r = updateRuntimeUntriggered s1 c.out := by
  obtain ⟨s1, h1, h2, h3, h4, h5, h6, ⟨rest, hc⟩, h8, hnone, -⟩ :=
    updateRuntime_view s c.out c.trigger c.clock r h
  obtain ⟨a1, a2, a3⟩ := currentTime_accepted s.tLast CLOCK_TOLERANCE c.clock _ hl hraw hc
  exact ⟨s1, h1, h2, h3, h4, h5, h6.trans hn, a1, a2, a3, h8, hnone hn⟩

/-- One call on a waiting supervisor: it is timely, and leaves the supervisor waiting or in its
active window. -/
theorem RtIdle_step (pin : Nat) (s : RuntimeState) (c : RuntimeCall) (r : RuntimeResult)
    (hs : RtIdle pin s) (hraw : ∀ x ∈ c.clock, x < ULONG_MOD)
    (h : updateRuntime s c.out c.trigger c.clock = some r) :
    RtTimely pin (c, r) ∧ r.spins = false ∧ (RtIdle pin r.state ∨ RtActive pin r.state)
      ∧ (DELAY_START ≤ r.state.tNow → Effect.serialMark 'S' r.state.tNow ∈ r.effects)
      ∧ r.state.tLast = r.state.tNow := by
  obtain ⟨hled, hf, hn, hst, hdur, hlast⟩ := hs
  obtain ⟨hD, hR, hT, hU, hM⟩ := runtime_constants
  obtain ⟨s1, h1, h2, h3, h4, h5, h6, a1, a2, a3, h8, hr⟩ :=
    updateRuntime_untriggered_step s c r hn (by omega) hraw h
  have hsub : usub s1.tNow s1.tStart = s1.tNow := by
    rw [h5, hst, usub_of_le (Nat.zero_le _) a3]; rfl
  by_cases hstart : DELAY_START ≤ s1.tNow
  · rw [updateRuntimeUntriggered_start s1 c.out (h1.trans hf) (by rw [hsub]; exact hstart)] at hr
    have e1 : r.effects = [Effect.digitalWrite pin HIGH, Effect.serialMark 'S' s1.tNow] := by
      rw [hr, ← hled, ← h4]
    refine ⟨⟨?_, ?_⟩, by rw [hr], Or.inr ?_, ?_, by rw [hr]⟩
    · intro t _
      rw [h8]
      exact ⟨e1, hstart, by omega⟩
    · intro hsp; rw [hr] at hsp; cases hsp
    · rw [hr]
      exact ⟨h4.trans hled, rfl, h6, h5.trans hst, h3.trans hdur, hstart,
        (by show s1.tNow < _; omega), le_refl _, (by show s1.tNow < s1.tNow + _; omega)⟩
    · intro _
      rw [h8, e1]; simp
  · have hlt : s1.tNow < DELAY_START := Nat.not_le.mp hstart
    rw [updateRuntimeUntriggered_idle s1 c.out (h1.trans hf) (by rw [hsub]; exact hlt)] at hr
    refine ⟨⟨?_, ?_⟩, by rw [hr], Or.inl ?_, ?_, by rw [hr]⟩
    · intro t ht; rw [hr] at ht; simp at ht
    · intro hsp; rw [hr] at hsp; cases hsp
    · rw [hr]
      exact ⟨h4.trans hled, h1.trans hf, h6, h5.trans hst, h3.trans hdur, hlt⟩
    · intro hge; rw [h8] at hge; omega

/-- One call on a supervisor in its active window: it is timely, and either ends in the
terminal spin or leaves the supervisor in its window. -/
theorem RtActive_step (pin : Nat) (s : RuntimeState) (c : RuntimeCall) (r : RuntimeResult)
    (hs : RtActive pin s) (hraw : ∀ x ∈ c.clock, x < ULONG_MOD)
    (h : updateRuntime s c.out c.trigger c.clock = some r) :
    RtTimely pin (c, r) ∧ (r.spins = false → RtActive pin r.state)
      ∧ (DELAY_START + CLOCK_TOLERANCE + RUN_TIME_DURATION ≤ r.state.tNow → r.spins = true)
      ∧ (∀ t, Effect.serialMark 'S' t ∉ r.effects) := by
  obtain ⟨hled, hf, hn, hst, hdur, hlo, hhi, hle, hlast⟩ := hs
  obtain ⟨hD, hR, hT, hU, hM⟩ := runtime_constants
  obtain ⟨s1, h1, h2, h3, h4, h5, h6, a1, a2, a3, h8, hr⟩ :=
    updateRuntime_untriggered_step s c r hn (by omega) hraw h
  have hsub : usub s1.tNow s1.tRuntimeStart = s1.tNow - s.tRuntimeStart := by
    rw [h2, usub_of_le (by omega) a3]
  by_cases hend : s.tRuntimeStart + RUN_TIME_DURATION ≤ s1.tNow
  · rw [updateRuntimeUntriggered_halt s1 c.out (h1.trans hf)
      (by rw [hsub, h3, hdur]; omega)] at hr
    refine ⟨⟨?_, ?_⟩, ?_, ?_, ?_⟩
    · intro t ht
      rw [hr] at ht
      simp [runtimeHaltWrites, digitalWriteCorrected] at ht
    · intro _
      rw [h8, hr]
      refine ⟨by rw [← hled, ← h4], rfl, ?_, ?_, ?_, ?_⟩
      · show DELAY_START ≤ s1.tRuntimeStart; omega
      · show s1.tRuntimeStart < _; omega
      · show s1.tRuntimeStart + _ ≤ s1.tNow; omega
      · show s1.tNow < s1.tRuntimeStart + _ + _; omega
    · intro hsp; rw [hr] at hsp; cases hsp
    · intro _; rw [hr]
    · intro t; rw [hr]; simp [runtimeHaltWrites, digitalWriteCorrected]
  · have hlt : s1.tNow < s.tRuntimeStart + RUN_TIME_DURATION := Nat.not_le.mp hend
    rw [updateRuntimeUntriggered_active s1 c.out (h1.trans hf)
      (by rw [hsub, h3, hdur]; omega)] at hr
    refine ⟨⟨?_, ?_⟩, ?_, ?_, ?_⟩
    · intro t ht; rw [hr] at ht; simp at ht
    · intro hsp; rw [hr] at hsp; cases hsp
    · intro _
      rw [hr]
      exact ⟨h4.trans hled, h1.trans hf, h6, h5.trans hst, h3.trans hdur,
        (by show DELAY_START ≤ s1.tRuntimeStart; omega),
        (by show s1.tRuntimeStart < _; omega),
        (by show s1.tRuntimeStart ≤ s1.tNow; omega),
        (by show s1.tNow < s1.tRuntimeStart + _; omega)⟩
    · intro hge; rw [h8] at hge; omega
    · intro t; rw [hr]; simp

theorem runtimeRun_cons_some (s : RuntimeState) (c : RuntimeCall) (rest : List RuntimeCall)
    (r : RuntimeResult) (h : updateRuntime s c.out c.trigger c.clock = some r) :
    runtimeRun s (c :: rest) = if r.spins then [(c, r)] else (c, r) :: runtimeRun r.state rest := by
  simp only [runtimeRun, h]

theorem runtimeRun_cons_none (s : RuntimeState) (c : RuntimeCall) (rest : List RuntimeCall)
    (h : updateRuntime s c.out c.trigger c.clock = none) : runtimeRun s (c :: rest) = [] := by
  simp only [runtimeRun, h]

/-- Every call of a run that starts from a waiting or active supervisor is timely; an active
one logs no further start, and ends in the terminal spin if the clock gets far enough. -/
theorem runtimeRun_active_timely (pin : Nat) (calls : List RuntimeCall) :
    ∀ s, RtActive pin s → (∀ c ∈ calls, ∀ x ∈ c.clock, x < ULONG_MOD) →
      (∀ x ∈ runtimeRun s calls, RtTimely pin x)
      ∧ ((∃ y ∈ runtimeRun s calls,
            DELAY_START + CLOCK_TOLERANCE + RUN_TIME_DURATION ≤ y.2.state.tNow) →
          ∃ x ∈ runtimeRun s calls, x.2.spins = true) := by
  induction calls with
  | nil => intro s _ _; simp [runtimeRun]
  | cons c rest ih =>
    intro s hs hraw
    cases hu : updateRuntime s c.out c.trigger c.clock with
    | none => rw [runtimeRun_cons_none s c rest hu]; simp
    | some r =>
      obtain ⟨g1, g2, g3, -⟩ := RtActive_step pin s c r hs (hraw c (by simp)) hu
      rw [runtimeRun_cons_some s c rest r hu]
      cases hsp : r.spins with
      | true =>
        simp only [if_true]
        refine ⟨fun x hx => by simp at hx; rw [hx]; exact g1, fun _ => ⟨(c, r), by simp, hsp⟩⟩
      | false =>
        simp only [Bool.false_eq_true, if_false]
        obtain ⟨i1, i2⟩ := ih r.state (g2 hsp)
          (fun d hd => hraw d (List.mem_cons_of_mem _ hd))
        refine ⟨?_, ?_⟩
        · intro x hx
          rcases List.mem_cons.mp hx with hx | hx
          · rw [hx]; exact g1
          · exact i1 x hx
        · rintro ⟨y, hy, hge⟩
          rcases List.mem_cons.mp hy with hy | hy
          · rw [hy] at hge
            have := g3 hge
            rw [hsp] at this; cases this
          · obtain ⟨x, hx, hxs⟩ := i2 ⟨y, hy, hge⟩
            exact ⟨x, List.mem_cons_of_mem _ hx, hxs⟩

theorem runtimeRun_idle_timely (pin : Nat) (calls : List RuntimeCall) :
    ∀ s, RtIdle pin s → (∀ c ∈ calls, ∀ x ∈ c.clock, x < ULONG_MOD) →
      (∀ x ∈ runtimeRun s calls, RtTimely pin x)
      ∧ ((∃ y ∈ runtimeRun s calls, DELAY_START ≤ y.2.state.tNow) →
          ∃ x ∈ runtimeRun s calls, Effect.serialMark 'S' x.2.state.tNow ∈ x.2.effects)
      ∧ ((∃ y ∈ runtimeRun s calls,
            DELAY_START + CLOCK_TOLERANCE + RUN_TIME_DURATION ≤ y.2.state.tNow) →
          ∃ x ∈ runtimeRun s calls, x.2.spins = true) := by
  induction calls with
  | nil => intro s _ _; simp [runtimeRun]
  | cons c rest ih =>
    intro s hs hraw
    cases hu : updateRuntime s c.out c.trigger c.clock with
    | none => rw [runtimeRun_cons_none s c rest hu]; simp
    | some r =>
      obtain ⟨g1, g2, g3, g4, g5⟩ := RtIdle_step pin s c r hs (hraw c (by simp)) hu
      have hrest : ∀ d ∈ rest, ∀ x ∈ d.clock, x < ULONG_MOD :=
        fun d hd => hraw d (List.mem_cons_of_mem _ hd)
      rw [runtimeRun_cons_some s c rest r hu, g2]
      simp only [Bool.false_eq_true, if_false]
      have htail : (∀ x ∈ runtimeRun r.state rest, RtTimely pin x)
          ∧ ((∃ y ∈ runtimeRun r.state rest,
                DELAY_START + CLOCK_TOLERANCE + RUN_TIME_DURATION ≤ y.2.state.tNow) →
              ∃ x ∈ runtimeRun r.state rest, x.2.spins = true) := by
        rcases g3 with hi | ha
        · exact ⟨(ih r.state hi hrest).1, (ih r.state hi hrest).2.2⟩
        · exact runtimeRun_active_timely pin rest r.state ha hrest
      have hbound : r.state.tNow < DELAY_START + CLOCK_TOLERANCE + RUN_TIME_DURATION := by
        rcases g3 with hi | ha
        · have h6 := hi.2.2.2.2.2
          rw [g5] at h6
          omega
        · obtain ⟨-, -, -, -, -, -, a1, -, a2⟩ := ha
          rw [g5] at a2
          omega
      refine ⟨?_, ?_, ?_⟩
      · intro x hx
        rcases List.mem_cons.mp hx with hx | hx
        · rw [hx]; exact g1
        · exact htail.1 x hx
      · rintro ⟨y, hy, hge⟩
        by_cases hnow : DELAY_START ≤ r.state.tNow
        · exact ⟨(c, r), by simp, g4 hnow⟩
        · rcases List.mem_cons.mp hy with hy | hy
          · rw [hy] at hge; exact absurd hge hnow
          · rcases g3 with hi | ha
            · obtain ⟨x, hx, hxs⟩ := (ih r.state hi hrest).2.1 ⟨y, hy, hge⟩
              exact ⟨x, List.mem_cons_of_mem _ hx, hxs⟩
            · exfalso
              obtain ⟨-, -, -, -, -, a1, -, a2, -⟩ := ha
              rw [g5] at a2
              omega
      · rintro ⟨y, hy, hge⟩
        rcases List.mem_cons.mp hy with hy | hy
        · exfalso
          rw [hy] at hge
          have hge1 : DELAY_START + CLOCK_TOLERANCE + RUN_TIME_DURATION ≤ r.state.tNow := hge
          omega
        · obtain ⟨x, hx, hxs⟩ := htail.2 ⟨y, hy, hge⟩
          exact ⟨x, List.mem_cons_of_mem _ hx, hxs⟩

/-- The first call on a freshly initialised supervisor without a trigger, when it reads a clock
value within the tolerance after the start value `0`: no effect, and the supervisor waits. -/
theorem RtInit_step (pin : Nat) (s : RuntimeState) (c : RuntimeCall) (r : RuntimeResult)
    (hled : s.led_pin = pin) (hf : s.runtimeFlag = false) (hn : s.inputTrigger = none)
    (hst : s.tStart = 0) (hdur : s.duration = RUN_TIME_DURATION)
    (h : updateRuntime s c.out c.trigger c.clock = some r)
    (hfirst : r.state.tNow ≤ CLOCK_TOLERANCE) :
    RtTimely pin (c, r) ∧ r.spins = false ∧ RtIdle pin r.state
      ∧ r.state.tNow < DELAY_START := by
  obtain ⟨hD, hR, hT, hU, hM⟩ := runtime_constants
  obtain ⟨s1, h1, -, h3, h4, h5, h6, -, h8, hnone, -⟩ :=
    updateRuntime_view s c.out c.trigger c.clock r h
  have hr := hnone hn
  have hsub : usub s1.tNow s1.tStart = s1.tNow := by
    rw [h5, hst, usub_of_le (Nat.zero_le _) (by omega)]; rfl
  have hlt : s1.tNow < DELAY_START := by omega
  rw [updateRuntimeUntriggered_idle s1 c.out (h1.trans hf) (by rw [hsub]; exact hlt)] at hr
  refine ⟨⟨?_, ?_⟩, by rw [hr], ?_, by omega⟩
  · intro t ht; rw [hr] at ht; simp at ht
  · intro hsp; rw [hr] at hsp; cases hsp
  · rw [hr]
    exact ⟨h4.trans hled, h1.trans hf, h6.trans hn, h5.trans hst, h3.trans hdur, hlt⟩

/-- C12 (amended): a supervisor without a trigger, initialised at clock value `0` with start
delay `4000` and duration `1200000`, is updated by calls that read `unsigned long` clock
values, the first of them reading a value at most `CLOCK_TOLERANCE` after `0` (later readings
are kept within the tolerance of the previous one by `currentTime` itself).  Then a call logs
the start only at a reading in `[4000, 4000 + CLOCK_TOLERANCE)`, and the call that ends in the
terminal spin has the exit effects (indicator off, both solenoid lines closed, `E` logged) and
reads a value less than `CLOCK_TOLERANCE` after `tRuntimeStart + 1200000`, hence in
`[1204000, 1204000 + 2 * CLOCK_TOLERANCE)`.  The start happens if the readings reach `4000`,
and the halt if they reach `1204000 + CLOCK_TOLERANCE`. -/
theorem runtime_untriggered_timing (pin tNow0 tRS0 : Nat) (shared : Bool)
    (rs0 : RuntimeState) (e0 : List Effect) (calls : List RuntimeCall)
    (hinit : initRuntime pin none RUN_TIME_DURATION DELAY_START [0] tNow0 tRS0 shared
      = some (rs0, e0))
    (hraw : ∀ c ∈ calls, ∀ x ∈ c.clock, x < ULONG_MOD)
    (hfirst : ∀ x ∈ (runtimeRun rs0 calls).head?, x.2.state.tNow ≤ CLOCK_TOLERANCE) :
    (∀ x ∈ runtimeRun rs0 calls, ∀ t, Effect.serialMark 'S' t ∈ x.2.effects →
        x.2.effects = [Effect.digitalWrite pin HIGH, Effect.serialMark 'S' x.2.state.tNow]
          ∧ 4000 ≤ x.2.state.tNow ∧ x.2.state.tNow < 4000 + CLOCK_TOLERANCE)
    ∧ (∀ x ∈ runtimeRun rs0 calls, x.2.spins = true →
        x.2.effects = runtimeHaltWrites pin ++ [Effect.serialMark 'E' x.2.state.tNow]
          ∧ x.2.state.tRuntimeStart + 1200000 ≤ x.2.state.tNow
          ∧ x.2.state.tNow < x.2.state.tRuntimeStart + 1200000 + CLOCK_TOLERANCE
          ∧ 1204000 ≤ x.2.state.tNow ∧ x.2.state.tNow < 1204000 + 2 * CLOCK_TOLERANCE)
    ∧ ((∃ y ∈ runtimeRun rs0 calls, 4000 ≤ y.2.state.tNow) →
        ∃ x ∈ runtimeRun rs0 calls, Effect.serialMark 'S' x.2.state.tNow ∈ x.2.effects)
    ∧ ((∃ y ∈ runtimeRun rs0 calls, 1204000 + CLOCK_TOLERANCE ≤ y.2.state.tNow) →
        ∃ x ∈ runtimeRun rs0 calls, x.2.spins = true) := by
  obtain ⟨hD, hR, hT, hU, hM⟩ := runtime_constants
  have hall : (∀ x ∈ runtimeRun rs0 calls, RtTimely pin x)
      ∧ ((∃ y ∈ runtimeRun rs0 calls, DELAY_START ≤ y.2.state.tNow) →
          ∃ x ∈ runtimeRun rs0 calls, Effect.serialMark 'S' x.2.state.tNow ∈ x.2.effects)
      ∧ ((∃ y ∈ runtimeRun rs0 calls,
            DELAY_START + CLOCK_TOLERANCE + RUN_TIME_DURATION ≤ y.2.state.tNow) →
          ∃ x ∈ runtimeRun rs0 calls, x.2.spins = true) := by
    cases calls with
    | nil => simp [runtimeRun]
    | cons c rest =>
      cases hu : updateRuntime rs0 c.out c.trigger c.clock with
      | none => rw [runtimeRun_cons_none rs0 c rest hu]; simp
      | some r =>
        simp only [initRuntime, currentTime, Option.some.injEq, Prod.mk.injEq, if_neg,
          ne_eq, not_true_eq_false, not_false_eq_true] at hinit
        obtain ⟨hrs, -⟩ := hinit
        have hsp0 : (runtimeRun rs0 (c :: rest)).head? = some (c, r) := by
          rw [runtimeRun_cons_some rs0 c rest r hu]
          cases r.spins <;> rfl
        have hf1 : r.state.tNow ≤ CLOCK_TOLERANCE := hfirst (c, r) (by rw [hsp0]; rfl)
        obtain ⟨g1, g2, g3, g4⟩ := RtInit_step pin rs0 c r (by rw [← hrs]) (by rw [← hrs])
          (by rw [← hrs]) (by rw [← hrs]) (by rw [← hrs]) hu hf1
        obtain ⟨i1, i2, i3⟩ := runtimeRun_idle_timely pin rest r.state g3
          (fun d hd => hraw d (List.mem_cons_of_mem _ hd))
        rw [runtimeRun_cons_some rs0 c rest r hu, g2]
        simp only [Bool.false_eq_true, if_false]
        refine ⟨?_, ?_, ?_⟩
        · intro x hx
          rcases List.mem_cons.mp hx with hx | hx
          · rw [hx]; exact g1
          · exact i1 x hx
        · rintro ⟨y, hy, hge⟩
          rcases List.mem_cons.mp hy with hy | hy
          · rw [hy] at hge
            have hge1 : DELAY_START ≤ r.state.tNow := hge
            omega
          · obtain ⟨x, hx, hxs⟩ := i2 ⟨y, hy, hge⟩
            exact ⟨x, List.mem_cons_of_mem _ hx, hxs⟩
        · rintro ⟨y, hy, hge⟩
          rcases List.mem_cons.mp hy with hy | hy
          · rw [hy] at hge
            have hge1 : DELAY_START + CLOCK_TOLERANCE + RUN_TIME_DURATION ≤ r.state.tNow := hge
            omega
          · obtain ⟨x, hx, hxs⟩ := i3 ⟨y, hy, hge⟩
            exact ⟨x, List.mem_cons_of_mem _ hx, hxs⟩
  obtain ⟨a1, a2, a3⟩ := hall
  refine ⟨?_, ?_, ?_, ?_⟩
  · intro x hx t ht
    obtain ⟨b1, b2, b3⟩ := (a1 x hx).1 t ht
    exact ⟨b1, by omega, by omega⟩
  · intro x hx hsp
    obtain ⟨b1, -, b3, b4, b5, b6⟩ := (a1 x hx).2 hsp
    exact ⟨b1, by omega, by omega, by omega, by omega⟩
  · rintro ⟨y, hy, hge⟩
    exact a2 ⟨y, hy, by omega⟩
  · rintro ⟨y, hy, hge⟩
    exact a3 ⟨y, hy, by omega⟩

/-! ## Runtime supervisor without a trigger: a late halt -/

theorem updateRuntime_single (s : RuntimeState) (out : TTLState) (v : Bool) (t : Nat)
    (hn : s.inputTrigger = none) (hl : s.tLast ≠ UNSET) (h1 : s.tLast ≤ t)
    (h2 : t ≤ s.tLast + CLOCK_TOLERANCE) (h3 : t < ULONG_MOD) :
    updateRuntime s out v [t] = some (updateRuntimeUntriggered { s with tNow := t } out) := by
  have hacc : clockAccepts s.tLast CLOCK_TOLERANCE t = true :=
    (clockAccepts_iff s.tLast CLOCK_TOLERANCE t h3).mpr ⟨h1, by omega⟩
  simp [updateRuntime, currentTime, currentTimeLoop, hl, hacc, hn]

theorem runtimeAfter_cons (s : RuntimeState) (c : RuntimeCall) (rest : List RuntimeCall)
    (r : RuntimeResult) (h : updateRuntime s c.out c.trigger c.clock = some r)
    (hsp : r.spins = false) : runtimeAfter s (c :: rest) = runtimeAfter r.state rest := by
  simp [runtimeAfter, h, hsp]

theorem runtimeRun_mem_cons (s : RuntimeState) (c : RuntimeCall) (rest : List RuntimeCall)
    (r : RuntimeResult) (x : RuntimeCall × RuntimeResult)
    (h : updateRuntime s c.out c.trigger c.clock = some r) (hsp : r.spins = false)
    (hx : x ∈ runtimeRun r.state rest) : x ∈ runtimeRun s (c :: rest) := by
  rw [runtimeRun_cons_some s c rest r h, hsp]
  exact List.mem_cons_of_mem _ hx

theorem runtimeRun_mem_of_after (A : List RuntimeCall) :
    ∀ (s s2 : RuntimeState) (B : List RuntimeCall) (x : RuntimeCall × RuntimeResult),
      runtimeAfter s A = some s2 → x ∈ runtimeRun s2 B → x ∈ runtimeRun s (A ++ B) := by
  induction A with
  | nil =>
    intro s s2 B x h hx
    simp only [runtimeAfter, Option.some.injEq] at h
    rw [h]; exact hx
  | cons c A1 ih =>
    intro s s2 B x h hx
    cases hu : updateRuntime s c.out c.trigger c.clock with
    | none => simp [runtimeAfter, hu] at h
    | some r =>
      cases hsp : r.spins with
      | true => simp [runtimeAfter, hu, hsp] at h
      | false =>
        rw [runtimeAfter_cons s c A1 r hu hsp] at h
        exact runtimeRun_mem_cons s c (A1 ++ B) r x hu hsp (ih r.state s2 B x h hx)

theorem clockRamp_append (out : TTLState) (A : List Nat) :
    ∀ (t : Nat) (B : List Nat),
      clockRamp out t (A ++ B) = clockRamp out t A ++ clockRamp out (t + A.sum) B := by
  induction A with
  | nil => intro t B; rfl
  | cons d ds ih =>
    intro t B
    show clockRamp out t (d :: (ds ++ B))
      = clockRamp out t (d :: ds) ++ clockRamp out (t + (d :: ds).sum) B
    simp only [clockRamp, List.sum_cons, List.cons_append, ih, Nat.add_assoc]

/-- A run of calls whose clock reads advance in steps within the tolerance, none of which
reaches the start delay (for a waiting supervisor) or the end of the window (for an active
one), changes nothing but the clock fields. -/
theorem clockRamp_quiet (out : TTLState) (ds : List Nat) :
    ∀ (s : RuntimeState), s.inputTrigger = none → (∀ d ∈ ds, d ≤ CLOCK_TOLERANCE) →
      s.tLast + ds.sum < UNSET →
      (s.runtimeFlag = false → s.tStart = 0 ∧ s.tLast + ds.sum < DELAY_START) →
      (s.runtimeFlag = true →
        s.tRuntimeStart ≤ s.tLast ∧ s.tLast + ds.sum < s.tRuntimeStart + s.duration) →
      ∃ s2, runtimeAfter s (clockRamp out s.tLast ds) = some s2 ∧ rtSame s s2
        ∧ s2.tLast = s.tLast + ds.sum := by
  induction ds with
  | nil => intro s _ _ _ _ _; exact ⟨s, rfl, ⟨rfl, rfl, rfl, rfl, rfl, rfl, rfl⟩, rfl⟩
  | cons d ds ih =>
    intro s hn hd hlt hidle hact
    obtain ⟨-, -, -, hU, hM⟩ := runtime_constants
    rw [List.sum_cons] at hlt hidle hact
    have hd1 : d ≤ CLOCK_TOLERANCE := hd d (by simp)
    have hu := updateRuntime_single s out false (s.tLast + d) hn (by omega) (by omega)
      (by omega) (by omega)
    have hq : updateRuntimeUntriggered { s with tNow := s.tLast + d } out
        = { state := { s with tNow := s.tLast + d, tLast := s.tLast + d }, out := out,
            effects := [], spins := false, triggered := false } := by
      cases hf : s.runtimeFlag with
      | false =>
        obtain ⟨a1, a2⟩ := hidle hf
        exact updateRuntimeUntriggered_idle _ out rfl (by
          show usub (s.tLast + d) s.tStart < DELAY_START
          rw [a1, usub_of_le (Nat.zero_le _) (by omega)]
          omega)
      | true =>
        obtain ⟨a1, a2⟩ := hact hf
        exact updateRuntimeUntriggered_active _ out rfl (by
          show usub (s.tLast + d) s.tRuntimeStart < s.duration
          rw [usub_of_le (by omega) (by omega)]
          omega)
    rw [hq] at hu
    obtain ⟨s2, g1, g2, g3⟩ := ih { s with tNow := s.tLast + d, tLast := s.tLast + d } hn
      (fun x hx => hd x (List.mem_cons_of_mem _ hx))
      (by show s.tLast + d + ds.sum < UNSET; omega)
      (fun hf => by
        obtain ⟨a1, a2⟩ := hidle hf
        exact ⟨a1, by show s.tLast + d + ds.sum < DELAY_START; omega⟩)
      (fun hf => by
        obtain ⟨a1, a2⟩ := hact hf
        exact ⟨by show s.tRuntimeStart ≤ s.tLast + d; omega,
          by show s.tLast + d + ds.sum < s.tRuntimeStart + s.duration; omega⟩)
    have g4 : s2.tLast = s.tLast + d + ds.sum := g3
    refine ⟨s2, ?_, g2, by rw [List.sum_cons]; omega⟩
    show runtimeAfter s (⟨[s.tLast + d], false, out⟩ :: clockRamp out (s.tLast + d) ds) = _
    rw [runtimeAfter_cons s ⟨[s.tLast + d], false, out⟩ _ _ hu rfl]
    exact g1

theorem replicate_sums :
    (List.replicate 199 20).sum = 3980 ∧ (List.replicate 59999 20 ++ [19]).sum = 1199999 := by
  refine ⟨?_, ?_⟩
  · rw [List.sum_replicate]; rfl
  · rw [List.sum_append, List.sum_replicate]; rfl

/-- A supervisor without a trigger, initialised at clock value `0`, is updated at `19`, then
along steps `A` that sum to `3980`, then at `4019`, then along steps `B` that sum to
`1199999`, then at `1204038`: the last call is the one that halts. -/
theorem runtimeRun_late_halt (out : TTLState) (A B : List Nat)
    (hA : A.sum = 3980) (hB : B.sum = 1199999)
    (hAle : ∀ d ∈ A, d ≤ CLOCK_TOLERANCE) (hBle : ∀ d ∈ B, d ≤ CLOCK_TOLERANCE) :
    ∃ x ∈ runtimeRun ⟨13, false, 0, UNSET, 0, 0, RUN_TIME_DURATION, DELAY_START, none, false⟩
        (clockRamp out 0 (19 :: (A ++ (20 :: (B ++ [20])))))
      , x.2.spins = true ∧ x.2.state.tNow = 1204038 := by
  obtain ⟨hD, hR, hT, hU, hM⟩ := runtime_constants
  have hshape : clockRamp out 0 (19 :: (A ++ (20 :: (B ++ [20]))))
      = ⟨[19], false, out⟩ :: (clockRamp out 19 A
          ++ (⟨[4019], false, out⟩ :: (clockRamp out 4019 B
            ++ [⟨[1204038], false, out⟩]))) := by
    show ⟨[0 + 19], false, out⟩ :: clockRamp out (0 + 19) _ = _
    rw [clockRamp_append, hA]
    show _ :: (_ ++ (⟨[19 + 3980 + 20], false, out⟩
      :: clockRamp out (19 + 3980 + 20) _)) = _
    rw [clockRamp_append, hB]
    rfl
  rw [hshape]
  -- the first call
  have hu1 : updateRuntime ⟨13, false, 0, UNSET, 0, 0, RUN_TIME_DURATION, DELAY_START, none, false⟩
      out false [19]
      = some ⟨⟨13, false, 19, 19, 0, 0, RUN_TIME_DURATION, DELAY_START, none, false⟩, out, [],
          false, false⟩ := by
    simp [updateRuntime, currentTime, updateRuntimeUntriggered, usub, hD, hM, hR]
  -- the readings up to 3999
  obtain ⟨s2, a1, a2, a3⟩ := clockRamp_quiet out A
    ⟨13, false, 19, 19, 0, 0, RUN_TIME_DURATION, DELAY_START, none, false⟩ rfl hAle
    (by rw [hA]; show 19 + 3980 < UNSET; omega)
    (fun _ => ⟨rfl, by rw [hA]; show 19 + 3980 < DELAY_START; omega⟩)
    (fun hf => by cases hf)
  obtain ⟨b1, b2, b3, b4, b5, b6, -⟩ := a2
  have a4 : s2.tLast = 19 + 3980 := by rw [a3, hA]
  have b2a : s2.runtimeFlag = false := b2.symm
  have b3a : s2.tStart = 0 := b3.symm
  have b5a : s2.duration = RUN_TIME_DURATION := b5.symm
  have b6a : s2.inputTrigger = none := b6.symm
  -- the start at 4019
  have hu3 := updateRuntime_single s2 out false 4019 b6a (by omega) (by omega)
    (by omega) (by omega)
  rw [updateRuntimeUntriggered_start { s2 with tNow := 4019 } out b2a (by
    show usub 4019 s2.tStart ≥ DELAY_START
    rw [b3a, usub_of_le (Nat.zero_le _) (by omega)]
    omega)] at hu3
  -- the readings up to 1204018
  obtain ⟨s4, c1, c2, c3⟩ := clockRamp_quiet out B
    { s2 with tNow := 4019, runtimeFlag := true, tRuntimeStart := 4019, tLast := 4019 }
    b6a hBle
    (by rw [hB]; show 4019 + 1199999 < UNSET; omega)
    (fun hf => by cases hf)
    (fun _ => ⟨le_refl _, by
      rw [hB]
      show 4019 + 1199999 < 4019 + s2.duration
      rw [b5a]; omega⟩)
  obtain ⟨d1, d2, d3, d4, d5, d6, -⟩ := c2
  have c4 : s4.tLast = 4019 + 1199999 := by rw [c3, hB]
  have d2a : s4.runtimeFlag = true := d2.symm
  have d4a : s4.tRuntimeStart = 4019 := d4.symm
  have d5a : s4.duration = RUN_TIME_DURATION := by rw [← d5]; exact b5a
  have d6a : s4.inputTrigger = none := by rw [← d6]; exact b6a
  -- the halt at 1204038
  have hu5 := updateRuntime_single s4 out false 1204038 d6a (by omega) (by omega)
    (by omega) (by omega)
  rw [updateRuntimeUntriggered_halt { s4 with tNow := 1204038 } out d2a (by
    show usub 1204038 s4.tRuntimeStart ≥ s4.duration
    rw [d4a, d5a, usub_of_le (by omega) (by omega)]
    omega)] at hu5
  obtain ⟨r5, e1, e2, e3⟩ : ∃ r5, updateRuntime s4 out false [1204038] = some r5
      ∧ r5.spins = true ∧ r5.state.tNow = 1204038 := ⟨_, hu5, rfl, rfl⟩
  refine ⟨(⟨[1204038], false, out⟩, r5), ?_, e2, e3⟩
  apply runtimeRun_mem_cons _ ⟨[19], false, out⟩ _ _ _ hu1 rfl
  apply runtimeRun_mem_of_after _ _ _ _ _ a1
  apply runtimeRun_mem_cons _ ⟨[4019], false, out⟩ _ _ _ hu3 rfl
  apply runtimeRun_mem_of_after _ _ _ _ _ c1
  rw [runtimeRun_cons_some s4 ⟨[1204038], false, out⟩ [] r5 e1, e2]
  simp

/-- C12, the claim as stated fails: the supervisor is initialised at clock value `0` and then
updated at the readings `19, 39, ..., 3999, 4019, 4039, ..., 1203999, 1204018, 1204038`, each
at most `CLOCK_TOLERANCE` after the one before.  The window starts at `4019`, has not run out
at `1204018`, and the call that halts reads `1204038`, more than `CLOCK_TOLERANCE` after
`1204000`. -/
theorem runtime_halt_late_counterexample :
    ∃ rs0 e0, initRuntime 13 none RUN_TIME_DURATION DELAY_START [0] 0 0 false = some (rs0, e0)
      ∧ (∀ d ∈ 19 :: (List.replicate 199 20
            ++ (20 :: ((List.replicate 59999 20 ++ [19]) ++ [20]))), d ≤ CLOCK_TOLERANCE)
      ∧ ∃ x ∈ runtimeRun rs0 (clockRamp (initTTL 15 OUTPUT 50 50 20).1 0
            (19 :: (List.replicate 199 20
              ++ (20 :: ((List.replicate 59999 20 ++ [19]) ++ [20])))))
          , x.2.spins = true ∧ x.2.state.tNow = 1204038
            ∧ 1204000 + CLOCK_TOLERANCE < x.2.state.tNow := by
  obtain ⟨hD, hR, hT, hU, hM⟩ := runtime_constants
  obtain ⟨hs1, hs2⟩ := replicate_sums
  refine ⟨⟨13, false, 0, UNSET, 0, 0, RUN_TIME_DURATION, DELAY_START, none, false⟩, _, rfl, ?_, ?_⟩
  · intro d hd
    simp only [List.mem_cons, List.mem_append, List.mem_replicate, List.mem_singleton,
      List.not_mem_nil, or_false] at hd
    rcases hd with h | ⟨-, h⟩ | h | ⟨-, h⟩ | h | h <;> omega
  · obtain ⟨x, hx, h1, h2⟩ := runtimeRun_late_halt (initTTL 15 OUTPUT 50 50 20).1
      (List.replicate 199 20) (List.replicate 59999 20 ++ [19]) hs1 hs2
      (fun d hd => by rw [List.eq_of_mem_replicate hd]; omega)
      (fun d hd => by
        rcases List.mem_append.mp hd with h | h
        · rw [List.eq_of_mem_replicate h]; omega
        · rw [List.mem_singleton.mp h]; omega)
    exact ⟨x, hx, h1, h2, by rw [h2]; omega⟩

/-- Every clock value read along a ramp is at most the start plus the sum of the steps. -/
theorem clockRamp_clock_le (out : TTLState) (ds : List Nat) :
    ∀ t, ∀ c ∈ clockRamp out t ds, ∀ x ∈ c.clock, x ≤ t + ds.sum := by
  induction ds with
  | nil => intro t c hc; simp [clockRamp] at hc
  | cons d ds ih =>
    intro t c hc x hx
    simp only [clockRamp, List.mem_cons] at hc
    rw [List.sum_cons]
    rcases hc with rfl | hc
    · simp only [List.mem_singleton] at hx
      omega
    · have := ih (t + d) c hc x hx
      omega

/-- The readings of the ramp of `runtimeRun_late_halt` are `unsigned long` values. -/
theorem clockRamp_late_raw (out : TTLState) (A B : List Nat)
    (hA : A.sum = 3980) (hB : B.sum = 1199999) :
    ∀ c ∈ clockRamp out 0 (19 :: (A ++ (20 :: (B ++ [20])))), ∀ x ∈ c.clock,
      x < ULONG_MOD := by
  intro c hc x hx
  obtain ⟨-, -, -, -, hM⟩ := runtime_constants
  have hle := clockRamp_clock_le out _ 0 c hc x hx
  simp only [List.sum_cons, List.sum_append, List.sum_nil, hA, hB] at hle
  omega

/-- The first call of a ramp from `0` whose first step is `19` reads `19`. -/
theorem runtimeRun_late_first (out : TTLState) (L : List Nat) :
    ∀ x ∈ (runtimeRun ⟨13, false, 0, UNSET, 0, 0, RUN_TIME_DURATION, DELAY_START, none, false⟩
        (clockRamp out 0 (19 :: L))).head?, x.2.state.tNow ≤ CLOCK_TOLERANCE := by
  intro y hy
  obtain ⟨hD, hR, hT, hU, hM⟩ := runtime_constants
  have hu1 : updateRuntime
      ⟨13, false, 0, UNSET, 0, 0, RUN_TIME_DURATION, DELAY_START, none, false⟩
      out false [0 + 19]
      = some ⟨⟨13, false, 19, 19, 0, 0, RUN_TIME_DURATION, DELAY_START, none, false⟩,
          out, [], false, false⟩ := by
    simp [updateRuntime, currentTime, updateRuntimeUntriggered, usub, hD, hM, hR]
  simp only [clockRamp] at hy
  rw [runtimeRun_cons_some _ ⟨[0 + 19], false, out⟩ _ _ hu1] at hy
  simp only [Bool.false_eq_true, if_false, List.head?_cons, Option.mem_def,
    Option.some.injEq] at hy
  rw [← hy]
  show 19 ≤ CLOCK_TOLERANCE
  omega

theorem runtime_untriggered_timing_witness :
    ∃ x ∈ runtimeRun ⟨13, false, 0, UNSET, 0, 0, RUN_TIME_DURATION, DELAY_START, none, false⟩
        (clockRamp (initTTL 15 OUTPUT 50 50 20).1 0
          (19 :: (List.replicate 199 20
            ++ (20 :: ((List.replicate 59999 20 ++ [19]) ++ [20])))))
      , x.2.spins = true ∧ x.2.state.tNow = 1204038
        ∧ x.2.effects = runtimeHaltWrites 13 ++ [Effect.serialMark 'E' 1204038] := by
  obtain ⟨hD, hR, hT, hU, hM⟩ := runtime_constants
  obtain ⟨hs1, hs2⟩ := replicate_sums
  obtain ⟨x, hx, h1, h2⟩ := runtimeRun_late_halt (initTTL 15 OUTPUT 50 50 20).1
    (List.replicate 199 20) (List.replicate 59999 20 ++ [19]) hs1 hs2
    (fun d hd => by rw [List.eq_of_mem_replicate hd]; omega)
    (fun d hd => by
      rcases List.mem_append.mp hd with h | h
      · rw [List.eq_of_mem_replicate h]; omega
      · rw [List.mem_singleton.mp h]; omega)
  have h := (runtime_untriggered_timing 13 0 0 false
    ⟨13, false, 0, UNSET, 0, 0, RUN_TIME_DURATION, DELAY_START, none, false⟩
    [Effect.pinMode 13 OUTPUT, Effect.digitalWrite 13 (levelOf OFF)]
    (clockRamp (initTTL 15 OUTPUT 50 50 20).1 0
      (19 :: (List.replicate 199 20
        ++ (20 :: ((List.replicate 59999 20 ++ [19]) ++ [20])))))
    rfl
    (clockRamp_late_raw (initTTL 15 OUTPUT 50 50 20).1
      (List.replicate 199 20) (List.replicate 59999 20 ++ [19]) hs1 hs2)
    (runtimeRun_late_first (initTTL 15 OUTPUT 50 50 20).1
      (List.replicate 199 20
        ++ (20 :: ((List.replicate 59999 20 ++ [19]) ++ [20]))))).2.1 x hx h1
  exact ⟨x, hx, h1, h2, by rw [← h2]; exact h.1⟩

/-! ## Touch detector: state invariant -/

/-- A call of `detectTouch` keeps the three flags tied to the stored sample. -/
theorem detectTouch_flags (s : TouchState) (out : TTLState) (raw : Bool) (t : Nat)
    (h : s.inTouch = s.last ∧ s.touchEvent = s.last ∧ s.clearEvent = !s.last) :
    (detectTouch s out raw t).1.inTouch = (detectTouch s out raw t).1.last
    ∧ (detectTouch s out raw t).1.touchEvent = (detectTouch s out raw t).1.last
    ∧ (detectTouch s out raw t).1.clearEvent = !(detectTouch s out raw t).1.last := by
  obtain ⟨h1, h2, h3⟩ := h
  cases raw <;> cases hl : s.last
  · rw [((detectTouch_step s out false t).2.2 hl.symm).2.2]; exact ⟨h1, h2, h3⟩
  · rw [((detectTouch_step s out false t).2.1 ⟨rfl, hl⟩).2.2]; exact ⟨rfl, rfl, rfl⟩
  · rw [((detectTouch_step s out true t).1 ⟨rfl, hl⟩).2.2]; exact ⟨rfl, rfl, rfl⟩
  · rw [((detectTouch_step s out true t).2.2 hl.symm).2.2]; exact ⟨h1, h2, h3⟩

/-- A call of `detectTouch` neither reads nor writes the field `current`. -/
theorem detectTouch_current (s : TouchState) (out : TTLState) (raw : Bool) (t : Nat)
    (b : Bool) :
    (detectTouch s out raw t).1.current = s.current
    ∧ detectTouch { s with current := b } out raw t
        = ({ (detectTouch s out raw t).1 with current := b }, (detectTouch s out raw t).2) := by
  unfold detectTouch
  rw [digitalReadCorrected_touch]
  cases raw <;> cases h : s.last <;> simp [h]

/-- The flags and the field `current` after any calls from a state in which the flags agree
with the stored sample. -/
theorem touchAfter_flags (s0 : TouchState)
    (h0 : s0.inTouch = s0.last ∧ s0.touchEvent = s0.last ∧ s0.clearEvent = !s0.last)
    (calls : List TouchCall) (b : Bool) :
    ((touchAfter s0 calls).inTouch = (touchAfter s0 calls).last
      ∧ (touchAfter s0 calls).touchEvent = (touchAfter s0 calls).last
      ∧ (touchAfter s0 calls).clearEvent = !(touchAfter s0 calls).last)
    ∧ (touchAfter s0 calls).current = s0.current
    ∧ touchAfter { s0 with current := b } calls = { touchAfter s0 calls with current := b } := by
  induction calls using List.reverseRecOn with
  | nil => exact ⟨h0, rfl, rfl⟩
  | append_singleton pre c ih =>
    obtain ⟨i1, i2, i3⟩ := ih
    obtain ⟨c1, c2⟩ := detectTouch_current (touchAfter s0 pre) c.out c.raw c.tNow b
    rw [touchAfter_concat, touchAfter_concat, i3, c2]
    exact ⟨detectTouch_flags _ c.out c.raw c.tNow i1, c1.trans i2, rfl⟩

/-- C21: in every state reached from `initTouch` by `detectTouch` calls, `inTouch`,
`touchEvent` and `last` are equal, `last` being the sample of the most recent call (low when
none was made), and `clearEvent` is the negation of `inTouch`.  The field `current` still holds
what `initTouch` read; a call on a record with any other value of `current` does the same and
leaves that value, and a run from an `initTouch` state with another initial reading reaches the
same record up to `current`.  So whatever the line was at initialisation, a first call that
reads the line high logs the touch line, runs `sendTTL` and sets `inTouch`. -/
theorem detectTouch_state_invariant (pin side period : Nat) (raw0 : Bool) (tS tO : Nat)
    (calls : List TouchCall) (c : TouchCall) (b : Bool) :
    let s := touchAfter (initTouch pin side period raw0 tS tO).1 calls
    (s.inTouch = s.touchEvent ∧ s.touchEvent = s.last ∧ s.last = previousSample calls
      ∧ s.clearEvent = !s.inTouch)
    ∧ s.current = raw0
    ∧ detectTouch { s with current := b } c.out c.raw c.tNow
        = ({ (detectTouch s c.out c.raw c.tNow).1 with current := b },
            (detectTouch s c.out c.raw c.tNow).2)
    ∧ (detectTouch s c.out c.raw c.tNow).1.current = s.current
    ∧ touchAfter (initTouch pin side period b tS tO).1 calls = { s with current := b }
    ∧ (c.raw = true →
        (detectTouch (initTouch pin side period raw0 tS tO).1 c.out c.raw c.tNow).2.2
            = Effect.eventLog side TOUCH ON c.tNow :: (sendTTL c.out c.tNow period).2
          ∧ (detectTouch (initTouch pin side period raw0 tS tO).1 c.out c.raw c.tNow).2.1
            = (sendTTL c.out c.tNow period).1
          ∧ (detectTouch (initTouch pin side period raw0 tS tO).1 c.out c.raw c.tNow).1.inTouch
            = true
          ∧ (detectTouch (initTouch pin side period raw0 tS tO).1 c.out c.raw
              c.tNow).1.touchEvent = true) := by
  intro s
  obtain ⟨⟨f1, f2, f3⟩, f4, f5⟩ :=
    touchAfter_flags (initTouch pin side period raw0 tS tO).1 ⟨rfl, rfl, rfl⟩ calls b
  obtain ⟨hlast, -, -⟩ := touchAfter_last (initTouch pin side period raw0 tS tO).1 rfl calls
  obtain ⟨c1, c2⟩ := detectTouch_current s c.out c.raw c.tNow b
  have g1 : s.inTouch = s.last := f1
  have g2 : s.touchEvent = s.last := f2
  have g3 : s.clearEvent = !s.last := f3
  refine ⟨⟨g1.trans g2.symm, g2, hlast, by rw [g3, g1]⟩, f4, c2, c1, f5, ?_⟩
  intro hraw
  obtain ⟨he, hc, hs⟩ :=
    (detectTouch_step (initTouch pin side period raw0 tS tO).1 c.out c.raw c.tNow).1 ⟨hraw, rfl⟩
  exact ⟨he, hc, by rw [hs], by rw [hs]⟩

/-! ## Reward actuator: flag and line -/

theorem lineAfter_append (pin : Nat) (l : Option Bool) (a b : List Effect) :
    lineAfter pin l (a ++ b) = lineAfter pin (lineAfter pin l a) b := by
  simp [lineAfter, List.foldl_append]

/-- A line written with `digitalWriteCorrected` is left at the corrected level. -/
theorem lineAfter_digitalWriteCorrected (pin : Nat) (l : Option Bool) (v flag : Bool) :
    lineAfter pin l (digitalWriteCorrected pin v flag) = some (if flag then !v else v) := by
  simp [lineAfter, digitalWriteCorrected]

/-- The function `sendTTL` writes no other line than that of its channel. -/
theorem lineAfter_sendTTL (pin : Nat) (l : Option Bool) (out : TTLState) (t p : Nat)
    (h : out.pin ≠ pin) : lineAfter pin l (sendTTL out t p).2 = l := by
  unfold sendTTL
  split_ifs <;> simp [lineAfter, h]

theorem solenoidRun_concat (s : SolenoidState) (pre : List SolenoidOp) (op : SolenoidOp) :
    solenoidRun s (pre ++ [op])
      = ((solenoidApply (solenoidRun s pre).1 op).1,
         (solenoidRun s pre).2 ++ (solenoidApply (solenoidRun s pre).1 op).2) := by
  simp [solenoidRun, List.foldl_append]

/-- One call on a solenoid whose line is at the level of its flag (low when open) keeps the pin
and leaves the line at the level of the new flag, the outbound channel being on another pin. -/
theorem solenoidApply_line (s : SolenoidState) (op : SolenoidOp) (l : Option Bool)
    (hpin : op.outPin ≠ some s.pin) (hl : l = some (!s.isOpen)) :
    (solenoidApply s op).1.pin = s.pin
    ∧ lineAfter s.pin l (solenoidApply s op).2 = some (!(solenoidApply s op).1.isOpen) := by
  cases op with
  | activate out t d =>
    have hp : out.pin ≠ s.pin := fun h => hpin (by rw [← h]; rfl)
    cases ho : s.isOpen with
    | true =>
      have hs : solenoidApply s (SolenoidOp.activate out t d) = (s, []) := by
        simp [solenoidApply, activateSolenoid, ho]
      rw [hs]
      exact ⟨rfl, hl⟩
    | false =>
      have hs : solenoidApply s (SolenoidOp.activate out t d)
          = ({ s with isOpen := true, tOpen := t, duration := d },
             digitalWriteCorrected s.pin (levelOf ON) SOLENOID_ACTIVE_LOW
               ++ [Effect.eventLog s.side SOLENOID ON t]
               ++ (sendTTL out t s.ttlPulsePeriod).2) := by
        simp [solenoidApply, activateSolenoid, ho]
      rw [hs]
      refine ⟨rfl, ?_⟩
      rw [lineAfter_append, lineAfter_append, lineAfter_digitalWriteCorrected,
        lineAfter_sendTTL _ _ _ _ _ hp]
      rfl
  | update t =>
    by_cases hc : s.isOpen = true ∧ usub t s.tOpen ≥ s.duration
    · rw [show solenoidApply s (SolenoidOp.update t) = updateSolenoid s t from rfl,
        updateSolenoid_close s t hc.1 hc.2]
      refine ⟨rfl, ?_⟩
      rw [lineAfter_append, lineAfter_digitalWriteCorrected]
      rfl
    · rw [show solenoidApply s (SolenoidOp.update t) = updateSolenoid s t from rfl,
        updateSolenoid_idle s t (by
          by_cases ho : s.isOpen = true
          · exact Or.inr (by
              have : ¬ usub t s.tOpen ≥ s.duration := fun h => hc ⟨ho, h⟩
              omega)
          · exact Or.inl (by simpa using ho))]
      exact ⟨rfl, hl⟩

/-- Along any calls whose outbound channel is on another pin, the pin stays and the line is at
the level of the flag: low when open, high when closed. -/
theorem solenoidRun_line (s0 : SolenoidState) (l0 : Option Bool)
    (h0 : l0 = some (!s0.isOpen)) (ops : List SolenoidOp)
    (hpin : ∀ op ∈ ops, op.outPin ≠ some s0.pin) :
    (solenoidRun s0 ops).1.pin = s0.pin
    ∧ lineAfter s0.pin l0 (solenoidRun s0 ops).2 = some (!(solenoidRun s0 ops).1.isOpen) := by
  induction ops using List.reverseRecOn with
  | nil => exact ⟨rfl, h0⟩
  | append_singleton pre op ih =>
    obtain ⟨i1, i2⟩ := ih (fun x hx => hpin x (List.mem_append_left _ hx))
    have hop : op.outPin ≠ some (solenoidRun s0 pre).1.pin := by
      rw [i1]; exact hpin op (by simp)
    obtain ⟨a1, a2⟩ := solenoidApply_line (solenoidRun s0 pre).1 op _ hop i2
    rw [solenoidRun_concat]
    refine ⟨a1.trans i1, ?_⟩
    rw [lineAfter_append]
    rw [i1] at a2
    exact a2

/-- C22, the claim as stated fails: a solenoid on pin `7` is initialised and then activated with
an idle outbound channel that is on pin `7` as well.  `activateSolenoid` sets the flag and
writes the line low, and its `sendTTL` then writes the same line high: the flag says open and
the level last written to the line is high. -/
theorem solenoid_line_shared_pin_counterexample :
    (solenoidRun (initSolenoid 7 0 50 0 0 0).1
        [SolenoidOp.activate (initTTL 7 OUTPUT 50 50 20).1 100 40]).1.isOpen = true
    ∧ (solenoidRun (initSolenoid 7 0 50 0 0 0).1
        [SolenoidOp.activate (initTTL 7 OUTPUT 50 50 20).1 100 40]).2
        = [Effect.digitalWrite 7 LOW, Effect.eventLog 0 SOLENOID ON 100,
           Effect.digitalWrite 7 HIGH]
    ∧ lineAfter 7 none ((initSolenoid 7 0 50 0 0 0).2
        ++ (solenoidRun (initSolenoid 7 0 50 0 0 0).1
            [SolenoidOp.activate (initTTL 7 OUTPUT 50 50 20).1 100 40]).2) = some HIGH := by
  decide

/-- C22 (amended): in every state reached from `initSolenoid` by any sequence of
`activateSolenoid` and `updateSolenoid` calls in which the outbound channel is on another pin
than the solenoid, the level last written to the solenoid's line is the negation of the open
flag: the line is low exactly when the flag is set, and reading it back under the polarity
`SOLENOID_ACTIVE_LOW` gives the flag.  And for any pin, value and polarity flag, the level
left by `digitalWriteCorrected`, read back through `digitalReadCorrected` with the same flag,
is the value written. -/
theorem solenoid_flag_matches_line (pin side period tO tC d0 : Nat) (l0 : Option Bool)
    (ops : List SolenoidOp) (hpin : ∀ op ∈ ops, op.outPin ≠ some pin) :
    let r := solenoidRun (initSolenoid pin side period tO tC d0).1 ops
    let line := lineAfter pin l0 ((initSolenoid pin side period tO tC d0).2 ++ r.2)
    line = some (!r.1.isOpen)
    ∧ (line = some LOW ↔ r.1.isOpen = true)
    ∧ line.map (fun raw => digitalReadCorrected raw SOLENOID_ACTIVE_LOW) = some r.1.isOpen
    ∧ ∀ (p : Nat) (v flag : Bool) (l : Option Bool),
        (lineAfter p l (digitalWriteCorrected p v flag)).map
          (fun raw => digitalReadCorrected raw flag) = some v := by
  intro r line
  have hinit : lineAfter pin l0 (initSolenoid pin side period tO tC d0).2
      = some (!(initSolenoid pin side period tO tC d0).1.isOpen) := by
    show lineAfter pin l0 ([Effect.pinMode pin OUTPUT]
      ++ digitalWriteCorrected pin (levelOf OFF) SOLENOID_ACTIVE_LOW) = _
    rw [lineAfter_append, lineAfter_digitalWriteCorrected]
    rfl
  obtain ⟨-, h2⟩ := solenoidRun_line (initSolenoid pin side period tO tC d0).1 _ hinit ops hpin
  have hline : line = some (!r.1.isOpen) := by
    show lineAfter pin l0 (_ ++ _) = _
    rw [lineAfter_append]
    exact h2
  refine ⟨hline, ?_, ?_, ?_⟩
  · rw [hline]
    cases r.1.isOpen <;> simp [LOW]
  · rw [hline]
    cases r.1.isOpen <;> rfl
  · intro p v flag l
    rw [lineAfter_digitalWriteCorrected]
    cases flag <;> cases v <;> rfl

theorem solenoid_flag_matches_line_witness :
    (∀ op ∈ [SolenoidOp.activate (initTTL 4 OUTPUT 50 50 20).1 100 40,
          SolenoidOp.update 120, SolenoidOp.activate (initTTL 4 OUTPUT 50 50 20).1 130 40,
          SolenoidOp.update 140], op.outPin ≠ some 7)
    ∧ lineAfter 7 none ((initSolenoid 7 0 50 0 0 0).2
        ++ (solenoidRun (initSolenoid 7 0 50 0 0 0).1
            [SolenoidOp.activate (initTTL 4 OUTPUT 50 50 20).1 100 40,
             SolenoidOp.update 120, SolenoidOp.activate (initTTL 4 OUTPUT 50 50 20).1 130 40,
             SolenoidOp.update 140]).2)
      = some (!(solenoidRun (initSolenoid 7 0 50 0 0 0).1
            [SolenoidOp.activate (initTTL 4 OUTPUT 50 50 20).1 100 40,
             SolenoidOp.update 120, SolenoidOp.activate (initTTL 4 OUTPUT 50 50 20).1 130 40,
             SolenoidOp.update 140]).1.isOpen) :=
  ⟨by decide,
   (solenoid_flag_matches_line 7 0 50 0 0 0 none
      [SolenoidOp.activate (initTTL 4 OUTPUT 50 50 20).1 100 40,
       SolenoidOp.update 120, SolenoidOp.activate (initTTL 4 OUTPUT 50 50 20).1 130 40,
       SolenoidOp.update 140] (by decide)).1⟩

/-! ## Runtime supervisor with a trigger -/

/-- The outbound channel being the trigger channel itself: a supervisor started by a rising
edge at `5` on that channel is updated at `15` with the line still high.  `detectTTL` has left
the one channel active, so the `sendTTL` of the exit block writes nothing, and the channel is
the same behind both pointers afterwards. -/
theorem updateRuntime_shared_channel_no_pulse :
    (updateRuntime
        ⟨13, true, 10, 10, 0, 5, 10, 4000,
          some (detectTTL (initTTL 14 INPUT 50 50 20).1 true 5 false).1, true⟩
        (initTTL 15 OUTPUT 50 50 20).1 true [15]).map
        (fun r => (r.effects, r.out, r.state.inputTrigger))
      = some
          ([Effect.digitalWrite 13 LOW, Effect.digitalWrite SOLENOID_A_PIN HIGH,
            Effect.digitalWrite SOLENOID_B_PIN HIGH, Effect.serialMark 'E' 15],
           (detectTTL (initTTL 14 INPUT 50 50 20).1 true 5 false).1,
           some (detectTTL (initTTL 14 INPUT 50 50 20).1 true 5 false).1) := by
  decide

end LinearTrack
